import Mathlib

/-!
# A shallow embedding of the custom-rdbms-node engine

This file embeds the storage engine (`db/engine/column.js`, `db/engine/index.js`,
`db/engine/table.js`, `db/engine/database.js`), the persistence codec
(`toJSON`/`fromJSON`), the SQL tokenizer and recursive-descent parser
(`db/sql/tokenizer.js`, `db/sql/parser.js`) and the execution layer
(`db/executor/select.js`, `insert.js`, `update.js`, `delete.js`, `join.js`)
of the repository into Lean, and proves properties of the embedding.

Conventions of the embedding:
* JavaScript scalar values stored by the engine are modelled by `Value`
  (integers, strings, booleans, `null`).  The engine's coercion layer
  normalises every stored value into this domain before it reaches a row.
  JavaScript `undefined` (an absent object key) is modelled by `Option.none`
  at lookup sites.
* JavaScript objects and `Map`s are modelled as insertion-ordered association
  lists (`alookup` / `setKey` / `eraseKey` below mirror property read,
  `Map.set`-or-assignment, and `Map.delete`).
* JavaScript exceptions are modelled with `Except String`.  Methods that can
  mutate state before throwing return `Except String α × Table` so that the
  partially mutated state is observable, exactly as after a caught exception.
* JS numbers are modelled by `Int`: every number the engine stores is
  produced by `parseInt` or a literal integer token, and the float/precision
  behaviour of JS numbers is outside the scope of the claims checked here.
-/

namespace RDB

/-- A stored scalar value: JS integer number, string, boolean, or `null`. -/
inductive Value where
  | vint  (n : Int)
  | vstr  (s : String)
  | vbool (b : Bool)
  | vnull
deriving DecidableEq, Repr

/-- Association-list lookup (first binding wins), modelling JS property read
and `Map.get`.  `none` models `undefined`. -/
def alookup {α β : Type} [DecidableEq α] : List (α × β) → α → Option β
  | [], _ => none
  | (a, b) :: t, k => if a = k then some b else alookup t k

/-- Replace the (first) binding of `k` in place, or append a new binding:
models both `obj[k] = v` and `Map.set`, which keep insertion order. -/
def setKey {α β : Type} [DecidableEq α] : List (α × β) → α → β → List (α × β)
  | [], k, v => [(k, v)]
  | (a, b) :: t, k, v => if a = k then (a, v) :: t else (a, b) :: setKey t k v

/-- Remove the (first) binding of `k`: models `Map.delete` / `delete obj[k]`. -/
def eraseKey {α β : Type} [DecidableEq α] : List (α × β) → α → List (α × β)
  | [], _ => []
  | (a, b) :: t, k => if a = k then t else (a, b) :: eraseKey t k

deriving instance DecidableEq for Except

/-- A row: an insertion-ordered object mapping column names to values. -/
def Row : Type := List (String × Value)

instance : DecidableEq Row := by unfold Row; infer_instance

instance : Repr Row := by unfold Row; infer_instance

/-- `row[c]` — `none` models an absent key (`undefined`). -/
def Row.get (r : Row) (c : String) : Option Value := alookup r c

/-- `row[c] = v`. -/
def Row.set (r : Row) (c : String) (v : Value) : Row := setKey r c v

/-- JS template-literal / `String()` rendering of a value (`` `${v}` ``). -/
def jsTemplate : Value → String
  | .vint n  => toString n
  | .vstr s  => s
  | .vbool b => if b then "true" else "false"
  | .vnull   => "null"

/-- JS truthiness of a stored value: `0`, `""`, `false` and `null` are falsy. -/
def jsTruthy : Value → Bool
  | .vint n  => n ≠ 0
  | .vstr s  => s ≠ ""
  | .vbool b => b
  | .vnull   => false

/-! Character-list implementations of the few string operations the engine
uses (`toUpperCase`, `trim`, `includes`); behaviourally identical to the
library versions on this ASCII domain, but they reduce by kernel
computation, which the concrete witnesses below rely on. -/

/-- `s.toUpperCase()`. -/
def jsToUpperCase (s : String) : String := ⟨s.data.map Char.toUpper⟩

/-- `s.trim()`: strip whitespace from both ends. -/
def jsTrim (s : String) : String :=
  ⟨((s.data.dropWhile Char.isWhitespace).reverse.dropWhile Char.isWhitespace).reverse⟩

/-- `s.includes(c)`. -/
def strContains (s : String) (c : Char) : Bool := s.data.contains c

/-! ## Column / type model (`db/engine/column.js`) -/

/-- Numeric value of a digit run; `none` when the run is empty (JS `NaN`). -/
def digitsToNat : List Char → Option Nat
  | [] => none
  | ds => some (ds.foldl (fun a c => a * 10 + (c.toNat - 48)) 0)

/-- `parseInt(s, 10)`: skip leading whitespace, optional sign, then the
longest leading digit run; empty run is `NaN` (`none`). -/
def jsParseInt (s : String) : Option Int :=
  let cs := s.toList.dropWhile Char.isWhitespace
  match cs with
  | '-' :: rest => (digitsToNat (rest.takeWhile Char.isDigit)).map (fun n => -(n : Int))
  | '+' :: rest => (digitsToNat (rest.takeWhile Char.isDigit)).map (fun n => (n : Int))
  | _ => (digitsToNat (cs.takeWhile Char.isDigit)).map (fun n => (n : Int))

/-- A column definition (name, type string, constraint flags). -/
structure Column where
  name : String
  type : String
  primaryKey : Bool
  unique : Bool
deriving DecidableEq, Repr

/-- The `Column` constructor: uppercases the type, derives `unique` from
`primaryKey`, and rejects invalid type names. -/
def Column.make (name type : String) (primaryKey unique : Bool) : Except String Column :=
  let ty := jsToUpperCase type
  if ty = "INT" ∨ ty = "TEXT" ∨ ty = "BOOLEAN" then
    .ok ⟨name, ty, primaryKey, unique || primaryKey⟩
  else
    .error ("Invalid column type: " ++ ty ++ ". Supported types: INT, TEXT, BOOLEAN")

/-- `Column.validateType`: `null` is always valid; otherwise the value's JS
type must match the declared column type. -/
def Column.validateType (c : Column) (v : Value) : Bool :=
  match v with
  | .vnull => true
  | .vint _ => c.type = "INT"
  | .vstr _ => c.type = "TEXT"
  | .vbool _ => c.type = "BOOLEAN"

/-- `Column.coerceType`: best-effort conversion of a value to the column
type, mirroring the source's `parseInt` / `String()` / boolean table.
(`parseInt` of a boolean is `NaN` because it stringifies to a non-digit.) -/
def Column.coerceType (c : Column) (v : Value) : Except String Value :=
  match v with
  | .vnull => .ok .vnull
  | _ =>
    if c.type = "INT" then
      match v with
      | .vint n => .ok (.vint n)
      | .vstr s =>
        match jsParseInt s with
        | some n => .ok (.vint n)
        | none => .error ("Cannot convert \"" ++ jsTemplate v ++ "\" to INT")
      | _ => .error ("Cannot convert \"" ++ jsTemplate v ++ "\" to INT")
    else if c.type = "TEXT" then
      .ok (.vstr (jsTemplate v))
    else if c.type = "BOOLEAN" then
      match v with
      | .vbool b => .ok (.vbool b)
      | _ =>
        if v = .vstr "true" ∨ v = .vint 1 then .ok (.vbool true)
        else if v = .vstr "false" ∨ v = .vint 0 then .ok (.vbool false)
        else .error ("Cannot convert \"" ++ jsTemplate v ++ "\" to BOOLEAN")
    else .ok v

/-! ## Index (`db/engine/index.js`)

The `Map` value for a key is a single row position for unique indexes and a
`Set` of positions otherwise; both are modelled as a `List Nat` bucket (a
unique-index bucket is always a singleton by construction, so `find`'s
`[result]` in the unique branch coincides with returning the bucket). -/

/-- An index over one column.  `entries` models the insertion-ordered
`Map` from (sentinel-encoded) value keys to row-position buckets. -/
structure Index where
  columnName : String
  isPrimaryKey : Bool
  isUnique : Bool
  entries : List (Value × List Nat)
deriving DecidableEq, Repr

/-- The `Index` constructor (`isUnique = isUnique || isPrimaryKey`). -/
def Index.new (columnName : String) (isPrimaryKey isUnique : Bool) : Index :=
  ⟨columnName, isPrimaryKey, isUnique || isPrimaryKey, []⟩

/-- The map key for a value: `null` is stored under the reserved string key
`'__NULL__'` — which therefore collides with the legitimate TEXT value
`"__NULL__"`. -/
def Index.keyOf (v : Value) : Value :=
  if v = .vnull then .vstr "__NULL__" else v

/-- The bucket stored for key `k` (empty if absent). -/
def Index.findK (idx : Index) (k : Value) : List Nat :=
  (alookup idx.entries k).getD []

/-- `Index.add(value, rowIndex)`: unique indexes reject an occupied bucket;
non-unique indexes add the position to the bucket set. -/
def Index.add (idx : Index) (v : Value) (pos : Nat) : Except String Index :=
  let k := Index.keyOf v
  if idx.isUnique || idx.isPrimaryKey then
    if (alookup idx.entries k).isSome then
      .error ("Duplicate value for " ++
        (if idx.isPrimaryKey then "PRIMARY KEY" else "UNIQUE") ++
        " column \"" ++ idx.columnName ++ "\": " ++ jsTemplate v)
    else
      .ok { idx with entries := setKey idx.entries k [pos] }
  else
    match alookup idx.entries k with
    | none => .ok { idx with entries := setKey idx.entries k [pos] }
    | some s => .ok { idx with entries := setKey idx.entries k (if pos ∈ s then s else s ++ [pos]) }

/-- `Index.remove(value, rowIndex)`: deletes the whole bucket for unique
indexes, removes one position (dropping an emptied bucket) otherwise. -/
def Index.remove (idx : Index) (v : Value) (pos : Nat) : Index :=
  let k := Index.keyOf v
  match alookup idx.entries k with
  | none => idx
  | some s =>
    if idx.isUnique || idx.isPrimaryKey then
      { idx with entries := eraseKey idx.entries k }
    else
      let s' := s.erase pos
      if s' = [] then { idx with entries := eraseKey idx.entries k }
      else { idx with entries := setKey idx.entries k s' }

/-- `Index.update(old, new, rowIndex)`: no-op when the values are strictly
equal, else remove-then-add.  `old = none` models the caller passing
`undefined` (the column was absent from the row): `undefined === new` is
false and `remove(undefined, …)` finds no key, so only the add runs. -/
def Index.update (idx : Index) (old : Option Value) (new : Value) (pos : Nat) :
    Except String Index :=
  match old with
  | some o => if o = new then .ok idx else (idx.remove o pos).add new pos
  | none => idx.add new pos

/-- `Index.find(value)`: the positions recorded for the value's key. -/
def Index.find (idx : Index) (v : Value) : List Nat :=
  idx.findK (Index.keyOf v)

/-- `Index.has(value)`. -/
def Index.has (idx : Index) (v : Value) : Bool :=
  (alookup idx.entries (Index.keyOf v)).isSome

/-! ## JS comparison semantics used by the scan/update/delete switches -/

/-- `typeof value` (message text only). -/
def jsTypeof : Value → String
  | .vint _ => "number"
  | .vstr _ => "string"
  | .vbool _ => "boolean"
  | .vnull => "object"

/-- JS `ToNumber` on a stored value; `none` models `NaN`.  String contents
are restricted to optionally-signed integer literals (the only numeric
strings the engine itself produces); other strings are `NaN`. -/
def jsToNumber : Value → Option Int
  | .vint n => some n
  | .vbool b => some (if b then 1 else 0)
  | .vnull => some 0
  | .vstr s =>
    let cs := (jsTrim s).toList
    if cs = [] then some 0
    else
      match cs with
      | '-' :: rest => if rest ≠ [] ∧ rest.all Char.isDigit then (digitsToNat rest).map (fun n => -(n : Int)) else none
      | '+' :: rest => if rest ≠ [] ∧ rest.all Char.isDigit then (digitsToNat rest).map (fun n => (n : Int)) else none
      | _ => if cs.all Char.isDigit then (digitsToNat cs).map (fun n => (n : Int)) else none

/-- JS abstract relational comparison for `> < >= <=`: string/string compares
lexicographically, anything else goes through `ToNumber`, and a `NaN` operand
(including `undefined`) makes every comparison false. -/
def jsRel (op : String) (l r : Option Value) : Bool :=
  match l, r with
  | some (.vstr a), some (.vstr b) =>
    if op = ">" then decide (b < a)
    else if op = "<" then decide (a < b)
    else if op = ">=" then !decide (a < b)
    else if op = "<=" then !decide (b < a)
    else false
  | _, _ =>
    match l.bind jsToNumber, r.bind jsToNumber with
    | some x, some y =>
      if op = ">" then decide (x > y)
      else if op = "<" then decide (x < y)
      else if op = ">=" then decide (x ≥ y)
      else if op = "<=" then decide (x ≤ y)
      else false
    | _, _ => false

/-- The comparison `switch` shared by `Table.update`, `Table.delete` and the
join executor's `_matchesWhere`: strict (in)equality for `=`/`!=`, relational
comparison otherwise, and `false` for an unrecognized operator (those
switches have no throwing default). -/
def jsSwitchCompare (op : String) (rowValue : Option Value) (value : Value) : Bool :=
  if op = "=" then decide (rowValue = some value)
  else if op = "!=" then !decide (rowValue = some value)
  else if op = ">" ∨ op = "<" ∨ op = ">=" ∨ op = "<=" then jsRel op rowValue (some value)
  else false

/-- The scan comparison of `Table.find`, which (unlike the other switches)
throws on an unsupported operator. -/
def scanCompare (op : String) (rowValue : Option Value) (value : Value) : Except String Bool :=
  if op = "=" ∨ op = "!=" ∨ op = ">" ∨ op = "<" ∨ op = ">=" ∨ op = "<=" then
    .ok (jsSwitchCompare op rowValue value)
  else .error ("Unsupported operator: " ++ op)

/-! ## Table (`db/engine/table.js`) -/

/-- A WHERE-style condition `{ column, operator, value }`. -/
structure Cond where
  column : String
  operator : String
  value : Value
deriving DecidableEq, Repr

/-- A table: name, schema columns, row sequence, and the insertion-ordered
map of constrained column name to `Index`. -/
structure Table where
  name : String
  columns : List Column
  rows : List Row
  indexes : List (String × Index)
deriving DecidableEq, Repr

/-- `_createIndexes`: one unique index per primary-key or unique column. -/
def createIndexes : List Column → List (String × Index)
  | [] => []
  | c :: rest =>
    if c.primaryKey then (c.name, Index.new c.name true true) :: createIndexes rest
    else if c.unique then (c.name, Index.new c.name false true) :: createIndexes rest
    else createIndexes rest

/-- The `Table` constructor: `_validateSchema` (≥ 1 column, unique names,
≤ 1 primary key, primary key forces the unique flag) then `_createIndexes`. -/
def Table.make (name : String) (columns : List Column) : Except String Table :=
  if columns = [] then .error "Table must have at least one column"
  else if ¬ (columns.map Column.name).Nodup then .error "Duplicate column names are not allowed"
  else if 1 < (columns.filter (fun c => c.primaryKey)).length then
    .error "Table can have at most one PRIMARY KEY"
  else
    let cols := columns.map (fun c => if c.primaryKey then { c with unique := true } else c)
    .ok { name := name, columns := cols, rows := [], indexes := createIndexes cols }

/-- `getColumn`. -/
def Table.getColumn (t : Table) (c : String) : Option Column :=
  t.columns.find? (fun col => col.name == c)

/-- `getPrimaryKeyColumn`. -/
def Table.getPrimaryKeyColumn (t : Table) : Option Column :=
  t.columns.find? (fun col => col.primaryKey)

/-- `_validateRow` step 1: every primary-key column must be present. -/
def checkPkPresence (cols : List Column) (row : Row) : Except String Unit :=
  match cols with
  | [] => .ok ()
  | c :: rest =>
    if c.primaryKey ∧ (Row.get row c.name).isNone then
      .error ("PRIMARY KEY column \"" ++ c.name ++ "\" is required")
    else checkPkPresence rest row

/-- `_validateRow` step 2: coerce then validate each present column value,
updating the row copy in place. -/
def coerceRowColumns (cols : List Column) (row : Row) : Except String Row :=
  match cols with
  | [] => .ok row
  | c :: rest =>
    match Row.get row c.name with
    | none => coerceRowColumns rest row
    | some v =>
      match c.coerceType v with
      | .error e => .error ("Type error for column \"" ++ c.name ++ "\": " ++ e)
      | .ok v' =>
        if c.validateType v' then coerceRowColumns rest (Row.set row c.name v')
        else .error ("Type mismatch for column \"" ++ c.name ++ "\": expected " ++
          c.type ++ ", got " ++ jsTypeof v)

/-- `_validateRow` step 3: reject keys that name no schema column. -/
def checkUnknownKeys (t : Table) : List (String × Value) → Except String Unit
  | [] => .ok ()
  | (k, _) :: rest =>
    if (t.getColumn k).isNone then .error ("Unknown column: " ++ k)
    else checkUnknownKeys t rest

/-- `_validateRow`, returning the coerced row copy. -/
def Table.validateRow (t : Table) (row : Row) : Except String Row :=
  match checkPkPresence t.columns row with
  | .error e => .error e
  | .ok () =>
    match coerceRowColumns t.columns row with
    | .error e => .error e
    | .ok row' =>
      match checkUnknownKeys t row' with
      | .error e => .error e
      | .ok () => .ok row'

/-- The primary-key occupancy check of `insert`. -/
def Table.checkPkDup (t : Table) (row : Row) : Except String Unit :=
  match t.getPrimaryKeyColumn with
  | none => .ok ()
  | some pk =>
    match Row.get row pk.name with
    | none => .ok ()
    | some v =>
      match alookup t.indexes pk.name with
      | none => .ok ()
      | some idx =>
        if idx.has v then .error ("Duplicate PRIMARY KEY value: " ++ jsTemplate v)
        else .ok ()

/-- The unique-column occupancy checks of `insert` (`column.unique &&
column.name in row` guards the index probe). -/
def checkUniqueDups (idxs : List (String × Index)) : List Column → Row → Except String Unit
  | [], _ => .ok ()
  | c :: rest, row =>
    match (if c.unique then Row.get row c.name else none) with
    | none => checkUniqueDups idxs rest row
    | some v =>
      match alookup idxs c.name with
      | none => checkUniqueDups idxs rest row
      | some idx =>
        if idx.has v then
          .error ("Duplicate UNIQUE value for column \"" ++ c.name ++ "\": " ++ jsTemplate v)
        else checkUniqueDups idxs rest row

/-- The index-maintenance loop of `insert` (and the inner loop of
`_rebuildIndexes`): add the new position to every index whose column the row
carries.  A thrown add leaves the earlier additions in place. -/
def addRowToIndexes (row : Row) (pos : Nat) :
    List (String × Index) → Except String Unit × List (String × Index)
  | [] => (.ok (), [])
  | (c, idx) :: rest =>
    match Row.get row c with
    | none =>
      let r := addRowToIndexes row pos rest
      (r.1, (c, idx) :: r.2)
    | some v =>
      match idx.add v pos with
      | .error e => (.error e, (c, idx) :: rest)
      | .ok idx' =>
        let r := addRowToIndexes row pos rest
        (r.1, (c, idx') :: r.2)

/-- `Table.insert`: validate/coerce, check constraints (all before any
mutation), then append the row and update the indexes. -/
def Table.insert (t : Table) (rowData : Row) : Except String Row × Table :=
  match t.validateRow rowData with
  | .error e => (.error e, t)
  | .ok row =>
    match t.checkPkDup row with
    | .error e => (.error e, t)
    | .ok () =>
      match checkUniqueDups t.indexes t.columns row with
      | .error e => (.error e, t)
      | .ok () =>
        let r := addRowToIndexes row t.rows.length t.indexes
        let t' := { t with rows := t.rows ++ [row], indexes := r.2 }
        match r.1 with
        | .error e => (.error e, t')
        | .ok () => (.ok row, t')

/-- The linear-scan branch of `Table.find`. -/
def scanFind (op : String) (v : Value) (c : String) : List Row → Except String (List Row)
  | [] => .ok []
  | r :: rest =>
    match scanCompare op (Row.get r c) v with
    | .error e => .error e
    | .ok b =>
      match scanFind op v c rest with
      | .error e => .error e
      | .ok tail => .ok (if b then r :: tail else tail)

/-- `Table.find`: no condition returns all rows; `=` on an indexed column is
served from the index (`rows[idx]` spreading `undefined` to `{}` is modelled
by `getD i []`); everything else is a linear scan. -/
def Table.find (t : Table) (cond : Option Cond) : Except String (List Row) :=
  match cond with
  | none => .ok t.rows
  | some w =>
    if (t.getColumn w.column).isNone then
      .error ("Column \"" ++ w.column ++ "\" not found")
    else if w.operator = "=" then
      match alookup t.indexes w.column with
      | some idx => .ok ((idx.find w.value).map (fun i => t.rows.getD i []))
      | none => scanFind w.operator w.value w.column t.rows
    else scanFind w.operator w.value w.column t.rows

/-- The up-front coercion/validation loop of `Table.update` over the
`updates` map, returning the coerced map. -/
def Table.validateUpdates (t : Table) : List (String × Value) → Except String (List (String × Value))
  | [] => .ok []
  | (c, v) :: rest =>
    match t.getColumn c with
    | none => .error ("Column \"" ++ c ++ "\" not found")
    | some col =>
      match col.coerceType v with
      | .error e => .error ("Type error for column \"" ++ c ++ "\": " ++ e)
      | .ok v' =>
        if col.validateType v' then
          match t.validateUpdates rest with
          | .error e => .error e
          | .ok rest' => .ok ((c, v') :: rest')
        else .error ("Type mismatch for column \"" ++ c ++ "\"")

/-- Condition matching as inlined in the update/delete loops. -/
def matchesCond (cond : Option Cond) (row : Row) : Bool :=
  match cond with
  | none => true
  | some w => jsSwitchCompare w.operator (Row.get row w.column) w.value

/-- The per-matching-row uniqueness probe of `Table.update`: for each updated
unique/primary column whose value strictly changes, an occupied bucket for
the new value aborts the update.  (The `getColumn` miss branch models the JS
`TypeError` on reading `.unique` of `undefined`; it is unreachable after
`validateUpdates`.) -/
def checkUpdateConstraints (t : Table) (row : Row) : List (String × Value) → Except String Unit
  | [] => .ok ()
  | (c, newV) :: rest =>
    match t.getColumn c with
    | none => .error "Cannot read properties of undefined (reading 'unique')"
    | some col =>
      if col.unique || col.primaryKey then
        if some newV ≠ Row.get row c then
          match alookup t.indexes c with
          | some idx =>
            if idx.has newV then
              .error ("Duplicate " ++ (if col.primaryKey then "PRIMARY KEY" else "UNIQUE") ++
                " value for column \"" ++ c ++ "\": " ++ jsTemplate newV)
            else checkUpdateConstraints t row rest
          | none => checkUpdateConstraints t row rest
        else checkUpdateConstraints t row rest
      else checkUpdateConstraints t row rest

/-- `Object.assign(row, updates)`. -/
def assignRow (row : Row) (ups : List (String × Value)) : Row :=
  ups.foldl (fun r p => Row.set r p.1 p.2) row

/-- The per-matching-row index maintenance of `Table.update`:
`indexes[c].update(oldValues[c], row[c], i)` for every updated column with
an index (the old value is read from the pre-assignment row). -/
def updateRowIndexes (oldRow : Row) (i : Nat) :
    List (String × Value) → List (String × Index) → Except String Unit × List (String × Index)
  | [], idxs => (.ok (), idxs)
  | (c, newV) :: rest, idxs =>
    match alookup idxs c with
    | none => updateRowIndexes oldRow i rest idxs
    | some idx =>
      match idx.update (Row.get oldRow c) newV i with
      | .error e => (.error e, idxs)
      | .ok idx' => updateRowIndexes oldRow i rest (setKey idxs c idx')

/-- The row loop of `Table.update` over positions `0 … rows.length - 1`
(the row count never changes inside the loop). -/
def Table.updateLoop (ups : List (String × Value)) (cond : Option Cond) :
    List Nat → Nat → Table → Except String Nat × Table
  | [], count, t => (.ok count, t)
  | i :: is, count, t =>
    let row := t.rows.getD i []
    if matchesCond cond row then
      match checkUpdateConstraints t row ups with
      | .error e => (.error e, t)
      | .ok () =>
        let t1 := { t with rows := t.rows.set i (assignRow row ups) }
        let r := updateRowIndexes row i ups t1.indexes
        let t2 := { t1 with indexes := r.2 }
        match r.1 with
        | .error e => (.error e, t2)
        | .ok () => Table.updateLoop ups cond is (count + 1) t2
    else Table.updateLoop ups cond is count t

/-- `Table.update`: coerce+validate the whole updates map first, evaluate
`find(condition)` for its (possible) exception, then run the row loop. -/
def Table.update (t : Table) (ups : List (String × Value)) (cond : Option Cond) :
    Except String Nat × Table :=
  match t.validateUpdates ups with
  | .error e => (.error e, t)
  | .ok ups' =>
    match (match cond with
           | some w => (t.find (some w)).map (fun _ => ())
           | none => .ok ()) with
    | .error e => (.error e, t)
    | .ok () => Table.updateLoop ups' cond (List.range t.rows.length) 0 t

/-- The per-index removal loop run before a row is spliced out. -/
def removeRowFromIndexes (row : Row) (i : Nat) :
    List (String × Index) → List (String × Index)
  | [] => []
  | (c, idx) :: rest =>
    (c, match Row.get row c with
        | none => idx
        | some v => idx.remove v i) :: removeRowFromIndexes row i rest

/-- Fresh (empty) replacements for every index, keeping names and flags. -/
def freshIndexes (idxs : List (String × Index)) : List (String × Index) :=
  idxs.map (fun p => (p.1, Index.new p.2.columnName p.2.isPrimaryKey p.2.isUnique))

/-- The outer loop of `_rebuildIndexes`: re-add every row position. -/
def addRowsToIndexes : List (Nat × Row) → List (String × Index) → Except String Unit × List (String × Index)
  | [], idxs => (.ok (), idxs)
  | (i, row) :: rest, idxs =>
    match addRowToIndexes row i idxs with
    | (.error e, idxs') => (.error e, idxs')
    | (.ok (), idxs') => addRowsToIndexes rest idxs'

/-- `_rebuildIndexes`: replace every index by a fresh one, then re-add all
rows in position order. -/
def Table.rebuildIndexes (t : Table) : Except String Unit × Table :=
  let r := addRowsToIndexes t.rows.enum (freshIndexes t.indexes)
  (r.1, { t with indexes := r.2 })

/-- The reverse-order row loop of `Table.delete`: `deleteLoop w (i+1) t`
processes positions `i, i-1, …, 0` of the current row list; each removal
splices the row out and rebuilds every index from scratch. -/
def Table.deleteLoop (w : Cond) : Nat → Table → Except String Nat × Table
  | 0, t => (.ok 0, t)
  | i + 1, t =>
    let row := t.rows.getD i []
    if jsSwitchCompare w.operator (Row.get row w.column) w.value then
      let t1 := { t with indexes := removeRowFromIndexes row i t.indexes }
      let t2 := { t1 with rows := t1.rows.eraseIdx i }
      match t2.rebuildIndexes with
      | (.error e, t3) => (.error e, t3)
      | (.ok (), t3) =>
        match Table.deleteLoop w i t3 with
        | (.error e, t4) => (.error e, t4)
        | (.ok c, t4) => (.ok (c + 1), t4)
    else Table.deleteLoop w i t

/-- `Table.delete`: no condition clears the rows and resets every index;
otherwise scan backwards deleting matches. -/
def Table.delete (t : Table) (cond : Option Cond) : Except String Nat × Table :=
  match cond with
  | none => (.ok t.rows.length, { t with rows := [], indexes := freshIndexes t.indexes })
  | some w => Table.deleteLoop w t.rows.length t

/-! ## Database registry (`db/engine/database.js`) -/

/-- A database: name plus the insertion-ordered table registry. -/
structure Database where
  name : String
  tables : List (String × Table)
deriving DecidableEq, Repr

/-- `Database.getTable`: fails on a missing name. -/
def Database.getTable (db : Database) (n : String) : Except String Table :=
  match alookup db.tables n with
  | some t => .ok t
  | none => .error ("Table \"" ++ n ++ "\" not found")

/-- `Database.hasTable`. -/
def Database.hasTable (db : Database) (n : String) : Bool :=
  (alookup db.tables n).isSome

/-! ## Persistence codec (`toJSON` / `fromJSON`, `db/engine/storage.js`)

`Storage.save` writes `JSON.stringify(database.toJSON())` to the file and
`Storage.load` parses the file and calls `Database.fromJSON`.  The durable
document is modelled structurally by the `…Doc` types below; `JSON.stringify`
followed by `JSON.parse` is the identity on this domain (finite trees of
objects, arrays, strings, booleans, `null` and the integral numbers the
engine stores), so save-then-load is modelled as `fromJSON ∘ toJSON`. -/

/-- Serialized column. -/
structure ColumnDoc where
  name : String
  type : String
  primaryKey : Bool
  unique : Bool
deriving DecidableEq, Repr

/-- Serialized index.  JSON object keys are strings, so the `Map` keys are
stringified; the buckets keep the stored position(s) (a unique index
serializes its single position, modelled as the singleton bucket).  The
loader never reads this payload — indexes are rebuilt from the rows. -/
structure IndexDoc where
  columnName : String
  isPrimaryKey : Bool
  isUnique : Bool
  indexMap : List (String × List Nat)
deriving DecidableEq, Repr

/-- Serialized table. -/
structure TableDoc where
  name : String
  columns : List ColumnDoc
  rows : List Row
  indexes : List (String × IndexDoc)
deriving DecidableEq, Repr

/-- Serialized database: the full durable document. -/
structure DatabaseDoc where
  name : String
  tables : List (String × TableDoc)
deriving DecidableEq, Repr

/-- `Column.toJSON`. -/
def Column.toJSON (c : Column) : ColumnDoc :=
  ⟨c.name, c.type, c.primaryKey, c.unique⟩

/-- `Column.fromJSON`: runs the `Column` constructor. -/
def Column.fromJSON (d : ColumnDoc) : Except String Column :=
  Column.make d.name d.type d.primaryKey d.unique

/-- `Index.toJSON` (object keys stringified as by JS property keys). -/
def Index.toJSON (idx : Index) : IndexDoc :=
  ⟨idx.columnName, idx.isPrimaryKey, idx.isUnique,
    idx.entries.map (fun p => (jsTemplate p.1, p.2))⟩

/-- `Table.toJSON`. -/
def Table.toJSON (t : Table) : TableDoc :=
  ⟨t.name, t.columns.map Column.toJSON, t.rows,
    t.indexes.map (fun p => (p.1, p.2.toJSON))⟩

/-- `json.columns.map(Column.fromJSON)` — the first failure propagates. -/
def columnsFromJSON : List ColumnDoc → Except String (List Column)
  | [] => .ok []
  | d :: rest =>
    match Column.fromJSON d with
    | .error e => .error e
    | .ok c =>
      match columnsFromJSON rest with
      | .error e => .error e
      | .ok cs => .ok (c :: cs)

/-- `Table.fromJSON`: rebuild the columns and the table (running the
constructor's schema validation), restore the rows verbatim, then rebuild
every index from the rows instead of trusting the serialized payload. -/
def Table.fromJSON (doc : TableDoc) : Except String Table :=
  match columnsFromJSON doc.columns with
  | .error e => .error e
  | .ok cols =>
    match Table.make doc.name cols with
    | .error e => .error e
    | .ok table =>
      let r := addRowsToIndexes doc.rows.enum (createIndexes table.columns)
      match r.1 with
      | .error e => .error e
      | .ok () => .ok { table with rows := doc.rows, indexes := r.2 }

/-- `Database.toJSON`. -/
def Database.toJSON (db : Database) : DatabaseDoc :=
  ⟨db.name, db.tables.map (fun p => (p.1, p.2.toJSON))⟩

/-- The table-restoring loop of `Database.fromJSON`. -/
def tablesFromJSON : List (String × TableDoc) → Except String (List (String × Table))
  | [] => .ok []
  | (n, d) :: rest =>
    match Table.fromJSON d with
    | .error e => .error e
    | .ok t =>
      match tablesFromJSON rest with
      | .error e => .error e
      | .ok ts => .ok ((n, t) :: ts)

/-- `Database.fromJSON`. -/
def Database.fromJSON (doc : DatabaseDoc) : Except String Database :=
  match tablesFromJSON doc.tables with
  | .error e => .error e
  | .ok ts => .ok ⟨doc.name, ts⟩

/-! ## AST nodes (`db/sql/ast.js`) -/

/-- A column definition inside a CREATE TABLE node; `constraints = []`
models the `undefined` constraints field. -/
structure CreateTableColumnDef where
  name : String
  type : String
  constraints : List String
deriving DecidableEq, Repr

/-- CREATE TABLE node. -/
structure CreateTableNode where
  tableName : String
  columns : List CreateTableColumnDef
deriving DecidableEq, Repr

/-- The `on` part of a join clause. -/
structure JoinOn where
  left : String
  right : String
deriving DecidableEq, Repr

/-- A join clause (`type` is always `'INNER'`; `onCols` models the `on`
field, which clashes with a Lean notation token). -/
structure JoinClause where
  type : String
  table : String
  onCols : JoinOn
deriving DecidableEq, Repr

/-- SELECT node (`whereCond` models the `where` field, a Lean keyword). -/
structure SelectNode where
  tableName : String
  columns : List String
  whereCond : Option Cond
  join : Option JoinClause
deriving DecidableEq, Repr

/-- INSERT node. -/
structure InsertNode where
  tableName : String
  columns : List String
  values : List Value
deriving DecidableEq, Repr

/-- UPDATE node. -/
structure UpdateNode where
  tableName : String
  updates : List (String × Value)
  whereCond : Option Cond
deriving DecidableEq, Repr

/-- DELETE node. -/
structure DeleteNode where
  tableName : String
  whereCond : Option Cond
deriving DecidableEq, Repr

/-- One parsed statement. -/
inductive ASTNode where
  | createTable (node : CreateTableNode)
  | select (node : SelectNode)
  | insert (node : InsertNode)
  | update (node : UpdateNode)
  | delete (node : DeleteNode)
deriving DecidableEq, Repr

/-! ## Join executor (`db/executor/join.js`) -/

/-- `_createJoinedRow`: every field of both rows is re-keyed as
`table.column` (assignment order: left fields, then right fields). -/
def createJoinedRow (leftRow rightRow : Row) (leftName rightName : String) : Row :=
  let j1 := leftRow.foldl (fun acc p => Row.set acc (leftName ++ "." ++ p.1) p.2) ([] : Row)
  rightRow.foldl (fun acc p => Row.set acc (rightName ++ "." ++ p.1) p.2) j1

/-- `_matchesWhere`: the condition column is looked up verbatim in the merged
row.  (The source's "try without prefix" fallback re-reads the same key and
is a no-op, so an unqualified column resolves to `undefined`.) -/
def matchesWhere (row : Row) (w : Cond) : Bool :=
  jsSwitchCompare w.operator (Row.get row w.column) w.value

/-- JS `a || b` on possibly-absent values: a truthy `a` wins, otherwise `b`. -/
def jsOr (a b : Option Value) : Option Value :=
  match a with
  | some v => if jsTruthy v then some v else b
  | none => b

/-- The per-column resolution loop of `_projectColumns`: qualified names are
looked up directly; unqualified names probe `left.col || right.col`. -/
def projectLoop (joined : Row) (leftName rightName : String) (acc : Row) :
    List String → Except String Row
  | [] => .ok acc
  | col :: rest =>
    let value : Option Value :=
      if strContains col '.' then Row.get joined col
      else jsOr (Row.get joined (leftName ++ "." ++ col)) (Row.get joined (rightName ++ "." ++ col))
    match value with
    | some v => projectLoop joined leftName rightName (Row.set acc col v) rest
    | none => .error ("Column \"" ++ col ++ "\" not found in joined result")

/-- `_projectColumns`. -/
def projectColumns (joined : Row) (cols : List String) (leftName rightName : String) :
    Except String Row :=
  if "*" ∈ cols then .ok joined
  else projectLoop joined leftName rightName [] cols

/-- The per-merged-row emission: apply the WHERE filter, then project. -/
def joinEmit (joined : Row) (w : Option Cond) (cols : List String)
    (leftName rightName : String) : Except String (List Row) :=
  match w with
  | some wc =>
    if matchesWhere joined wc then
      match projectColumns joined cols leftName rightName with
      | .error e => .error e
      | .ok p => .ok [p]
    else .ok []
  | none =>
    match projectColumns joined cols leftName rightName with
    | .error e => .error e
    | .ok p => .ok [p]

/-- The inner loop of the index join: probe results for one left row. -/
def indexJoinInner (rightRows : List Row) (leftRow : Row) (w : Option Cond)
    (cols : List String) (leftName rightName : String) : List Nat → Except String (List Row)
  | [] => .ok []
  | p :: ps =>
    let joined := createJoinedRow leftRow (rightRows.getD p []) leftName rightName
    match joinEmit joined w cols leftName rightName with
    | .error e => .error e
    | .ok hd =>
      match indexJoinInner rightRows leftRow w cols leftName rightName ps with
      | .error e => .error e
      | .ok tl => .ok (hd ++ tl)

/-- The index-join strategy: probe the right index once per left row.
A left row lacking the join column probes with `undefined`, which is never
a stored key. -/
def indexJoinLoop (idx : Index) (rightRows : List Row) (lc : String) (w : Option Cond)
    (cols : List String) (leftName rightName : String) : List Row → Except String (List Row)
  | [] => .ok []
  | leftRow :: restL =>
    let positions :=
      match Row.get leftRow lc with
      | some v => idx.find v
      | none => []
    match indexJoinInner rightRows leftRow w cols leftName rightName positions with
    | .error e => .error e
    | .ok hd =>
      match indexJoinLoop idx rightRows lc w cols leftName rightName restL with
      | .error e => .error e
      | .ok tl => .ok (hd ++ tl)

/-- The inner loop of the nested-loop join; `leftRow[lc] === rightRow[rc]`
also matches two rows that both lack the join column (`undefined ===
undefined`). -/
def nestedJoinInner (leftRow : Row) (lc rc : String) (w : Option Cond)
    (cols : List String) (leftName rightName : String) : List Row → Except String (List Row)
  | [] => .ok []
  | rightRow :: restR =>
    if Row.get leftRow lc = Row.get rightRow rc then
      let joined := createJoinedRow leftRow rightRow leftName rightName
      match joinEmit joined w cols leftName rightName with
      | .error e => .error e
      | .ok hd =>
        match nestedJoinInner leftRow lc rc w cols leftName rightName restR with
        | .error e => .error e
        | .ok tl => .ok (hd ++ tl)
    else nestedJoinInner leftRow lc rc w cols leftName rightName restR

/-- The nested-loop join strategy. -/
def nestedJoinLoop (rightRows : List Row) (lc rc : String) (w : Option Cond)
    (cols : List String) (leftName rightName : String) : List Row → Except String (List Row)
  | [] => .ok []
  | leftRow :: restL =>
    match nestedJoinInner leftRow lc rc w cols leftName rightName rightRows with
    | .error e => .error e
    | .ok hd =>
      match nestedJoinLoop rightRows lc rc w cols leftName rightName restL with
      | .error e => .error e
      | .ok tl => .ok (hd ++ tl)

/-- `executeJoin`: validate the join columns, materialize both row sets
(`find(null)`), pick index join when the right join column has an index,
else nested loop. -/
def executeJoin (ast : SelectNode) (db : Database) : Except String (List Row) :=
  match ast.join with
  | none => .error "No JOIN clause found"
  | some join =>
    match db.getTable ast.tableName with
    | .error e => .error e
    | .ok leftTable =>
      match db.getTable join.table with
      | .error e => .error e
      | .ok rightTable =>
        if (leftTable.getColumn join.onCols.left).isNone then
          .error ("Column \"" ++ join.onCols.left ++ "\" not found in table \"" ++ ast.tableName ++ "\"")
        else if (rightTable.getColumn join.onCols.right).isNone then
          .error ("Column \"" ++ join.onCols.right ++ "\" not found in table \"" ++ join.table ++ "\"")
        else
          let leftRows := leftTable.rows
          let rightRows := rightTable.rows
          match alookup rightTable.indexes join.onCols.right with
          | some idx =>
            indexJoinLoop idx rightRows join.onCols.left ast.whereCond ast.columns
              ast.tableName join.table leftRows
          | none =>
            nestedJoinLoop rightRows join.onCols.left join.onCols.right ast.whereCond ast.columns
              ast.tableName join.table leftRows

/-! ## SELECT / INSERT / UPDATE / DELETE executors (`db/executor/…`) -/

/-- The plain-SELECT projection of one row: every requested column must be
present in the row. -/
def selectProjectRow (tName : String) (cols : List String) (row : Row) (acc : Row) :
    Except String Row :=
  match cols with
  | [] => .ok acc
  | col :: rest =>
    match Row.get row col with
    | some v => selectProjectRow tName rest row (Row.set acc col v)
    | none => .error ("Column \"" ++ col ++ "\" not found in table \"" ++ tName ++ "\"")

/-- The projection loop of `executeSelect`. -/
def selectProject (tName : String) (cols : List String) : List Row → Except String (List Row)
  | [] => .ok []
  | row :: rest =>
    match selectProjectRow tName cols row [] with
    | .error e => .error e
    | .ok p =>
      match selectProject tName cols rest with
      | .error e => .error e
      | .ok tl => .ok (p :: tl)

/-- `executeSelect`: a join delegates wholly to `executeJoin`; otherwise
`Table.find` plus column projection (pass-through on `*`). -/
def executeSelect (ast : SelectNode) (db : Database) : Except String (List Row) :=
  match db.getTable ast.tableName with
  | .error e => .error e
  | .ok table =>
    match ast.join with
    | some _ => executeJoin ast db
    | none =>
      match table.find ast.whereCond with
      | .error e => .error e
      | .ok rows =>
        if "*" ∈ ast.columns then .ok rows
        else selectProject ast.tableName ast.columns rows

/-- The positional/named row construction of `executeInsert`. -/
def buildInsertRow (table : Table) (cols : List String) (values : List Value) :
    Except String Row :=
  if cols = [] then
    if values.length ≠ table.columns.length then
      .error ("Column count mismatch: expected " ++ toString table.columns.length ++
        " values, got " ++ toString values.length)
    else .ok ((table.columns.map Column.name).zip values)
  else
    if cols.length ≠ values.length then
      .error ("Column count mismatch: " ++ toString cols.length ++ " columns, " ++
        toString values.length ++ " values")
    else .ok (cols.zip values)

/-- `executeInsert`: build the row object, delegate to `Table.insert`, and
store the (possibly partially) mutated table back in the registry. -/
def executeInsert (ast : InsertNode) (db : Database) : Except String Row × Database :=
  match db.getTable ast.tableName with
  | .error e => (.error e, db)
  | .ok table =>
    match buildInsertRow table ast.columns ast.values with
    | .error e => (.error e, db)
    | .ok row =>
      let r := table.insert row
      (r.1, { db with tables := setKey db.tables ast.tableName r.2 })

/-- `executeUpdate`: the WHERE clause is required at this layer — its absence
is a safety error raised before `Table.update` is reached. -/
def executeUpdate (ast : UpdateNode) (db : Database) : Except String Nat × Database :=
  match db.getTable ast.tableName with
  | .error e => (.error e, db)
  | .ok table =>
    match ast.whereCond with
    | none => (.error "UPDATE without WHERE clause is not allowed for safety", db)
    | some w =>
      let r := table.update ast.updates (some w)
      (r.1, { db with tables := setKey db.tables ast.tableName r.2 })

/-- `executeDelete`: likewise requires a WHERE clause as a safety measure. -/
def executeDelete (ast : DeleteNode) (db : Database) : Except String Nat × Database :=
  match db.getTable ast.tableName with
  | .error e => (.error e, db)
  | .ok table =>
    match ast.whereCond with
    | none => (.error "DELETE without WHERE clause is not allowed for safety", db)
    | some w =>
      let r := table.delete (some w)
      (r.1, { db with tables := setKey db.tables ast.tableName r.2 })

/-! ## Tokenizer (`db/sql/tokenizer.js`) -/

/-- One token `{ type, value }`; the type tag is the JS string constant. -/
structure Token where
  type : String
  value : Value
deriving DecidableEq, Repr

/-- The fixed, case-insensitive keyword set. -/
def KEYWORDS : List String :=
  ["SELECT", "FROM", "WHERE", "INSERT", "INTO", "VALUES", "UPDATE", "SET",
   "DELETE", "CREATE", "TABLE", "PRIMARY", "KEY", "UNIQUE", "INT", "TEXT",
   "BOOLEAN", "JOIN", "ON", "AND", "OR", "NOT", "NULL"]

/-- Identifier start class `[a-zA-Z_]`. -/
def isIdentStart (c : Char) : Bool := c.isAlpha || c = '_'

/-- Identifier continuation class `[a-zA-Z0-9_]`. -/
def isIdentChar (c : Char) : Bool := c.isAlphanum || c = '_'

/-- `_readString`: contents of a quoted literal plus the remaining input
after the closing quote.  `\n`/`\t` escape; any other escaped character
passes through; an unterminated literal ends at end of input (and a dangling
final backslash appends the rendering of the `null` current character). -/
def readString (quote : Char) : List Char → String × List Char
  | [] => ("", [])
  | c :: rest =>
    if c = quote then ("", rest)
    else if c = '\\' then
      match rest with
      | [] => ("null", [])
      | e :: rest2 =>
        let ch := if e = 'n' then "\n" else if e = 't' then "\t" else String.singleton e
        let r := readString quote rest2
        (ch ++ r.1, r.2)
    else
      let r := readString quote rest
      (String.singleton c ++ r.1, r.2)

theorem dropWhile_length_le {α : Type} (p : α → Bool) :
    ∀ l : List α, (l.dropWhile p).length ≤ l.length := by
  intro l
  induction l with
  | nil => simp [List.dropWhile]
  | cons a t ih =>
    by_cases h : p a
    · simp only [List.dropWhile, h]
      simpa using Nat.le_succ_of_le ih
    · simp [List.dropWhile, h]

theorem readString_length_le (quote : Char) :
    ∀ cs : List Char, (readString quote cs).2.length ≤ cs.length
  | [] => by simp [readString]
  | [c] => by
    simp only [readString.eq_2]
    split
    · simp
    · split <;> simp [readString.eq_1]
  | c :: e :: rest2 => by
    have ih2 := readString_length_le quote rest2
    have ih1 := readString_length_le quote (e :: rest2)
    simp only [readString.eq_3]
    split
    · simp
    · split
      · simp only [List.length_cons] at *; omega
      · simp only [List.length_cons] at *; omega

/-- One `nextToken` step per iteration, producing the whole token stream
(ending in the EOF token).  `total` is the length of the trimmed input, used
only for the byte offset in the lexical-error message.  The recursion is
structural on `fuel` so that concrete token streams reduce by kernel
computation; every iteration consumes at least one character, so the
`cs.length + 1` iterations supplied by `tokenize` always suffice and the
out-of-fuel branch is unreachable (`tokenizeLoop_fuel_irrel`). -/
def tokenizeLoop (total : Nat) : Nat → List Char → Except String (List Token)
  | 0, _ => .error "Internal error: tokenizer fuel exhausted"
  | fuel + 1, cs =>
    match cs.dropWhile Char.isWhitespace with
    | [] => .ok [⟨"EOF", .vnull⟩]
    | c :: rest =>
      if c.isDigit then
        let n := (digitsToNat (c :: rest.takeWhile Char.isDigit)).getD 0
        match tokenizeLoop total fuel (rest.dropWhile Char.isDigit) with
        | .error e => .error e
        | .ok ts => .ok (⟨"NUMBER", .vint n⟩ :: ts)
      else if c = '\'' ∨ c = '"' then
        let r := readString c rest
        match tokenizeLoop total fuel r.2 with
        | .error e => .error e
        | .ok ts => .ok (⟨"STRING", .vstr r.1⟩ :: ts)
      else if isIdentStart c then
        let ident : String := ⟨c :: rest.takeWhile isIdentChar⟩
        let upper := jsToUpperCase ident
        let tok : Token :=
          if upper ∈ KEYWORDS then ⟨"KEYWORD", .vstr upper⟩ else ⟨"IDENTIFIER", .vstr ident⟩
        match tokenizeLoop total fuel (rest.dropWhile isIdentChar) with
        | .error e => .error e
        | .ok ts => .ok (tok :: ts)
      else if c = '=' ∨ c = '<' ∨ c = '>' ∨ c = '!' then
        match rest with
        | d :: rest2 =>
          if (c = '<' ∧ d = '=') ∨ (c = '>' ∧ d = '=') ∨ (c = '!' ∧ d = '=') ∨
              (c = '=' ∧ d = '=') then
            match tokenizeLoop total fuel rest2 with
            | .error e => .error e
            | .ok ts => .ok (⟨"OPERATOR", .vstr ⟨[c, d]⟩⟩ :: ts)
          else
            match tokenizeLoop total fuel rest with
            | .error e => .error e
            | .ok ts => .ok (⟨"OPERATOR", .vstr (String.singleton c)⟩ :: ts)
        | [] =>
          match tokenizeLoop total fuel [] with
          | .error e => .error e
          | .ok ts => .ok (⟨"OPERATOR", .vstr (String.singleton c)⟩ :: ts)
      else if c = '*' ∨ c = '.' ∨ c = '(' ∨ c = ')' ∨ c = ',' ∨ c = ';' then
        match tokenizeLoop total fuel rest with
        | .error e => .error e
        | .ok ts => .ok (⟨"PUNCTUATION", .vstr (String.singleton c)⟩ :: ts)
      else
        .error ("Unexpected character: " ++ String.singleton c ++ " at position " ++
          toString (total - (c :: rest).length))

theorem tokenizeLoop_fuel_irrel (total : Nat) :
    ∀ fuel : Nat, ∀ cs : List Char, cs.length < fuel →
      ∀ fuel' : Nat, cs.length < fuel' →
        tokenizeLoop total fuel cs = tokenizeLoop total fuel' cs := by
  intro fuel
  induction fuel with
  | zero => intro cs h; exact absurd h (Nat.not_lt_zero _)
  | succ f ih =>
    intro cs h fuel' h'
    match fuel' with
    | 0 => exact absurd h' (Nat.not_lt_zero _)
    | f' + 1 =>
      have hdw := dropWhile_length_le Char.isWhitespace cs
      cases hcs : cs.dropWhile Char.isWhitespace with
      | nil => simp only [tokenizeLoop, hcs]
      | cons c rest =>
        rw [hcs] at hdw
        simp only [List.length_cons] at hdw
        simp only [tokenizeLoop, hcs]
        by_cases h1 : c.isDigit
        · simp only [h1, if_true]
          rw [ih (rest.dropWhile Char.isDigit)
            (by have := dropWhile_length_le Char.isDigit rest; omega) f'
            (by have := dropWhile_length_le Char.isDigit rest; omega)]
        · simp only [h1, if_false, Bool.false_eq_true]
          by_cases h2 : c = '\'' ∨ c = '"'
          · simp only [h2, if_true]
            rw [ih (readString c rest).2
              (by have := readString_length_le c rest; omega) f'
              (by have := readString_length_le c rest; omega)]
          · simp only [h2, if_false]
            by_cases h3 : isIdentStart c
            · simp only [h3, if_true]
              rw [ih (rest.dropWhile isIdentChar)
                (by have := dropWhile_length_le isIdentChar rest; omega) f'
                (by have := dropWhile_length_le isIdentChar rest; omega)]
            · simp only [h3, if_false, Bool.false_eq_true]
              by_cases h4 : c = '=' ∨ c = '<' ∨ c = '>' ∨ c = '!'
              · simp only [h4, if_true]
                cases rest with
                | nil => rw [ih [] (by omega) f' (by omega)]
                | cons d rest2 =>
                  by_cases h5 : (c = '<' ∧ d = '=') ∨ (c = '>' ∧ d = '=') ∨
                      (c = '!' ∧ d = '=') ∨ (c = '=' ∧ d = '=')
                  · simp only [h5, if_true]
                    rw [ih rest2 (by simp only [List.length_cons] at hdw; omega) f'
                      (by simp only [List.length_cons] at hdw; omega)]
                  · simp only [h5, if_false]
                    rw [ih (d :: rest2) (by omega) f' (by omega)]
              · simp only [h4, if_false]
                by_cases h6 : c = '*' ∨ c = '.' ∨ c = '(' ∨ c = ')' ∨ c = ',' ∨ c = ';'
                · simp only [h6, if_true]
                  rw [ih rest (by omega) f' (by omega)]
                · simp only [h6, if_false]

/-- `Tokenizer.tokenize`: trim the input and run the token loop. -/
def tokenize (input : String) : Except String (List Token) :=
  let cs := (jsTrim input).toList
  tokenizeLoop cs.length (cs.length + 1) cs

/-! ## Parser (`db/sql/parser.js`)

Parser state is the remaining token list plus the token position (tracked
separately because it appears in error messages).  The parser's synthetic
current token beyond the array end equals the tokenizer's trailing EOF
token, so `curTok` of the empty list is that token. -/

/-- The current token (`{type: EOF, value: null}` beyond the end). -/
def curTok : List Token → Token
  | [] => ⟨"EOF", .vnull⟩
  | t :: _ => t

/-- `_expect` mismatch message. -/
def expectErr (expected got : String) (pos : Nat) : String :=
  "Expected " ++ expected ++ ", got " ++ got ++ " at position " ++ toString pos

/-- `_expect(type)`. -/
def expectType (ty : String) (ts : List Token) (pos : Nat) :
    Except String (Token × List Token × Nat) :=
  let t := curTok ts
  if t.type ≠ ty then .error (expectErr ty t.type pos)
  else .ok (t, ts.tail, pos + 1)

/-- `_expect(type, value)`: the type is checked first, then the value. -/
def expectTypeVal (ty v : String) (ts : List Token) (pos : Nat) :
    Except String (Token × List Token × Nat) :=
  let t := curTok ts
  if t.type ≠ ty then .error (expectErr ty t.type pos)
  else if t.value ≠ .vstr v then .error (expectErr v (jsTemplate t.value) pos)
  else .ok (t, ts.tail, pos + 1)

/-- `_match(type)`. -/
def matchTok (ty : String) (ts : List Token) : Bool :=
  (curTok ts).type == ty

/-- `_match(type, value)`. -/
def matchTokVal (ty v : String) (ts : List Token) : Bool :=
  (curTok ts).type == ty && (curTok ts).value == .vstr v

/-- The shared literal alternative (NUMBER | STRING | NULL) of the WHERE,
VALUES and SET productions. -/
def literalOf (t : Token) : Option Value :=
  if t.type = "NUMBER" then some t.value
  else if t.type = "STRING" then some t.value
  else if t.type = "KEYWORD" ∧ t.value = .vstr "NULL" then some .vnull
  else none

/-- The comma-separated continuation of `_parseColumnList`. -/
def parseColumnListRest : List Token → Nat → Except String (List String × List Token × Nat)
  | ⟨"PUNCTUATION", .vstr ","⟩ :: rest, pos =>
    match rest with
    | t :: rest2 =>
      if t.type = "IDENTIFIER" then
        match parseColumnListRest rest2 (pos + 2) with
        | .error e => .error e
        | .ok (cols, st, p) => .ok (jsTemplate t.value :: cols, st, p)
      else .error (expectErr "IDENTIFIER" t.type (pos + 1))
    | [] => .error (expectErr "IDENTIFIER" "EOF" (pos + 1))
  | ts, pos => .ok ([], ts, pos)

/-- `_parseColumnList`: `*`, or one identifier followed by `, identifier`*. -/
def parseColumnList (ts : List Token) (pos : Nat) :
    Except String (List String × List Token × Nat) :=
  if matchTokVal "PUNCTUATION" "*" ts then .ok (["*"], ts.tail, pos + 1)
  else
    match ts with
    | t :: rest =>
      if t.type = "IDENTIFIER" then
        match parseColumnListRest rest (pos + 1) with
        | .error e => .error e
        | .ok (cols, st, p) => .ok (jsTemplate t.value :: cols, st, p)
      else .error (expectErr "IDENTIFIER" t.type pos)
    | [] => .error (expectErr "IDENTIFIER" "EOF" pos)

/-- `_parseWhere`: absent keyword yields no condition; otherwise
`identifier operator (NUMBER | STRING | NULL)`. -/
def parseWhere (ts : List Token) (pos : Nat) :
    Except String (Option Cond × List Token × Nat) :=
  if ¬ matchTokVal "KEYWORD" "WHERE" ts then .ok (none, ts, pos)
  else
    match expectType "IDENTIFIER" ts.tail (pos + 1) with
    | .error e => .error e
    | .ok (colTok, ts1, p1) =>
      match expectType "OPERATOR" ts1 p1 with
      | .error e => .error e
      | .ok (opTok, ts2, p2) =>
        match literalOf (curTok ts2) with
        | some v =>
          .ok (some ⟨jsTemplate colTok.value, jsTemplate opTok.value, v⟩, ts2.tail, p2 + 1)
        | none => .error ("Unexpected token in WHERE clause: " ++ (curTok ts2).type)

/-- `_parseJoin`: absent keyword yields no clause; otherwise
`JOIN identifier ON identifier = identifier`. -/
def parseJoin (ts : List Token) (pos : Nat) :
    Except String (Option JoinClause × List Token × Nat) :=
  if ¬ matchTokVal "KEYWORD" "JOIN" ts then .ok (none, ts, pos)
  else
    match expectType "IDENTIFIER" ts.tail (pos + 1) with
    | .error e => .error e
    | .ok (tblTok, ts1, p1) =>
      match expectTypeVal "KEYWORD" "ON" ts1 p1 with
      | .error e => .error e
      | .ok (_, ts2, p2) =>
        match expectType "IDENTIFIER" ts2 p2 with
        | .error e => .error e
        | .ok (leftTok, ts3, p3) =>
          match expectTypeVal "OPERATOR" "=" ts3 p3 with
          | .error e => .error e
          | .ok (_, ts4, p4) =>
            match expectType "IDENTIFIER" ts4 p4 with
            | .error e => .error e
            | .ok (rightTok, ts5, p5) =>
              .ok (some ⟨"INNER", jsTemplate tblTok.value,
                    ⟨jsTemplate leftTok.value, jsTemplate rightTok.value⟩⟩, ts5, p5)

/-- The constraint-keyword run of a CREATE TABLE column definition
(`PRIMARY`, `KEY` and `UNIQUE` keywords are accumulated until something
else appears). -/
def parseConstraints : List Token → Nat → List String × List Token × Nat
  | t :: rest, pos =>
    if t.type = "KEYWORD" ∧
        (t.value = .vstr "PRIMARY" ∨ t.value = .vstr "KEY" ∨ t.value = .vstr "UNIQUE") then
      match parseConstraints rest (pos + 1) with
      | (cs, st, p) => (jsTemplate t.value :: cs, st, p)
    else ([], t :: rest, pos)
  | [], pos => ([], [], pos)

theorem parseConstraints_length_le :
    ∀ ts pos, (parseConstraints ts pos).2.1.length ≤ ts.length
  | [], _ => by simp [parseConstraints]
  | t :: rest, pos => by
    have ih := parseConstraints_length_le rest (pos + 1)
    simp only [parseConstraints]
    split
    · simp only [List.length_cons]
      exact le_trans (by omega : (parseConstraints rest (pos + 1)).2.1.length ≤ rest.length + 1)
        (le_refl _)
    · simp

/-- One `name type constraint*` column definition of CREATE TABLE. -/
def parseOneCreateCol (ts : List Token) (pos : Nat) :
    Except String (CreateTableColumnDef × List Token × Nat) :=
  match ts with
  | t1 :: rest1 =>
    if t1.type = "IDENTIFIER" then
      match rest1 with
      | t2 :: rest2 =>
        if t2.type = "KEYWORD" then
          let r := parseConstraints rest2 (pos + 2)
          .ok (⟨jsTemplate t1.value, jsTemplate t2.value, r.1⟩, r.2.1, r.2.2)
        else .error (expectErr "KEYWORD" t2.type (pos + 1))
      | [] => .error (expectErr "KEYWORD" "EOF" (pos + 1))
    else .error (expectErr "IDENTIFIER" t1.type pos)
  | [] => .error (expectErr "IDENTIFIER" "EOF" pos)

theorem parseOneCreateCol_length_lt (ts : List Token) (pos : Nat) :
    ∀ r, parseOneCreateCol ts pos = .ok r → r.2.1.length < ts.length := by
  intro r h
  match ts with
  | [] => simp [parseOneCreateCol] at h
  | t1 :: rest1 =>
    simp only [parseOneCreateCol] at h
    split at h
    · match rest1 with
      | [] => simp at h
      | t2 :: rest2 =>
        simp only at h
        split at h
        · have hlen := parseConstraints_length_le rest2 (pos + 2)
          cases h
          simp only [List.length_cons]
          omega
        · simp at h
    · simp at h

/-- The column-definition loop of `_parseCreateTable`: the loop exits only
at `)`; after each definition either `)` follows or a comma is required. -/
def parseCreateColsLoop (ts : List Token) (pos : Nat) :
    Except String (List CreateTableColumnDef × List Token × Nat) :=
  if matchTokVal "PUNCTUATION" ")" ts then .ok ([], ts, pos)
  else
    match h : parseOneCreateCol ts pos with
    | .error e => .error e
    | .ok (col, ts1, p1) =>
      if matchTokVal "PUNCTUATION" ")" ts1 then .ok ([col], ts1, p1)
      else
        match h2 : ts1 with
        | t :: rest =>
          if t.type ≠ "PUNCTUATION" then .error (expectErr "PUNCTUATION" t.type p1)
          else if t.value ≠ .vstr "," then .error (expectErr "," (jsTemplate t.value) p1)
          else
            match parseCreateColsLoop rest (p1 + 1) with
            | .error e => .error e
            | .ok (cols, st, p) => .ok (col :: cols, st, p)
        | [] => .error (expectErr "PUNCTUATION" "EOF" p1)
termination_by ts.length
decreasing_by
  have := parseOneCreateCol_length_lt ts pos _ h
  simp at this
  omega

/-- `_parseCreateTable`. -/
def parseCreateTable (ts : List Token) (pos : Nat) : Except String ASTNode :=
  match expectTypeVal "KEYWORD" "CREATE" ts pos with
  | .error e => .error e
  | .ok (_, ts1, p1) =>
    match expectTypeVal "KEYWORD" "TABLE" ts1 p1 with
    | .error e => .error e
    | .ok (_, ts2, p2) =>
      match expectType "IDENTIFIER" ts2 p2 with
      | .error e => .error e
      | .ok (nameTok, ts3, p3) =>
        match expectTypeVal "PUNCTUATION" "(" ts3 p3 with
        | .error e => .error e
        | .ok (_, ts4, p4) =>
          match parseCreateColsLoop ts4 p4 with
          | .error e => .error e
          | .ok (cols, ts5, p5) =>
            match expectTypeVal "PUNCTUATION" ")" ts5 p5 with
            | .error e => .error e
            | .ok _ => .ok (.createTable ⟨jsTemplate nameTok.value, cols⟩)

/-- `_parseSelect`. -/
def parseSelect (ts : List Token) (pos : Nat) : Except String ASTNode :=
  match expectTypeVal "KEYWORD" "SELECT" ts pos with
  | .error e => .error e
  | .ok (_, ts1, p1) =>
    match parseColumnList ts1 p1 with
    | .error e => .error e
    | .ok (cols, ts2, p2) =>
      match expectTypeVal "KEYWORD" "FROM" ts2 p2 with
      | .error e => .error e
      | .ok (_, ts3, p3) =>
        match expectType "IDENTIFIER" ts3 p3 with
        | .error e => .error e
        | .ok (tblTok, ts4, p4) =>
          match (if matchTokVal "KEYWORD" "JOIN" ts4 then parseJoin ts4 p4
                 else .ok (none, ts4, p4)) with
          | .error e => .error e
          | .ok (join, ts5, p5) =>
            match parseWhere ts5 p5 with
            | .error e => .error e
            | .ok (wh, _, _) =>
              .ok (.select ⟨jsTemplate tblTok.value, cols, wh, join⟩)

/-- The VALUES literal loop of `_parseInsert` (exits only at `)`). -/
def parseValuesLoop : List Token → Nat → Except String (List Value × List Token × Nat)
  | ts, pos =>
    if matchTokVal "PUNCTUATION" ")" ts then .ok ([], ts, pos)
    else
      match ts with
      | t :: rest =>
        match literalOf t with
        | none => .error ("Unexpected token in VALUES: " ++ t.type)
        | some v =>
          if matchTokVal "PUNCTUATION" ")" rest then .ok ([v], rest, pos + 1)
          else
            match rest with
            | t2 :: rest2 =>
              if t2.type ≠ "PUNCTUATION" then .error (expectErr "PUNCTUATION" t2.type (pos + 1))
              else if t2.value ≠ .vstr "," then
                .error (expectErr "," (jsTemplate t2.value) (pos + 1))
              else
                match parseValuesLoop rest2 (pos + 2) with
                | .error e => .error e
                | .ok (vs, st, p) => .ok (v :: vs, st, p)
            | [] => .error (expectErr "PUNCTUATION" "EOF" (pos + 1))
      | [] => .error ("Unexpected token in VALUES: EOF")

/-- `_parseInsert`. -/
def parseInsert (ts : List Token) (pos : Nat) : Except String ASTNode :=
  match expectTypeVal "KEYWORD" "INSERT" ts pos with
  | .error e => .error e
  | .ok (_, ts1, p1) =>
    match expectTypeVal "KEYWORD" "INTO" ts1 p1 with
    | .error e => .error e
    | .ok (_, ts2, p2) =>
      match expectType "IDENTIFIER" ts2 p2 with
      | .error e => .error e
      | .ok (tblTok, ts3, p3) =>
        match (if matchTokVal "PUNCTUATION" "(" ts3 then
                 match parseColumnList ts3.tail (p3 + 1) with
                 | .error e => .error e
                 | .ok (cols, ts4, p4) =>
                   match expectTypeVal "PUNCTUATION" ")" ts4 p4 with
                   | .error e => .error e
                   | .ok (_, ts5, p5) => .ok (cols, ts5, p5)
               else .ok ([], ts3, p3) :
                 Except String (List String × List Token × Nat)) with
        | .error e => .error e
        | .ok (cols, ts6, p6) =>
          match expectTypeVal "KEYWORD" "VALUES" ts6 p6 with
          | .error e => .error e
          | .ok (_, ts7, p7) =>
            match expectTypeVal "PUNCTUATION" "(" ts7 p7 with
            | .error e => .error e
            | .ok (_, ts8, p8) =>
              match parseValuesLoop ts8 p8 with
              | .error e => .error e
              | .ok (vals, ts9, p9) =>
                match expectTypeVal "PUNCTUATION" ")" ts9 p9 with
                | .error e => .error e
                | .ok _ => .ok (.insert ⟨jsTemplate tblTok.value, cols, vals⟩)

/-- The loop-exit guard of the SET loop: a WHERE keyword or end of input. -/
def setLoopDone (ts : List Token) : Bool :=
  matchTokVal "KEYWORD" "WHERE" ts || (curTok ts).type == "EOF"

/-- The SET assignment loop of `_parseUpdate`; assignments land in the
`updates` object (`setKey`: a repeated column overwrites in place). -/
def parseSetLoop (acc : List (String × Value)) :
    List Token → Nat → Except String (List (String × Value) × List Token × Nat)
  | ts, pos =>
    if setLoopDone ts then .ok (acc, ts, pos)
    else
      match ts with
      | t1 :: rest1 =>
        if t1.type ≠ "IDENTIFIER" then .error (expectErr "IDENTIFIER" t1.type pos)
        else
          match rest1 with
          | t2 :: rest2 =>
            if t2.type ≠ "OPERATOR" then .error (expectErr "OPERATOR" t2.type (pos + 1))
            else if t2.value ≠ .vstr "=" then
              .error (expectErr "=" (jsTemplate t2.value) (pos + 1))
            else
              match rest2 with
              | t3 :: rest3 =>
                match literalOf t3 with
                | none => .error ("Unexpected token in SET clause: " ++ t3.type)
                | some v =>
                  let acc' := setKey acc (jsTemplate t1.value) v
                  if setLoopDone rest3 then .ok (acc', rest3, pos + 3)
                  else
                    match rest3 with
                    | t4 :: rest4 =>
                      if t4.type ≠ "PUNCTUATION" then
                        .error (expectErr "PUNCTUATION" t4.type (pos + 3))
                      else if t4.value ≠ .vstr "," then
                        .error (expectErr "," (jsTemplate t4.value) (pos + 3))
                      else parseSetLoop acc' rest4 (pos + 4)
                    | [] => .error (expectErr "PUNCTUATION" "EOF" (pos + 3))
              | [] => .error ("Unexpected token in SET clause: EOF")
          | [] => .error (expectErr "OPERATOR" "EOF" (pos + 1))
      | [] => .error (expectErr "IDENTIFIER" "EOF" pos)

/-- `_parseUpdate`. -/
def parseUpdate (ts : List Token) (pos : Nat) : Except String ASTNode :=
  match expectTypeVal "KEYWORD" "UPDATE" ts pos with
  | .error e => .error e
  | .ok (_, ts1, p1) =>
    match expectType "IDENTIFIER" ts1 p1 with
    | .error e => .error e
    | .ok (tblTok, ts2, p2) =>
      match expectTypeVal "KEYWORD" "SET" ts2 p2 with
      | .error e => .error e
      | .ok (_, ts3, p3) =>
        match parseSetLoop [] ts3 p3 with
        | .error e => .error e
        | .ok (ups, ts4, p4) =>
          match parseWhere ts4 p4 with
          | .error e => .error e
          | .ok (wh, _, _) => .ok (.update ⟨jsTemplate tblTok.value, ups, wh⟩)

/-- `_parseDelete`. -/
def parseDelete (ts : List Token) (pos : Nat) : Except String ASTNode :=
  match expectTypeVal "KEYWORD" "DELETE" ts pos with
  | .error e => .error e
  | .ok (_, ts1, p1) =>
    match expectTypeVal "KEYWORD" "FROM" ts1 p1 with
    | .error e => .error e
    | .ok (_, ts2, p2) =>
      match expectType "IDENTIFIER" ts2 p2 with
      | .error e => .error e
      | .ok (tblTok, ts3, p3) =>
        match parseWhere ts3 p3 with
        | .error e => .error e
        | .ok (wh, _, _) => .ok (.delete ⟨jsTemplate tblTok.value, wh⟩)

/-- `new Parser(sql).parse()`: tokenize (constructor), then dispatch on the
first keyword. -/
def parseSQL (sql : String) : Except String ASTNode :=
  match tokenize sql with
  | .error e => .error e
  | .ok tokens =>
    let t := curTok tokens
    if t.type = "EOF" then .error "Empty query"
    else if t.type ≠ "KEYWORD" then .error ("Expected SQL keyword, got " ++ t.type)
    else if t.value = .vstr "CREATE" then parseCreateTable tokens 0
    else if t.value = .vstr "SELECT" then parseSelect tokens 0
    else if t.value = .vstr "INSERT" then parseInsert tokens 0
    else if t.value = .vstr "UPDATE" then parseUpdate tokens 0
    else if t.value = .vstr "DELETE" then parseDelete tokens 0
    else .error ("Unsupported SQL statement: " ++ jsTemplate t.value)

/-! ## Association-list lemmas -/

theorem alookup_eq_none {α β : Type} [DecidableEq α] (l : List (α × β)) (k : α) :
    alookup l k = none ↔ k ∉ l.map Prod.fst := by
  induction l with
  | nil => simp [alookup]
  | cons p t ih =>
    obtain ⟨a, b⟩ := p
    simp only [alookup, List.map_cons, List.mem_cons]
    by_cases h : a = k
    · subst h; simp
    · simp only [if_neg h, ih]
      constructor
      · intro hn hor
        rcases hor with hh | hh
        · exact h hh.symm
        · exact hn hh
      · intro hn hh
        exact hn (Or.inr hh)

theorem alookup_isSome {α β : Type} [DecidableEq α] (l : List (α × β)) (k : α) :
    (alookup l k).isSome = true ↔ k ∈ l.map Prod.fst := by
  rw [← Decidable.not_iff_not, ← alookup_eq_none]
  cases alookup l k <;> simp

theorem alookup_setKey_self {α β : Type} [DecidableEq α] (l : List (α × β)) (k : α) (v : β) :
    alookup (setKey l k v) k = some v := by
  induction l with
  | nil => simp [setKey, alookup]
  | cons p t ih =>
    obtain ⟨a, b⟩ := p
    by_cases h : a = k
    · simp [setKey, h, alookup]
    · simp [setKey, h, alookup, ih]

theorem alookup_setKey_ne {α β : Type} [DecidableEq α] (l : List (α × β)) (k k' : α) (v : β)
    (h : k' ≠ k) : alookup (setKey l k v) k' = alookup l k' := by
  induction l with
  | nil => simp [setKey, alookup, h.symm]
  | cons p t ih =>
    obtain ⟨a, b⟩ := p
    by_cases ha : a = k
    · subst ha
      simp [setKey, alookup, h.symm]
    · by_cases ha' : a = k'
      · simp [setKey, ha, alookup, ha', h]
      · simp [setKey, ha, alookup, ha', ih]

theorem setKey_of_not_mem {α β : Type} [DecidableEq α] (l : List (α × β)) (k : α) (v : β)
    (h : k ∉ l.map Prod.fst) : setKey l k v = l ++ [(k, v)] := by
  induction l with
  | nil => simp [setKey]
  | cons p t ih =>
    obtain ⟨a, b⟩ := p
    simp only [List.map_cons, List.mem_cons] at h
    push_neg at h
    simp [setKey, Ne.symm h.1, ih h.2]

theorem keys_setKey_of_mem {α β : Type} [DecidableEq α] (l : List (α × β)) (k : α) (v : β)
    (h : k ∈ l.map Prod.fst) : (setKey l k v).map Prod.fst = l.map Prod.fst := by
  induction l with
  | nil => simp at h
  | cons p t ih =>
    obtain ⟨a, b⟩ := p
    by_cases ha : a = k
    · simp [setKey, ha]
    · simp only [List.map_cons, List.mem_cons] at h
      rcases h with h | h

      · exact absurd h.symm ha
      · simp [setKey, ha, ih h]

theorem alookup_eraseKey_self {α β : Type} [DecidableEq α] (l : List (α × β)) (k : α)
    (h : (l.map Prod.fst).Nodup) : alookup (eraseKey l k) k = none := by
  induction l with
  | nil => simp [eraseKey, alookup]
  | cons p t ih =>
    obtain ⟨a, b⟩ := p
    simp only [List.map_cons, List.nodup_cons] at h
    by_cases ha : a = k
    · subst ha
      simp only [eraseKey, if_pos rfl]
      rw [alookup_eq_none]
      exact h.1
    · simp [eraseKey, ha, alookup, ih h.2]

theorem alookup_eraseKey_ne {α β : Type} [DecidableEq α] (l : List (α × β)) (k k' : α)
    (h : k' ≠ k) : alookup (eraseKey l k) k' = alookup l k' := by
  induction l with
  | nil => simp [eraseKey]
  | cons p t ih =>
    obtain ⟨a, b⟩ := p
    by_cases ha : a = k
    · subst ha
      simp [eraseKey, alookup, h.symm]
    · by_cases ha' : a = k'
      · simp [eraseKey, ha, alookup, ha', h]
      · simp [eraseKey, ha, alookup, ha', ih]

theorem eraseKey_of_not_mem {α β : Type} [DecidableEq α] (l : List (α × β)) (k : α)
    (h : k ∉ l.map Prod.fst) : eraseKey l k = l := by
  induction l with
  | nil => simp [eraseKey]
  | cons p t ih =>
    obtain ⟨a, b⟩ := p
    simp only [List.map_cons, List.mem_cons] at h
    push_neg at h
    simp [eraseKey, Ne.symm h.1, ih h.2]

theorem keys_eraseKey_sublist {α β : Type} [DecidableEq α] (l : List (α × β)) (k : α) :
    ((eraseKey l k).map Prod.fst).Sublist (l.map Prod.fst) := by
  induction l with
  | nil => simp [eraseKey]
  | cons p t ih =>
    obtain ⟨a, b⟩ := p
    by_cases ha : a = k
    · simp only [eraseKey, if_pos ha, List.map_cons]
      exact (List.sublist_cons_self _ _)
    · simp only [eraseKey, if_neg ha, List.map_cons]
      exact ih.cons₂ a

theorem nodup_keys_eraseKey {α β : Type} [DecidableEq α] (l : List (α × β)) (k : α)
    (h : (l.map Prod.fst).Nodup) : ((eraseKey l k).map Prod.fst).Nodup :=
  (keys_eraseKey_sublist l k).nodup h

theorem nodup_keys_setKey {α β : Type} [DecidableEq α] (l : List (α × β)) (k : α) (v : β)
    (h : (l.map Prod.fst).Nodup) : ((setKey l k v).map Prod.fst).Nodup := by
  by_cases hm : k ∈ l.map Prod.fst
  · rw [keys_setKey_of_mem l k v hm]; exact h
  · rw [setKey_of_not_mem l k v hm]
    simp only [List.map_append, List.map_cons, List.map_nil]
    rw [List.nodup_append]
    refine ⟨h, List.nodup_singleton _, ?_⟩
    intro a ha
    simp only [List.mem_singleton]
    intro hak
    exact hm (hak ▸ ha)

theorem mem_setKey {α β : Type} [DecidableEq α] (l : List (α × β)) (k : α) (v : β) :
    ∀ e, e ∈ setKey l k v → e ∈ l ∨ e = (k, v) := by
  induction l with
  | nil => intro e h; simpa [setKey] using h
  | cons p t ih =>
    obtain ⟨a, b⟩ := p
    intro e h
    by_cases ha : a = k
    · subst ha
      simp only [setKey, if_true, eq_self_iff_true, List.mem_cons] at h
      rcases h with h | h
      · exact Or.inr h
      · exact Or.inl (List.mem_cons_of_mem _ h)
    · simp only [setKey, ha, if_false, List.mem_cons] at h
      rcases h with h | h
      · exact Or.inl (h ▸ List.mem_cons_self _ _)
      · rcases ih e h with hh | hh
        · exact Or.inl (List.mem_cons_of_mem _ hh)
        · exact Or.inr hh

theorem mem_eraseKey {α β : Type} [DecidableEq α] (l : List (α × β)) (k : α) :
    ∀ e, e ∈ eraseKey l k → e ∈ l := by
  induction l with
  | nil => intro e h; simpa [eraseKey] using h
  | cons p t ih =>
    obtain ⟨a, b⟩ := p
    intro e h
    by_cases ha : a = k
    · simp only [eraseKey, ha, if_true, eq_self_iff_true] at h
      exact List.mem_cons_of_mem _ h
    · simp only [eraseKey, ha, if_false, List.mem_cons] at h
      rcases h with h | h
      · exact h ▸ List.mem_cons_self _ _
      · exact List.mem_cons_of_mem _ (ih e h)

/-! ## Index lemmas

Every index the engine constructs (table creation, `_rebuildIndexes`,
`delete(null)`, `fromJSON`) is built with `unique = true`, so the unique
branches of `add`/`remove`/`find` are the live ones; `IndexWF` records that
flag together with the structural facts the unique discipline maintains. -/

/-- Structural well-formedness of an engine index: the unique flag is set,
the map keys are distinct, and every bucket holds exactly one position. -/
structure IndexWF (idx : Index) : Prop where
  uniqueFlag : idx.isUnique = true
  keysNodup : (idx.entries.map Prod.fst).Nodup
  singletons : ∀ e ∈ idx.entries, ∃ p, e.2 = [p]

theorem Index.has_eq_isSome (idx : Index) (v : Value) :
    idx.has v = (alookup idx.entries (Index.keyOf v)).isSome := rfl

theorem Index.findK_eq (idx : Index) (k : Value) :
    idx.findK k = (alookup idx.entries k).getD [] := rfl

theorem Index.add_of_not_has (idx : Index) (v : Value) (pos : Nat)
    (hu : idx.isUnique = true) (h : idx.has v = false) :
    idx.add v pos = .ok { idx with entries := setKey idx.entries (Index.keyOf v) [pos] } := by
  rw [Index.has_eq_isSome] at h
  unfold Index.add
  rw [hu]
  simp [h]

theorem Index.add_of_has (idx : Index) (v : Value) (pos : Nat)
    (hu : idx.isUnique = true) (h : idx.has v = true) :
    idx.add v pos = .error ("Duplicate value for " ++
      (if idx.isPrimaryKey then "PRIMARY KEY" else "UNIQUE") ++
      " column \"" ++ idx.columnName ++ "\": " ++ jsTemplate v) := by
  rw [Index.has_eq_isSome] at h
  unfold Index.add
  rw [hu]
  simp [h]

theorem Index.remove_unique (idx : Index) (v : Value) (pos : Nat)
    (hu : idx.isUnique = true) :
    idx.remove v pos = { idx with entries := eraseKey idx.entries (Index.keyOf v) } := by
  simp only [Index.remove]
  cases hl : alookup idx.entries (Index.keyOf v) with
  | none =>
    simp only
    rw [eraseKey_of_not_mem _ _ ((alookup_eq_none _ _).1 hl)]
  | some s =>
    simp only [hu, Bool.true_or, if_true]

theorem IndexWF_add (idx : Index) (v : Value) (pos : Nat) (idx' : Index)
    (hwf : IndexWF idx) (h : idx.add v pos = .ok idx') : IndexWF idx' := by
  by_cases hh : idx.has v = true
  · rw [Index.add_of_has idx v pos hwf.uniqueFlag hh] at h
    cases h
  · rw [Index.add_of_not_has idx v pos hwf.uniqueFlag (by simpa using hh)] at h
    cases h
    refine ⟨hwf.uniqueFlag, nodup_keys_setKey _ _ _ hwf.keysNodup, ?_⟩
    intro e he
    rcases mem_setKey _ _ _ _ he with he' | he'
    · exact hwf.singletons e he'
    · exact ⟨pos, by rw [he']⟩

theorem IndexWF_remove (idx : Index) (v : Value) (pos : Nat)
    (hwf : IndexWF idx) : IndexWF (idx.remove v pos) := by
  rw [Index.remove_unique idx v pos hwf.uniqueFlag]
  refine ⟨hwf.uniqueFlag, nodup_keys_eraseKey _ _ hwf.keysNodup, ?_⟩
  intro e he
  exact hwf.singletons e (mem_eraseKey _ _ _ he)

/-- Index-row agreement for one column: the index's buckets hold exactly
the positions of rows whose (sentinel-encoded) value in that column is the
bucket's key. -/
def IndexAgrees (idx : Index) (c : String) (rows : List Row) : Prop :=
  ∀ k pos, pos ∈ idx.findK k ↔
    ∃ r, rows[pos]? = some r ∧ ∃ v, Row.get r c = some v ∧ Index.keyOf v = k

theorem alookup_mem {α β : Type} [DecidableEq α] :
    ∀ (l : List (α × β)) (k : α) (b : β), alookup l k = some b → (k, b) ∈ l
  | [], k, b, h => by simp [alookup] at h
  | (a, bb) :: t, k, b, h => by
    by_cases hak : a = k
    · subst hak
      simp only [alookup, if_true, eq_self_iff_true, Option.some.injEq] at h
      rw [h]
      exact List.mem_cons_self _ _
    · simp only [alookup, hak, if_false] at h
      exact List.mem_cons_of_mem _ (alookup_mem t k b h)

/-- Under well-formedness, an occupied bucket pins down a unique position. -/
theorem bucket_unique {idx : Index} (hwf : IndexWF idx) {k : Value} {p q : Nat}
    (hp : p ∈ idx.findK k) (hq : q ∈ idx.findK k) : p = q := by
  rw [Index.findK_eq] at hp hq
  cases hl : alookup idx.entries k with
  | none => rw [hl] at hp; simp at hp
  | some b =>
    rw [hl] at hp hq
    simp only [Option.getD_some] at hp hq
    obtain ⟨x, hx⟩ := hwf.singletons _ (alookup_mem _ _ _ hl)
    simp only at hx
    rw [hx] at hp hq
    simp only [List.mem_singleton] at hp hq
    rw [hp, hq]

theorem mem_iff_alookup {α β : Type} [DecidableEq α] {l : List (α × β)}
    (h : (l.map Prod.fst).Nodup) (k : α) (b : β) : (k, b) ∈ l ↔ alookup l k = some b := by
  constructor
  · intro hm
    induction l with
    | nil => simp at hm
    | cons p t ih =>
      obtain ⟨a, bb⟩ := p
      simp only [List.map_cons, List.nodup_cons] at h
      rcases List.mem_cons.1 hm with he | he
      · cases he
        simp [alookup]
      · have hak : a ≠ k := by
          intro hh
          exact h.1 (hh ▸ (List.mem_map.2 ⟨(k, b), he, rfl⟩))
        simp only [alookup, hak, if_false]
        exact ih h.2 he
  · exact alookup_mem l k b

theorem getElem?_append_singleton {α : Type} (l : List α) (x : α) (i : Nat) :
    (l ++ [x])[i]? = if i < l.length then l[i]? else if i = l.length then some x else none := by
  rw [List.getElem?_append]
  by_cases h : i < l.length
  · simp [h]
  · simp only [if_neg h]
    by_cases he : i = l.length
    · simp [he]
    · simp only [if_neg he]
      rw [List.getElem?_eq_none]
      simp only [List.length_cons, List.length_nil]
      omega

/-! ## The table invariant

`TableOk` packages the structural facts every table reachable through the
engine maintains: the schema facts `Table`'s constructor establishes, the
correspondence between indexes and constrained columns, per-index
well-formedness, and index-row agreement for every indexed column. -/

structure TableOk (t : Table) : Prop where
  colsNonempty : t.columns ≠ []
  colsNodup : (t.columns.map Column.name).Nodup
  pkLeOne : (t.columns.filter (fun c => c.primaryKey)).length ≤ 1
  typesValid : ∀ col ∈ t.columns,
    col.type = "INT" ∨ col.type = "TEXT" ∨ col.type = "BOOLEAN"
  pkUnique : ∀ col ∈ t.columns, col.primaryKey = true → col.unique = true
  idxKeysNodup : (t.indexes.map Prod.fst).Nodup
  idxKeys : ∀ c, (alookup t.indexes c).isSome = true ↔
    ∃ col ∈ t.columns, col.name = c ∧ (col.primaryKey || col.unique) = true
  idxWF : ∀ p ∈ t.indexes, IndexWF p.2
  agrees : ∀ c idx, alookup t.indexes c = some idx → IndexAgrees idx c t.rows

/-- Looking an index up yields a well-formed index. -/
theorem TableOk.wfOf {t : Table} (ht : TableOk t) {c : String} {idx : Index}
    (h : alookup t.indexes c = some idx) : IndexWF idx :=
  ht.idxWF (c, idx) (alookup_mem _ _ _ h)

/-- An indexed column is a unique column (its index enforces uniqueness). -/
theorem TableOk.uniqueColOf {t : Table} (ht : TableOk t) {c : String} {idx : Index}
    (h : alookup t.indexes c = some idx) :
    ∃ col ∈ t.columns, col.name = c ∧ col.unique = true := by
  obtain ⟨col, hmem, hname, hflag⟩ := (ht.idxKeys c).1 (by rw [h]; rfl)
  refine ⟨col, hmem, hname, ?_⟩
  rcases Bool.or_eq_true_iff.1 hflag with hpk | hun
  · exact ht.pkUnique col hmem hpk
  · exact hun

/-- The effect of adding one row's value at `pos` on a single index. -/
def addedIndex (row : Row) (pos : Nat) (c : String) (idx : Index) : Index :=
  match Row.get row c with
  | none => idx
  | some v => { idx with entries := setKey idx.entries (Index.keyOf v) [pos] }

/-- The index-add loop of `insert`/`_rebuildIndexes` succeeds when every
indexed value of the row has a free bucket, and it updates each index
pointwise. -/
theorem addRowToIndexes_ok (row : Row) (pos : Nat) :
    ∀ idxs : List (String × Index),
      (idxs.map Prod.fst).Nodup →
      (∀ c idx, alookup idxs c = some idx → idx.isUnique = true) →
      (∀ c idx v, alookup idxs c = some idx → Row.get row c = some v → idx.has v = false) →
      (addRowToIndexes row pos idxs).1 = .ok () ∧
      (addRowToIndexes row pos idxs).2.map Prod.fst = idxs.map Prod.fst ∧
      ∀ c, alookup (addRowToIndexes row pos idxs).2 c =
        (alookup idxs c).map (addedIndex row pos c)
  | [], _, _, _ => by simp [addRowToIndexes, alookup]
  | (c0, idx0) :: rest, hnd, hu, hh => by
    have hself : alookup ((c0, idx0) :: rest) c0 = some idx0 := by simp [alookup]
    have hnd' := hnd
    simp only [List.map_cons, List.nodup_cons] at hnd'
    have htrans : ∀ c' idx', alookup rest c' = some idx' →
        alookup ((c0, idx0) :: rest) c' = some idx' := by
      intro c' idx' hl
      have hc' : c' ≠ c0 := by
        intro hcc
        subst hcc
        exact hnd'.1 ((alookup_isSome rest c').1 (by rw [hl]; rfl))
      simp [alookup, Ne.symm hc', hl]
    have ih := addRowToIndexes_ok row pos rest hnd'.2
      (fun c idx hl => hu c idx (htrans c idx hl))
      (fun c idx v hl hv => hh c idx v (htrans c idx hl) hv)
    cases hg : Row.get row c0 with
    | none =>
      simp only [addRowToIndexes, hg]
      refine ⟨ih.1, by simp [ih.2.1], ?_⟩
      intro c
      by_cases hc : c = c0
      · subst hc
        simp [alookup, addedIndex, hg]
      · simp only [alookup, if_neg (fun h : c0 = c => hc h.symm)]
        exact ih.2.2 c
    | some v =>
      have hadd := Index.add_of_not_has idx0 v pos (hu c0 idx0 hself)
        (hh c0 idx0 v hself hg)
      simp only [addRowToIndexes, hg, hadd]
      refine ⟨ih.1, by simp [ih.2.1], ?_⟩
      intro c
      by_cases hc : c = c0
      · subst hc
        simp [alookup, addedIndex, hg]
      · simp only [alookup, if_neg (fun h : c0 = c => hc h.symm)]
        exact ih.2.2 c

/-- The unique-occupancy facts extracted from a passing `insert`
constraint-check loop. -/
theorem checkUniqueDups_ok (idxs : List (String × Index)) (row : Row) :
    ∀ cols, checkUniqueDups idxs cols row = .ok () →
      ∀ col ∈ cols, col.unique = true → ∀ v, Row.get row col.name = some v →
        ∀ idx, alookup idxs col.name = some idx → idx.has v = false
  | [], _, col, hmem, _, _, _, _, _ => by simp at hmem
  | c0 :: rest, hok, col, hmem, hun, v, hv, idx, hidx => by
    have hdrop : checkUniqueDups idxs rest row = .ok () := by
      simp only [checkUniqueDups] at hok
      split at hok
      · exact hok
      · split at hok
        · exact hok
        · split at hok
          · cases hok
          · exact hok
    rcases List.mem_cons.1 hmem with he | he
    · subst he
      simp only [checkUniqueDups, hun, if_true, hv, hidx] at hok
      by_cases hhas : idx.has v = true
      · rw [if_pos hhas] at hok; cases hok
      · simpa using hhas
    · exact checkUniqueDups_ok idxs row rest hdrop col he hun v hv idx hidx

theorem IndexWF_addedIndex (row : Row) (pos : Nat) (c : String) (idx : Index)
    (hwf : IndexWF idx) : IndexWF (addedIndex row pos c idx) := by
  unfold addedIndex
  cases Row.get row c with
  | none => exact hwf
  | some v =>
    refine ⟨hwf.uniqueFlag, nodup_keys_setKey _ _ _ hwf.keysNodup, ?_⟩
    intro e he
    rcases mem_setKey _ _ _ _ he with he' | he'
    · exact hwf.singletons e he'
    · exact ⟨pos, by rw [he']⟩

theorem getElem?_some_lt {α : Type} {l : List α} {i : Nat} {a : α}
    (h : l[i]? = some a) : i < l.length := by
  by_contra hge
  rw [List.getElem?_eq_none (by omega)] at h
  cases h

theorem IndexAgrees.append_none {idx : Index} {c : String} {rows : List Row} {row : Row}
    (hag : IndexAgrees idx c rows) (h : Row.get row c = none) :
    IndexAgrees idx c (rows ++ [row]) := by
  intro k pos
  rw [hag k pos]
  constructor
  · rintro ⟨r, hr, v, hv, hk⟩
    refine ⟨r, ?_, v, hv, hk⟩
    rw [getElem?_append_singleton, if_pos (getElem?_some_lt hr)]
    exact hr
  · rintro ⟨r, hr, v, hv, hk⟩
    rw [getElem?_append_singleton] at hr
    by_cases h1 : pos < rows.length
    · rw [if_pos h1] at hr
      exact ⟨r, hr, v, hv, hk⟩
    · rw [if_neg h1] at hr
      by_cases h2 : pos = rows.length
      · rw [if_pos h2] at hr
        cases hr
        rw [h] at hv
        cases hv
      · rw [if_neg h2] at hr
        cases hr

theorem IndexAgrees.append_some {idx : Index} {c : String} {rows : List Row} {row : Row}
    {v : Value} (hag : IndexAgrees idx c rows) (hv : Row.get row c = some v)
    (hfree : idx.has v = false) :
    IndexAgrees { idx with entries := setKey idx.entries (Index.keyOf v) [rows.length] } c
      (rows ++ [row]) := by
  have hnone : alookup idx.entries (Index.keyOf v) = none := by
    rw [Index.has_eq_isSome] at hfree
    cases hl : alookup idx.entries (Index.keyOf v)
    · rfl
    · rw [hl] at hfree; cases hfree
  intro k pos
  by_cases hk : k = Index.keyOf v
  · subst hk
    have hfk : Index.findK { idx with entries := setKey idx.entries (Index.keyOf v) [rows.length] }
        (Index.keyOf v) = [rows.length] := by
      simp [Index.findK, alookup_setKey_self]
    rw [hfk]
    constructor
    · intro hmem
      rw [List.mem_singleton] at hmem
      subst hmem
      refine ⟨row, ?_, v, hv, rfl⟩
      rw [getElem?_append_singleton, if_neg (by omega), if_pos rfl]
    · rintro ⟨r, hr, w, hw, hkw⟩
      rw [getElem?_append_singleton] at hr
      by_cases h1 : pos < rows.length
      · rw [if_pos h1] at hr
        have := (hag (Index.keyOf v) pos).2 ⟨r, hr, w, hw, hkw⟩
        rw [Index.findK_eq, hnone] at this
        simp at this
      · rw [if_neg h1] at hr
        by_cases h2 : pos = rows.length
        · simp [h2]
        · rw [if_neg h2] at hr
          cases hr
  · have hfk : Index.findK { idx with entries := setKey idx.entries (Index.keyOf v) [rows.length] } k
        = idx.findK k := by
      simp [Index.findK, alookup_setKey_ne _ _ _ _ hk]
    rw [hfk, hag k pos]
    constructor
    · rintro ⟨r, hr, w, hw, hkw⟩
      refine ⟨r, ?_, w, hw, hkw⟩
      rw [getElem?_append_singleton, if_pos (getElem?_some_lt hr)]
      exact hr
    · rintro ⟨r, hr, w, hw, hkw⟩
      rw [getElem?_append_singleton] at hr
      by_cases h1 : pos < rows.length
      · rw [if_pos h1] at hr
        exact ⟨r, hr, w, hw, hkw⟩
      · rw [if_neg h1] at hr
        by_cases h2 : pos = rows.length
        · rw [if_pos h2] at hr
          cases hr
          rw [hv] at hw
          cases hw
          exact absurd hkw.symm hk
        · rw [if_neg h2] at hr
          cases hr

/-- `Table.insert` preserves the table invariant — also when it raises:
all checks run before any mutation, and once the checks pass the index
additions cannot fail. -/
theorem TableOk_insert (t : Table) (ht : TableOk t) (r : Row) :
    TableOk (t.insert r).2 := by
  unfold Table.insert
  cases hval : t.validateRow r with
  | error e => exact ht
  | ok row =>
    dsimp only
    cases hpk : t.checkPkDup row with
    | error e => exact ht
    | ok u =>
      cases u
      cases hun : checkUniqueDups t.indexes t.columns row with
      | error e => exact ht
      | ok u2 =>
        cases u2
        have hu : ∀ c idx, alookup t.indexes c = some idx → idx.isUnique = true :=
          fun c idx h => (ht.wfOf h).uniqueFlag
        have hh : ∀ c idx v, alookup t.indexes c = some idx → Row.get row c = some v →
            idx.has v = false := by
          intro c idx v hidx hv
          obtain ⟨col, hmem, hname, huniq⟩ := ht.uniqueColOf hidx
          subst hname
          exact checkUniqueDups_ok t.indexes row t.columns hun col hmem huniq v hv idx hidx
        obtain ⟨hok, hkeys, hlook⟩ :=
          addRowToIndexes_ok row t.rows.length t.indexes ht.idxKeysNodup hu hh
        simp only [hok]
        have hndA : ((addRowToIndexes row t.rows.length t.indexes).2.map Prod.fst).Nodup := by
          rw [hkeys]; exact ht.idxKeysNodup
        refine ⟨ht.colsNonempty, ht.colsNodup, ht.pkLeOne, ht.typesValid, ht.pkUnique,
          hndA, ?_, ?_, ?_⟩
        · intro c
          rw [hlook c, Option.isSome_map']
          exact ht.idxKeys c
        · intro p hp
          obtain ⟨k, idx'⟩ := p
          rw [mem_iff_alookup hndA, hlook k] at hp
          rcases Option.map_eq_some'.1 hp with ⟨idx, hidx, hEq⟩
          subst hEq
          exact IndexWF_addedIndex row t.rows.length k idx (ht.wfOf hidx)
        · intro c idx' hid
          rw [hlook c] at hid
          rcases Option.map_eq_some'.1 hid with ⟨idx, hidx, hEq⟩
          subst hEq
          cases hg : Row.get row c with
          | none =>
            simp only [addedIndex, hg]
            exact (ht.agrees c idx hidx).append_none hg
          | some v =>
            simp only [addedIndex, hg]
            exact (ht.agrees c idx hidx).append_some hg (hh c idx v hidx hg)

/-! ## Index rebuilding (`_rebuildIndexes`, `Table.fromJSON`) -/

/-- No two rows (at distinct positions) carry the same sentinel key in
column `c` — what uniqueness enforcement guarantees for indexed columns. -/
def RowsDistinctOn (rows : List Row) (c : String) : Prop :=
  ∀ (i j : Nat) (ri rj : Row) (vi vj : Value), rows[i]? = some ri → rows[j]? = some rj →
    Row.get ri c = some vi → Row.get rj c = some vj →
    Index.keyOf vi = Index.keyOf vj → i = j

theorem TableOk.rowsDistinct {t : Table} (ht : TableOk t) {c : String} {idx : Index}
    (h : alookup t.indexes c = some idx) : RowsDistinctOn t.rows c := by
  intro i j ri rj vi vj hi hj hvi hvj hk
  have h1 : i ∈ idx.findK (Index.keyOf vi) :=
    (ht.agrees c idx h (Index.keyOf vi) i).2 ⟨ri, hi, vi, hvi, rfl⟩
  have h2 : j ∈ idx.findK (Index.keyOf vi) :=
    (ht.agrees c idx h (Index.keyOf vi) j).2 ⟨rj, hj, vj, hvj, hk.symm⟩
  exact bucket_unique (ht.wfOf h) h1 h2

theorem RowsDistinctOn.eraseIdx {rows : List Row} {c : String}
    (h : RowsDistinctOn rows c) (k : Nat) : RowsDistinctOn (rows.eraseIdx k) c := by
  intro i j ri rj vi vj hi hj hvi hvj hk
  rw [List.getElem?_eraseIdx] at hi hj
  by_cases h1 : i < k <;> by_cases h2 : j < k
  · rw [if_pos h1] at hi; rw [if_pos h2] at hj
    exact h i j ri rj vi vj hi hj hvi hvj hk
  · rw [if_pos h1] at hi; rw [if_neg h2] at hj
    have := h i (j + 1) ri rj vi vj hi hj hvi hvj hk
    omega
  · rw [if_neg h1] at hi; rw [if_pos h2] at hj
    have := h (i + 1) j ri rj vi vj hi hj hvi hvj hk
    omega
  · rw [if_neg h1] at hi; rw [if_neg h2] at hj
    have := h (i + 1) (j + 1) ri rj vi vj hi hj hvi hvj hk
    omega

/-- Agreement of an index with the first `n` rows only (loop invariant of
the rebuild loops). -/
def PartialAgrees (idx : Index) (c : String) (rows : List Row) (n : Nat) : Prop :=
  ∀ k pos, pos ∈ idx.findK k ↔ pos < n ∧
    ∃ r, rows[pos]? = some r ∧ ∃ v, Row.get r c = some v ∧ Index.keyOf v = k

theorem PartialAgrees.step {idx : Index} {c : String} {rows : List Row} {n : Nat} {row : Row}
    (hpa : PartialAgrees idx c rows n) (hdist : RowsDistinctOn rows c)
    (hrow : rows[n]? = some row) :
    PartialAgrees (addedIndex row n c idx) c rows (n + 1) := by
  intro k pos
  unfold addedIndex
  cases hg : Row.get row c with
  | none =>
    rw [hpa k pos]
    constructor
    · rintro ⟨hlt, hx⟩
      exact ⟨by omega, hx⟩
    · rintro ⟨hlt, r, hr, v, hv, hk⟩
      refine ⟨?_, r, hr, v, hv, hk⟩
      by_cases hpn : pos = n
      · subst hpn
        rw [hrow] at hr
        cases hr
        rw [hg] at hv
        cases hv
      · omega
  | some v =>
    by_cases hk : k = Index.keyOf v
    · subst hk
      have hfk : Index.findK { idx with entries := setKey idx.entries (Index.keyOf v) [n] }
          (Index.keyOf v) = [n] := by
        simp [Index.findK, alookup_setKey_self]
      rw [hfk]
      constructor
      · intro hmem
        rw [List.mem_singleton] at hmem
        subst hmem
        exact ⟨by omega, row, hrow, v, hg, rfl⟩
      · rintro ⟨hlt, r, hr, w, hw, hkw⟩
        by_cases hpn : pos = n
        · simp [hpn]
        · exact absurd (hdist pos n r row w v hr hrow hw hg hkw) hpn
    · have hfk : Index.findK { idx with entries := setKey idx.entries (Index.keyOf v) [n] } k
          = idx.findK k := by
        simp [Index.findK, alookup_setKey_ne _ _ _ _ hk]
      rw [hfk, hpa k pos]
      constructor
      · rintro ⟨hlt, hx⟩
        exact ⟨by omega, hx⟩
      · rintro ⟨hlt, r, hr, w, hw, hkw⟩
        refine ⟨?_, r, hr, w, hw, hkw⟩
        by_cases hpn : pos = n
        · subst hpn
          rw [hrow] at hr
          cases hr
          rw [hg] at hw
          cases hw
          exact absurd hkw.symm hk
        · omega

/-- A bucket hit implies an occupied `has` probe (well-formed buckets are
singletons, so `has` and bucket membership coincide). -/
theorem has_of_mem_findK {idx : Index} {k : Value} {p : Nat}
    (hp : p ∈ idx.findK k) : (alookup idx.entries k).isSome = true := by
  rw [Index.findK_eq] at hp
  cases hl : alookup idx.entries k with
  | none => rw [hl] at hp; simp at hp
  | some b => rfl

/-- The rebuild loop: starting from empty well-formed indexes, adding every
row position in order succeeds and establishes full agreement, provided the
rows are duplicate-free on every indexed column. -/
theorem addRowsToIndexes_spec (rowsAll : List Row) :
    ∀ (rest : List Row) (n : Nat) (idxs : List (String × Index)),
      rowsAll.drop n = rest →
      (idxs.map Prod.fst).Nodup →
      (∀ p ∈ idxs, IndexWF p.2) →
      (∀ c idx, alookup idxs c = some idx → RowsDistinctOn rowsAll c) →
      (∀ c idx, alookup idxs c = some idx → PartialAgrees idx c rowsAll n) →
      (addRowsToIndexes (List.enumFrom n rest) idxs).1 = .ok () ∧
      (addRowsToIndexes (List.enumFrom n rest) idxs).2.map Prod.fst = idxs.map Prod.fst ∧
      (∀ p ∈ (addRowsToIndexes (List.enumFrom n rest) idxs).2, IndexWF p.2) ∧
      (∀ c idx, alookup (addRowsToIndexes (List.enumFrom n rest) idxs).2 c = some idx →
        PartialAgrees idx c rowsAll (n + rest.length))
  | [], n, idxs, hdrop, hnd, hwf, hdist, hpa => by
    refine ⟨rfl, rfl, hwf, ?_⟩
    intro c idx hl
    have hl' : alookup idxs c = some idx := hl
    simpa using hpa c idx hl'
  | row :: rest', n, idxs, hdrop, hnd, hwf, hdist, hpa => by
    have hrow : rowsAll[n]? = some row := by
      have := List.getElem?_drop rowsAll n 0
      rw [hdrop] at this
      simpa using this.symm
    have hdrop' : rowsAll.drop (n + 1) = rest' := by
      have := List.drop_drop 1 n rowsAll
      rw [hdrop] at this
      simpa using this.symm
    have hu : ∀ c idx, alookup idxs c = some idx → idx.isUnique = true :=
      fun c idx h => (hwf _ (alookup_mem _ _ _ h)).uniqueFlag
    have hfree : ∀ c idx v, alookup idxs c = some idx → Row.get row c = some v →
        idx.has v = false := by
      intro c idx v hl hv
      by_cases hh : idx.has v = true
      · rw [Index.has_eq_isSome] at hh
        cases hb : alookup idx.entries (Index.keyOf v) with
        | none => rw [hb] at hh; cases hh
        | some b =>
          obtain ⟨p, hp⟩ := (hwf _ (alookup_mem _ _ _ hl)).singletons _ (alookup_mem _ _ _ hb)
          simp only at hp
          have hpmem : p ∈ idx.findK (Index.keyOf v) := by
            rw [Index.findK_eq, hb, hp]
            simp
          obtain ⟨hplt, r, hr, w, hw, hkw⟩ := (hpa c idx hl (Index.keyOf v) p).1 hpmem
          have := hdist c idx hl p n r row w v hr hrow hw hv hkw
          omega
      · simpa using hh
    obtain ⟨hok1, hkeys1, hlook1⟩ := addRowToIndexes_ok row n idxs hnd hu hfree
    have hnd1 : ((addRowToIndexes row n idxs).2.map Prod.fst).Nodup := by
      rw [hkeys1]; exact hnd
    have hwf1 : ∀ p ∈ (addRowToIndexes row n idxs).2, IndexWF p.2 := by
      intro p hp
      obtain ⟨k, idx'⟩ := p
      rw [mem_iff_alookup hnd1, hlook1 k] at hp
      rcases Option.map_eq_some'.1 hp with ⟨idx, hidx, hEq⟩
      subst hEq
      exact IndexWF_addedIndex row n k idx (hwf _ (alookup_mem _ _ _ hidx))
    have hdist1 : ∀ c idx, alookup (addRowToIndexes row n idxs).2 c = some idx →
        RowsDistinctOn rowsAll c := by
      intro c idx hl
      rw [hlook1 c] at hl
      rcases Option.map_eq_some'.1 hl with ⟨idx0, hidx0, _⟩
      exact hdist c idx0 hidx0
    have hpa1 : ∀ c idx, alookup (addRowToIndexes row n idxs).2 c = some idx →
        PartialAgrees idx c rowsAll (n + 1) := by
      intro c idx hl
      rw [hlook1 c] at hl
      rcases Option.map_eq_some'.1 hl with ⟨idx0, hidx0, hEq⟩
      subst hEq
      exact (hpa c idx0 hidx0).step (hdist c idx0 hidx0) hrow
    have ih := addRowsToIndexes_spec rowsAll rest' (n + 1) (addRowToIndexes row n idxs).2
      hdrop' hnd1 hwf1 hdist1 hpa1
    cases hstep : addRowToIndexes row n idxs with
    | mk r1 idxs1 =>
      have hr1 : r1 = .ok () := by rw [hstep] at hok1; exact hok1
      subst hr1
      rw [hstep] at ih hkeys1
      simp only [List.enumFrom, addRowsToIndexes, hstep]
      refine ⟨ih.1, ih.2.1.trans hkeys1, ih.2.2.1, ?_⟩
      intro c idx hl
      have := ih.2.2.2 c idx hl
      have harith : n + 1 + rest'.length = n + (rest'.length + 1) := by omega
      rw [harith] at this
      exact this

theorem alookup_map_snd {α β γ : Type} [DecidableEq α] (f : β → γ) :
    ∀ (l : List (α × β)) (k : α),
      alookup (l.map (fun p => (p.1, f p.2))) k = (alookup l k).map f
  | [], k => rfl
  | (a, b) :: t, k => by
    by_cases hak : a = k
    · subst hak
      simp [alookup]
    · simp only [List.map_cons, alookup, hak, if_false]
      exact alookup_map_snd f t k

theorem freshIndexes_keys (idxs : List (String × Index)) :
    (freshIndexes idxs).map Prod.fst = idxs.map Prod.fst := by
  simp [freshIndexes]

theorem alookup_freshIndexes :
    ∀ (idxs : List (String × Index)) (c : String),
      alookup (freshIndexes idxs) c =
        (alookup idxs c).map
          (fun idx => Index.new idx.columnName idx.isPrimaryKey idx.isUnique)
  | [], c => rfl
  | (a, idx) :: rest, c => by
    by_cases hac : a = c
    · subst hac
      simp [freshIndexes, alookup]
    · simp only [freshIndexes, List.map_cons, alookup, hac, if_false]
      exact alookup_freshIndexes rest c

theorem IndexWF_new {n : String} {pk u : Bool} (hu : u = true) :
    IndexWF (Index.new n pk u) := by
  subst hu
  exact ⟨rfl, List.nodup_nil, fun e he => absurd he (List.not_mem_nil e)⟩

theorem removeRowFromIndexes_keys (row : Row) (i : Nat) :
    ∀ idxs : List (String × Index),
      (removeRowFromIndexes row i idxs).map Prod.fst = idxs.map Prod.fst
  | [] => rfl
  | (c, idx) :: rest => by
    simp only [removeRowFromIndexes, List.map_cons]
    rw [removeRowFromIndexes_keys row i rest]

theorem Index.remove_isUnique (idx : Index) (v : Value) (pos : Nat) :
    (idx.remove v pos).isUnique = idx.isUnique := by
  simp only [Index.remove]
  cases h : alookup idx.entries (Index.keyOf v) with
  | none => rfl
  | some s =>
    simp only
    split
    · rfl
    · split <;> rfl

theorem removeRowFromIndexes_isUnique (row : Row) (i : Nat) :
    ∀ (idxs : List (String × Index)), (∀ p ∈ idxs, p.2.isUnique = true) →
      ∀ p ∈ removeRowFromIndexes row i idxs, p.2.isUnique = true
  | [], _, p, hp => absurd hp (List.not_mem_nil p)
  | (c, idx) :: rest, h, p, hp => by
    simp only [removeRowFromIndexes, List.mem_cons] at hp
    rcases hp with hp | hp
    · subst hp
      have := h (c, idx) (List.mem_cons_self _ _)
      simp only at this ⊢
      cases Row.get row c with
      | none => exact this
      | some v => rw [Index.remove_isUnique]; exact this
    · exact removeRowFromIndexes_isUnique row i rest
        (fun q hq => h q (List.mem_cons_of_mem _ hq)) p hp

theorem alookup_removeRowFromIndexes (row : Row) (i : Nat) :
    ∀ (idxs : List (String × Index)) (c : String),
      (alookup (removeRowFromIndexes row i idxs) c).isSome = (alookup idxs c).isSome
  | [], c => rfl
  | (a, idx) :: rest, c => by
    by_cases hac : a = c
    · subst hac
      simp [removeRowFromIndexes, alookup]
    · simp only [removeRowFromIndexes, alookup, hac, if_false]
      exact alookup_removeRowFromIndexes row i rest c

/-- Full agreement is partial agreement up to the length of the row list. -/
theorem IndexAgrees_of_partial {idx : Index} {c : String} {rows : List Row}
    (h : PartialAgrees idx c rows rows.length) : IndexAgrees idx c rows := by
  intro k pos
  rw [h k pos]
  constructor
  · rintro ⟨_, hx⟩
    exact hx
  · rintro ⟨r, hr, hx⟩
    exact ⟨getElem?_some_lt hr, r, hr, hx⟩

/-- `_rebuildIndexes` succeeds and restores full index agreement whenever the
index keys are duplicate-free, every index is a unique index, and the rows
are duplicate-free on every indexed column. -/
theorem rebuildIndexes_ok (t : Table)
    (hnd : (t.indexes.map Prod.fst).Nodup)
    (hu : ∀ p ∈ t.indexes, p.2.isUnique = true)
    (hdist : ∀ c idx, alookup t.indexes c = some idx → RowsDistinctOn t.rows c) :
    (t.rebuildIndexes).1 = .ok () ∧
    (t.rebuildIndexes).2.rows = t.rows ∧
    (t.rebuildIndexes).2.columns = t.columns ∧
    (t.rebuildIndexes).2.name = t.name ∧
    (t.rebuildIndexes).2.indexes.map Prod.fst = t.indexes.map Prod.fst ∧
    (∀ p ∈ (t.rebuildIndexes).2.indexes, IndexWF p.2) ∧
    (∀ c idx, alookup (t.rebuildIndexes).2.indexes c = some idx →
      IndexAgrees idx c t.rows) := by
  have hnd0 : ((freshIndexes t.indexes).map Prod.fst).Nodup := by
    rw [freshIndexes_keys]; exact hnd
  have hwf0 : ∀ p ∈ freshIndexes t.indexes, IndexWF p.2 := by
    intro p hp
    rcases List.mem_map.1 hp with ⟨q, hq, hEq⟩
    subst hEq
    exact IndexWF_new (hu q hq)
  have hdist0 : ∀ c idx, alookup (freshIndexes t.indexes) c = some idx →
      RowsDistinctOn t.rows c := by
    intro c idx hl
    rw [alookup_freshIndexes] at hl
    rcases Option.map_eq_some'.1 hl with ⟨idx0, hidx0, _⟩
    exact hdist c idx0 hidx0
  have hpa0 : ∀ c idx, alookup (freshIndexes t.indexes) c = some idx →
      PartialAgrees idx c t.rows 0 := by
    intro c idx hl
    rw [alookup_freshIndexes] at hl
    rcases Option.map_eq_some'.1 hl with ⟨idx0, _, hEq⟩
    subst hEq
    intro k pos
    simp [Index.findK, Index.new, alookup]
  have hspec := addRowsToIndexes_spec t.rows t.rows 0 (freshIndexes t.indexes)
    (List.drop_zero _) hnd0 hwf0 hdist0 hpa0
  have henum : t.rows.enum = List.enumFrom 0 t.rows := rfl
  unfold Table.rebuildIndexes
  rw [henum]
  refine ⟨hspec.1, rfl, rfl, rfl, hspec.2.1.trans (freshIndexes_keys t.indexes), hspec.2.2.1, ?_⟩
  intro c idx hl
  have := hspec.2.2.2 c idx hl
  rw [Nat.zero_add] at this
  exact IndexAgrees_of_partial this

theorem deleteLoop_succ_pos (w : Cond) (i : Nat) (t : Table)
    (hcond : jsSwitchCompare w.operator (Row.get (t.rows.getD i []) w.column) w.value = true) :
    Table.deleteLoop w (i + 1) t =
      match ({ t with
               rows := List.eraseIdx t.rows i,
               indexes := removeRowFromIndexes (t.rows.getD i []) i t.indexes }
             : Table).rebuildIndexes with
      | (.error e, t3) => (.error e, t3)
      | (.ok (), t3) =>
        match Table.deleteLoop w i t3 with
        | (.error e, t4) => (.error e, t4)
        | (.ok c, t4) => (.ok (c + 1), t4) := by
  conv_lhs => rw [Table.deleteLoop]
  simp only [hcond, if_true]

theorem deleteLoop_succ_neg (w : Cond) (i : Nat) (t : Table)
    (hcond : jsSwitchCompare w.operator (Row.get (t.rows.getD i []) w.column) w.value = false) :
    Table.deleteLoop w (i + 1) t = Table.deleteLoop w i t := by
  conv_lhs => rw [Table.deleteLoop]
  simp only [hcond, Bool.false_eq_true, if_false]

/-- One deletion step of `Table.delete` preserves all table invariants, and
the loop never fails. -/
theorem TableOk_deleteLoop (w : Cond) :
    ∀ (i : Nat) (t : Table), TableOk t →
      TableOk (Table.deleteLoop w i t).2 ∧ ∃ n, (Table.deleteLoop w i t).1 = .ok n
  | 0, t, ht => ⟨ht, 0, rfl⟩
  | i + 1, t, ht => by
    by_cases hcond : jsSwitchCompare w.operator (Row.get (t.rows.getD i []) w.column) w.value = true
    · rw [deleteLoop_succ_pos w i t hcond]
      set t2 : Table := { t with
        rows := List.eraseIdx t.rows i,
        indexes := removeRowFromIndexes (t.rows.getD i []) i t.indexes } with ht2
      have hnd2 : (t2.indexes.map Prod.fst).Nodup := by
        rw [ht2]
        simp only
        rw [removeRowFromIndexes_keys]
        exact ht.idxKeysNodup
      have hu2 : ∀ p ∈ t2.indexes, p.2.isUnique = true := by
        rw [ht2]
        exact removeRowFromIndexes_isUnique (t.rows.getD i []) i t.indexes
          (fun p hp => (ht.idxWF p hp).uniqueFlag)
      have hdist2 : ∀ c idx, alookup t2.indexes c = some idx →
          RowsDistinctOn t2.rows c := by
        intro c idx hl
        have hs : (alookup t.indexes c).isSome = true := by
          rw [← alookup_removeRowFromIndexes (t.rows.getD i []) i t.indexes c]
          rw [ht2] at hl
          simp only at hl
          rw [hl]
          rfl
        cases hidx0 : alookup t.indexes c with
        | none => rw [hidx0] at hs; cases hs
        | some idx0 =>
          have := (ht.rowsDistinct hidx0).eraseIdx i
          rw [ht2]
          exact this
      obtain ⟨hok, hrows, hcols, hname, hkeys, hwf, hagrees⟩ :=
        rebuildIndexes_ok t2 hnd2 hu2 hdist2
      cases hreb : t2.rebuildIndexes with
      | mk r1 t3 =>
        rw [hreb] at hok hrows hcols hname hkeys hwf hagrees
        simp only at hok hrows hcols hname hkeys hwf hagrees
        subst hok
        have ht3 : TableOk t3 := by
          refine ⟨?_, ?_, ?_, ?_, ?_, ?_, ?_, hwf, ?_⟩
          · rw [hcols]; exact ht.colsNonempty
          · rw [hcols]; exact ht.colsNodup
          · rw [hcols]; exact ht.pkLeOne
          · rw [hcols]; exact ht.typesValid
          · rw [hcols]; exact ht.pkUnique
          · rw [hkeys, removeRowFromIndexes_keys]
            exact ht.idxKeysNodup
          · intro c
            rw [alookup_isSome, hkeys, removeRowFromIndexes_keys, ← alookup_isSome, hcols]
            exact ht.idxKeys c
          · intro c idx hl
            rw [hrows]
            exact hagrees c idx hl
        simp only [hreb]
        obtain ⟨hloop, n, hn⟩ := TableOk_deleteLoop w i t3 ht3
        cases hres : Table.deleteLoop w i t3 with
        | mk r2 t4 =>
          rw [hres] at hloop hn
          have hr2 : r2 = .ok n := hn
          subst hr2
          exact ⟨hloop, n + 1, rfl⟩
    · have hcf : jsSwitchCompare w.operator (Row.get (t.rows.getD i []) w.column) w.value
          = false := by simpa using hcond
      rw [deleteLoop_succ_neg w i t hcf]
      exact TableOk_deleteLoop w i t ht

/-- `Table.delete` preserves all table invariants and never fails. -/
theorem TableOk_delete (t : Table) (ht : TableOk t) (cond : Option Cond) :
    TableOk (t.delete cond).2 ∧ ∃ n, (t.delete cond).1 = .ok n := by
  cases cond with
  | none =>
    refine ⟨⟨ht.colsNonempty, ht.colsNodup, ht.pkLeOne, ht.typesValid, ht.pkUnique,
      ?_, ?_, ?_, ?_⟩, t.rows.length, rfl⟩
    · simp only [Table.delete]
      rw [freshIndexes_keys]
      exact ht.idxKeysNodup
    · intro c
      simp only [Table.delete]
      rw [alookup_isSome, freshIndexes_keys, ← alookup_isSome]
      exact ht.idxKeys c
    · intro p hp
      simp only [Table.delete] at hp
      rcases List.mem_map.1 hp with ⟨q, hq, hEq⟩
      subst hEq
      exact IndexWF_new ((ht.idxWF q hq).uniqueFlag)
    · intro c idx hl
      simp only [Table.delete] at hl
      rw [alookup_freshIndexes] at hl
      rcases Option.map_eq_some'.1 hl with ⟨idx0, _, hEq⟩
      subst hEq
      intro k pos
      simp [Table.delete, Index.findK, Index.new, alookup]
  | some w => exact TableOk_deleteLoop w t.rows.length t ht

/-! ## Update preservation (`Table.update`) -/

theorem Row.get_set_self (r : Row) (c : String) (v : Value) :
    Row.get (Row.set r c v) c = some v :=
  alookup_setKey_self r c v

theorem Row.get_set_ne (r : Row) (c c' : String) (v : Value) (h : c' ≠ c) :
    Row.get (Row.set r c v) c' = Row.get r c' :=
  alookup_setKey_ne r c c' v h

theorem assignRow_cons (row : Row) (c : String) (v : Value) (rest : List (String × Value)) :
    assignRow row ((c, v) :: rest) = assignRow (Row.set row c v) rest := rfl

theorem Row.get_assignRow_not_mem :
    ∀ (ups : List (String × Value)) (row : Row) (c : String),
      c ∉ ups.map Prod.fst → Row.get (assignRow row ups) c = Row.get row c
  | [], row, c, _ => rfl
  | (a, v) :: rest, row, c, h => by
    simp only [List.map_cons, List.mem_cons] at h
    push_neg at h
    rw [assignRow_cons, Row.get_assignRow_not_mem rest (Row.set row a v) c h.2]
    exact Row.get_set_ne row a c v h.1

theorem Row.get_assignRow_lookup :
    ∀ (ups : List (String × Value)) (row : Row) (c : String) (v : Value),
      (ups.map Prod.fst).Nodup → alookup ups c = some v →
      Row.get (assignRow row ups) c = some v
  | [], row, c, v, _, h => by cases h
  | (a, w) :: rest, row, c, v, hnd, h => by
    simp only [List.map_cons, List.nodup_cons] at hnd
    by_cases hac : a = c
    · subst hac
      simp only [alookup, if_true, eq_self_iff_true, Option.some.injEq] at h
      subst h
      rw [assignRow_cons, Row.get_assignRow_not_mem rest (Row.set row a w) a hnd.1]
      exact Row.get_set_self row a w
    · simp only [alookup, hac, if_false] at h
      rw [assignRow_cons]
      exact Row.get_assignRow_lookup rest (Row.set row a w) c v hnd.2 h

theorem find?_name_of_mem :
    ∀ (cols : List Column), (cols.map Column.name).Nodup →
      ∀ col ∈ cols, ∀ c, col.name = c →
        cols.find? (fun x => x.name == c) = some col
  | [], _, col, hmem => absurd hmem (List.not_mem_nil col)
  | h :: tl, hnd, col, hmem => by
    intro c hname
    simp only [List.map_cons, List.nodup_cons] at hnd
    rcases List.mem_cons.1 hmem with rfl | htl
    · simp [List.find?, hname]
    · have hh : (h.name == c) = false := by
        have : h.name ≠ c := by
          intro hEq
          exact hnd.1 (hEq ▸ hname ▸ List.mem_map_of_mem Column.name htl)
        simpa using this
      simp only [List.find?, hh]
      exact find?_name_of_mem tl hnd.2 col htl c hname

/-- A column found by name under duplicate-free names. -/
theorem getColumn_of_mem {t : Table} (hnd : (t.columns.map Column.name).Nodup)
    {col : Column} {c : String} (hmem : col ∈ t.columns) (hname : col.name = c) :
    t.getColumn c = some col :=
  find?_name_of_mem t.columns hnd col hmem c hname

/-- What a passing `checkUpdateConstraints` run certifies: every updated
unique/primary column whose value strictly changes has a free bucket for
the new value. -/
theorem checkUpdateConstraints_ok (t : Table) (row : Row) :
    ∀ ups : List (String × Value), checkUpdateConstraints t row ups = .ok () →
      ∀ c newV, (c, newV) ∈ ups →
        ∀ col, t.getColumn c = some col → (col.unique || col.primaryKey) = true →
          some newV ≠ Row.get row c →
          ∀ idx, alookup t.indexes c = some idx → idx.has newV = false
  | [], _, c, newV, hmem => absurd hmem (List.not_mem_nil _)
  | (c0, v0) :: rest, hok, c, newV, hmem => by
    intro col hcol hflag hne idx hidx
    simp only [checkUpdateConstraints] at hok
    rcases List.mem_cons.1 hmem with hhd | htl
    · cases hhd
      simp only [hcol] at hok
      simp only [hflag, if_true, eq_self_iff_true] at hok
      rw [if_pos hne] at hok
      simp only [hidx] at hok
      by_cases hh : idx.has v0 = true
      · rw [hh] at hok
        simp at hok
      · simpa using hh
    · have hrest : checkUpdateConstraints t row rest = .ok () := by
        cases hgc : t.getColumn c0 with
        | none => simp only [hgc] at hok; simp at hok
        | some col0 =>
          simp only [hgc] at hok
          by_cases hf0 : (col0.unique || col0.primaryKey) = true
          · simp only [hf0, if_true, eq_self_iff_true] at hok
            by_cases hne0 : some v0 ≠ Row.get row c0
            · rw [if_pos hne0] at hok
              cases hidx0 : alookup t.indexes c0 with
              | none => simp only [hidx0] at hok; exact hok
              | some idx0 =>
                simp only [hidx0] at hok
                by_cases hh0 : idx0.has v0 = true
                · rw [hh0] at hok; simp at hok
                · rw [Bool.not_eq_true] at hh0
                  rw [hh0] at hok
                  simpa using hok
            · rw [if_neg hne0] at hok; exact hok
          · rw [Bool.not_eq_true] at hf0
            simp only [hf0] at hok
            simpa using hok
      exact checkUpdateConstraints_ok t row rest hrest c newV htl col hcol hflag hne idx hidx

theorem Index.update_same (idx : Index) (o : Value) (i : Nat) :
    idx.update (some o) o i = .ok idx := by
  simp [Index.update]

theorem Index.update_some_ne {idx : Index} (hwf : IndexWF idx) {o newV : Value} {i : Nat}
    (hne : o ≠ newV) (hfree : idx.has newV = false) :
    idx.update (some o) newV i =
      .ok { idx with
            entries := setKey (eraseKey idx.entries (Index.keyOf o)) (Index.keyOf newV) [i] } := by
  simp only [Index.update]
  rw [if_neg hne, Index.remove_unique idx o i hwf.uniqueFlag]
  have hfree' : Index.has { idx with entries := eraseKey idx.entries (Index.keyOf o) } newV
      = false := by
    rw [Index.has_eq_isSome]
    simp only
    by_cases hkk : Index.keyOf newV = Index.keyOf o
    · rw [hkk, alookup_eraseKey_self _ _ hwf.keysNodup]
      rfl
    · rw [alookup_eraseKey_ne _ _ _ hkk]
      rw [Index.has_eq_isSome] at hfree
      exact hfree
  exact Index.add_of_not_has _ newV i hwf.uniqueFlag hfree'

theorem Index.update_none {idx : Index} (hu : idx.isUnique = true) {newV : Value} {i : Nat}
    (hfree : idx.has newV = false) :
    idx.update none newV i =
      .ok { idx with entries := setKey idx.entries (Index.keyOf newV) [i] } :=
  Index.add_of_not_has idx newV i hu hfree

theorem IndexWF_update {idx idx' : Index} (hwf : IndexWF idx) {old : Option Value}
    {newV : Value} {i : Nat} (h : idx.update old newV i = .ok idx') : IndexWF idx' := by
  cases old with
  | none => exact IndexWF_add idx newV i idx' hwf h
  | some o =>
    simp only [Index.update] at h
    by_cases ho : o = newV
    · rw [if_pos ho] at h
      cases h
      exact hwf
    · rw [if_neg ho] at h
      exact IndexWF_add _ newV i idx' (IndexWF_remove idx o i hwf) h

/-- Replacing the row at an occupied position by one with the same value in
column `c` leaves agreement intact. -/
theorem IndexAgrees.set_same {idx : Index} {c : String} {rows : List Row} {i : Nat}
    {row newRow : Row} (hag : IndexAgrees idx c rows) (hrow : rows[i]? = some row)
    (hsame : Row.get newRow c = Row.get row c) :
    IndexAgrees idx c (rows.set i newRow) := by
  have hlen : i < rows.length := getElem?_some_lt hrow
  intro k pos
  rw [hag k pos]
  constructor
  · rintro ⟨r, hr, v, hv, hkv⟩
    by_cases hpi : pos = i
    · subst hpi
      rw [hrow] at hr
      cases hr
      refine ⟨newRow, ?_, v, ?_, hkv⟩
      · rw [List.getElem?_set, if_pos rfl, if_pos hlen]
      · rw [hsame]; exact hv
    · exact ⟨r, by rw [List.getElem?_set, if_neg (fun h => hpi h.symm)]; exact hr, v, hv, hkv⟩
  · rintro ⟨r, hr, v, hv, hkv⟩
    rw [List.getElem?_set] at hr
    by_cases hpi : i = pos
    · subst hpi
      rw [if_pos rfl, if_pos hlen] at hr
      cases hr
      rw [hsame] at hv
      exact ⟨row, hrow, v, hv, hkv⟩
    · rw [if_neg hpi] at hr
      exact ⟨r, hr, v, hv, hkv⟩

/-- Setting a fresh value at a position whose row had no value in column
`c`: the new singleton bucket is exactly the new row. -/
theorem IndexAgrees.set_add {idx : Index} {c : String} {rows : List Row} {i : Nat}
    {row newRow : Row} {newV : Value}
    (hag : IndexAgrees idx c rows) (hrow : rows[i]? = some row)
    (hold : Row.get row c = none) (hnew : Row.get newRow c = some newV)
    (hfree : idx.has newV = false) :
    IndexAgrees { idx with entries := setKey idx.entries (Index.keyOf newV) [i] } c
      (rows.set i newRow) := by
  have hlen : i < rows.length := getElem?_some_lt hrow
  intro k pos
  by_cases hk : k = Index.keyOf newV
  · subst hk
    have hfk : Index.findK { idx with entries := setKey idx.entries (Index.keyOf newV) [i] }
        (Index.keyOf newV) = [i] := by
      simp [Index.findK, alookup_setKey_self]
    rw [hfk]
    constructor
    · simp only [List.mem_singleton]
      rintro rfl
      refine ⟨newRow, ?_, newV, hnew, rfl⟩
      rw [List.getElem?_set, if_pos rfl, if_pos hlen]
    · rintro ⟨r, hr, v, hv, hkv⟩
      rw [List.getElem?_set] at hr
      by_cases hpi : i = pos
      · simp [hpi]
      · rw [if_neg hpi] at hr
        have hmem : pos ∈ idx.findK (Index.keyOf newV) := (hag _ pos).2 ⟨r, hr, v, hv, hkv⟩
        have hsome := has_of_mem_findK hmem
        rw [Index.has_eq_isSome] at hfree
        rw [hfree] at hsome
        cases hsome
  · have hfk : Index.findK { idx with entries := setKey idx.entries (Index.keyOf newV) [i] } k
        = idx.findK k := by
      simp [Index.findK, alookup_setKey_ne _ _ _ _ hk]
    rw [hfk, hag k pos]
    constructor
    · rintro ⟨r, hr, v, hv, hkv⟩
      by_cases hpi : pos = i
      · subst hpi
        rw [hrow] at hr
        cases hr
        rw [hold] at hv
        cases hv
      · exact ⟨r, by rw [List.getElem?_set, if_neg (fun h => hpi h.symm)]; exact hr, v, hv, hkv⟩
    · rintro ⟨r, hr, v, hv, hkv⟩
      rw [List.getElem?_set] at hr
      by_cases hpi : i = pos
      · subst hpi
        rw [if_pos rfl, if_pos hlen] at hr
        cases hr
        rw [hnew] at hv
        cases hv
        exact absurd hkv.symm hk
      · rw [if_neg hpi] at hr
        exact ⟨r, hr, v, hv, hkv⟩

/-- Changing the value at a position: the old key's bucket is dropped and
the new key maps to exactly this position. -/
theorem IndexAgrees.set_change {idx : Index} {c : String} {rows : List Row} {i : Nat}
    {row newRow : Row} {o newV : Value}
    (hwf : IndexWF idx) (hag : IndexAgrees idx c rows) (hrow : rows[i]? = some row)
    (hold : Row.get row c = some o) (hnew : Row.get newRow c = some newV)
    (hfree : idx.has newV = false) :
    IndexAgrees { idx with
        entries := setKey (eraseKey idx.entries (Index.keyOf o)) (Index.keyOf newV) [i] } c
      (rows.set i newRow) := by
  have hlen : i < rows.length := getElem?_some_lt hrow
  have hio : i ∈ idx.findK (Index.keyOf o) := (hag _ i).2 ⟨row, hrow, o, hold, rfl⟩
  have hne : Index.keyOf o ≠ Index.keyOf newV := by
    intro hEq
    have hsome := has_of_mem_findK hio
    rw [Index.has_eq_isSome] at hfree
    rw [← hEq] at hfree
    rw [hfree] at hsome
    cases hsome
  intro k pos
  by_cases hk : k = Index.keyOf newV
  · subst hk
    have hfk : Index.findK { idx with
        entries := setKey (eraseKey idx.entries (Index.keyOf o)) (Index.keyOf newV) [i] }
        (Index.keyOf newV) = [i] := by
      simp [Index.findK, alookup_setKey_self]
    rw [hfk]
    constructor
    · simp only [List.mem_singleton]
      rintro rfl
      refine ⟨newRow, ?_, newV, hnew, rfl⟩
      rw [List.getElem?_set, if_pos rfl, if_pos hlen]
    · rintro ⟨r, hr, v, hv, hkv⟩
      rw [List.getElem?_set] at hr
      by_cases hpi : i = pos
      · simp [hpi]
      · rw [if_neg hpi] at hr
        have hmem : pos ∈ idx.findK (Index.keyOf newV) := (hag _ pos).2 ⟨r, hr, v, hv, hkv⟩
        have hsome := has_of_mem_findK hmem
        rw [Index.has_eq_isSome] at hfree
        rw [hfree] at hsome
        cases hsome
  · by_cases hko : k = Index.keyOf o
    · subst hko
      have hfk : Index.findK { idx with
          entries := setKey (eraseKey idx.entries (Index.keyOf o)) (Index.keyOf newV) [i] }
          (Index.keyOf o) = [] := by
        simp only [Index.findK]
        rw [alookup_setKey_ne _ _ _ _ hk, alookup_eraseKey_self _ _ hwf.keysNodup]
        rfl
      rw [hfk]
      simp only [List.not_mem_nil, false_iff]
      rintro ⟨r, hr, v, hv, hkv⟩
      rw [List.getElem?_set] at hr
      by_cases hpi : i = pos
      · subst hpi
        rw [if_pos rfl, if_pos hlen] at hr
        cases hr
        rw [hnew] at hv
        cases hv
        exact hne hkv.symm
      · rw [if_neg hpi] at hr
        have hmem : pos ∈ idx.findK (Index.keyOf o) := (hag _ pos).2 ⟨r, hr, v, hv, hkv⟩
        exact hpi (bucket_unique hwf hio hmem)
    · have hfk : Index.findK { idx with
          entries := setKey (eraseKey idx.entries (Index.keyOf o)) (Index.keyOf newV) [i] } k
          = idx.findK k := by
        simp only [Index.findK]
        rw [alookup_setKey_ne _ _ _ _ hk, alookup_eraseKey_ne _ _ _ hko]
      rw [hfk, hag k pos]
      constructor
      · rintro ⟨r, hr, v, hv, hkv⟩
        by_cases hpi : pos = i
        · subst hpi
          rw [hrow] at hr
          cases hr
          rw [hold] at hv
          cases hv
          exact absurd hkv.symm hko
        · exact ⟨r, by rw [List.getElem?_set, if_neg (fun h => hpi h.symm)]; exact hr,
            v, hv, hkv⟩
      · rintro ⟨r, hr, v, hv, hkv⟩
        rw [List.getElem?_set] at hr
        by_cases hpi : i = pos
        · subst hpi
          rw [if_pos rfl, if_pos hlen] at hr
          cases hr
          rw [hnew] at hv
          cases hv
          exact absurd hkv.symm hk
        · rw [if_neg hpi] at hr
          exact ⟨r, hr, v, hv, hkv⟩

/-- The index-maintenance loop of `Table.update` succeeds when every updated
indexed column passed the uniqueness probe, leaves non-updated indexes
alone, and rewrites each updated index through `Index.update`. -/
theorem updateRowIndexes_ok (oldRow : Row) (i : Nat) :
    ∀ (ups : List (String × Value)) (idxs : List (String × Index)),
      (idxs.map Prod.fst).Nodup →
      (ups.map Prod.fst).Nodup →
      (∀ c newV idx, (c, newV) ∈ ups → alookup idxs c = some idx →
        IndexWF idx ∧
        (∀ o, Row.get oldRow c = some o → o ≠ newV → idx.has newV = false) ∧
        (Row.get oldRow c = none → idx.has newV = false)) →
      (updateRowIndexes oldRow i ups idxs).1 = .ok () ∧
      (updateRowIndexes oldRow i ups idxs).2.map Prod.fst = idxs.map Prod.fst ∧
      (∀ c, c ∉ ups.map Prod.fst →
        alookup (updateRowIndexes oldRow i ups idxs).2 c = alookup idxs c) ∧
      (∀ c newV, alookup ups c = some newV → ∀ idx, alookup idxs c = some idx →
        ∃ idx', alookup (updateRowIndexes oldRow i ups idxs).2 c = some idx' ∧
          Index.update idx (Row.get oldRow c) newV i = .ok idx') ∧
      (∀ c, alookup idxs c = none → alookup (updateRowIndexes oldRow i ups idxs).2 c = none)
  | [], idxs, hnd, hups, hpre => by
    refine ⟨rfl, rfl, fun c _ => rfl, ?_, fun c h => h⟩
    intro c newV h
    cases h
  | (c0, v0) :: rest, idxs, hnd, hups, hpre => by
    simp only [List.map_cons, List.nodup_cons] at hups
    cases hidx0 : alookup idxs c0 with
    | none =>
      have hpre' : ∀ c newV idx, (c, newV) ∈ rest → alookup idxs c = some idx →
          IndexWF idx ∧
          (∀ o, Row.get oldRow c = some o → o ≠ newV → idx.has newV = false) ∧
          (Row.get oldRow c = none → idx.has newV = false) :=
        fun c newV idx hm hl => hpre c newV idx (List.mem_cons_of_mem _ hm) hl
      obtain ⟨hok, hkeys, hskip, hupd, hnone⟩ :=
        updateRowIndexes_ok oldRow i rest idxs hnd hups.2 hpre'
      have hstep : updateRowIndexes oldRow i ((c0, v0) :: rest) idxs =
          updateRowIndexes oldRow i rest idxs := by
        simp only [updateRowIndexes, hidx0]
      rw [hstep]
      refine ⟨hok, hkeys, ?_, ?_, hnone⟩
      · intro c hc
        simp only [List.map_cons, List.mem_cons] at hc
        push_neg at hc
        exact hskip c hc.2
      · intro c newV hl idx hidx
        by_cases hc : c0 = c
        · subst hc
          rw [hidx0] at hidx
          cases hidx
        · simp only [alookup, hc, if_false] at hl
          exact hupd c newV hl idx hidx
    | some idx0 =>
      obtain ⟨hwf0, hchg0, hnone0⟩ := hpre c0 v0 idx0 (List.mem_cons_self _ _) hidx0
      have hupd0 : ∃ idx0', Index.update idx0 (Row.get oldRow c0) v0 i = .ok idx0' := by
        cases hov : Row.get oldRow c0 with
        | none => exact ⟨_, Index.update_none hwf0.uniqueFlag (hnone0 hov)⟩
        | some o =>
          by_cases ho : o = v0
          · subst ho
            exact ⟨idx0, Index.update_same idx0 o i⟩
          · exact ⟨_, Index.update_some_ne hwf0 ho (hchg0 o hov ho)⟩
      obtain ⟨idx0', hupd0⟩ := hupd0
      have hstep : updateRowIndexes oldRow i ((c0, v0) :: rest) idxs =
          updateRowIndexes oldRow i rest (setKey idxs c0 idx0') := by
        simp only [updateRowIndexes, hidx0, hupd0]
      rw [hstep]
      have hmem0 : c0 ∈ idxs.map Prod.fst := by
        rw [← alookup_isSome, hidx0]
        rfl
      have hnd' : ((setKey idxs c0 idx0').map Prod.fst).Nodup := nodup_keys_setKey _ _ _ hnd
      have hpre' : ∀ c newV idx, (c, newV) ∈ rest → alookup (setKey idxs c0 idx0') c = some idx →
          IndexWF idx ∧
          (∀ o, Row.get oldRow c = some o → o ≠ newV → idx.has newV = false) ∧
          (Row.get oldRow c = none → idx.has newV = false) := by
        intro c newV idx hm hl
        have hc : c ≠ c0 := fun hEq => hups.1 (hEq ▸ List.mem_map_of_mem Prod.fst hm)
        rw [alookup_setKey_ne _ _ _ _ hc] at hl
        exact hpre c newV idx (List.mem_cons_of_mem _ hm) hl
      obtain ⟨hok, hkeys, hskip, hupd, hnone⟩ :=
        updateRowIndexes_ok oldRow i rest (setKey idxs c0 idx0') hnd' hups.2 hpre'
      have hkeys0 : (setKey idxs c0 idx0').map Prod.fst = idxs.map Prod.fst :=
        keys_setKey_of_mem _ _ _ hmem0
      refine ⟨hok, hkeys.trans hkeys0, ?_, ?_, ?_⟩
      · intro c hc
        simp only [List.map_cons, List.mem_cons] at hc
        push_neg at hc
        rw [hskip c hc.2, alookup_setKey_ne _ _ _ _ hc.1]
      · intro c newV hl idx hidx
        by_cases hc : c0 = c
        · subst hc
          simp only [alookup, if_true, eq_self_iff_true, Option.some.injEq] at hl
          subst hl
          rw [hidx0] at hidx
          cases hidx
          refine ⟨idx0', ?_, hupd0⟩
          rw [hskip c0 hups.1, alookup_setKey_self]
        · simp only [alookup, hc, if_false] at hl
          have hidx' : alookup (setKey idxs c0 idx0') c = some idx := by
            rw [alookup_setKey_ne _ _ _ _ (fun h => hc h.symm)]
            exact hidx
          exact hupd c newV hl idx hidx'
      · intro c hcn
        have hc : c ≠ c0 := by
          intro hEq
          rw [hEq, hidx0] at hcn
          cases hcn
        have hsk : alookup (setKey idxs c0 idx0') c = none := by
          rw [alookup_setKey_ne _ _ _ _ hc]
          exact hcn
        exact hnone c hsk

theorem updateLoop_cons_neg (ups : List (String × Value)) (cond : Option Cond)
    (i : Nat) (is : List Nat) (count : Nat) (t : Table)
    (hm : matchesCond cond (t.rows.getD i []) = false) :
    Table.updateLoop ups cond (i :: is) count t = Table.updateLoop ups cond is count t := by
  conv_lhs => rw [Table.updateLoop]
  simp only [hm, Bool.false_eq_true, if_false]

theorem updateLoop_cons_err (ups : List (String × Value)) (cond : Option Cond)
    (i : Nat) (is : List Nat) (count : Nat) (t : Table) (e : String)
    (hm : matchesCond cond (t.rows.getD i []) = true)
    (hchk : checkUpdateConstraints t (t.rows.getD i []) ups = .error e) :
    Table.updateLoop ups cond (i :: is) count t = (.error e, t) := by
  conv_lhs => rw [Table.updateLoop]
  simp only [hm, if_true, hchk]

theorem updateLoop_cons_ok (ups : List (String × Value)) (cond : Option Cond)
    (i : Nat) (is : List Nat) (count : Nat) (t : Table)
    (hm : matchesCond cond (t.rows.getD i []) = true)
    (hchk : checkUpdateConstraints t (t.rows.getD i []) ups = .ok ()) :
    Table.updateLoop ups cond (i :: is) count t =
      match (updateRowIndexes (t.rows.getD i []) i ups t.indexes).1 with
      | .error e => (.error e, { t with
          rows := t.rows.set i (assignRow (t.rows.getD i []) ups),
          indexes := (updateRowIndexes (t.rows.getD i []) i ups t.indexes).2 })
      | .ok () => Table.updateLoop ups cond is (count + 1) { t with
          rows := t.rows.set i (assignRow (t.rows.getD i []) ups),
          indexes := (updateRowIndexes (t.rows.getD i []) i ups t.indexes).2 } := by
  conv_lhs => rw [Table.updateLoop]
  simp only [hm, if_true, hchk]

/-- The row loop of `Table.update` preserves all table invariants, for any
in-range position list and duplicate-free update keys. -/
theorem TableOk_updateLoop (ups : List (String × Value)) (cond : Option Cond)
    (hups : (ups.map Prod.fst).Nodup) :
    ∀ (is : List Nat) (count : Nat) (t : Table), TableOk t →
      (∀ j ∈ is, j < t.rows.length) →
      TableOk (Table.updateLoop ups cond is count t).2
  | [], _, t, ht, _ => ht
  | i :: is, count, t, ht, hlt => by
    by_cases hm : matchesCond cond (t.rows.getD i []) = true
    · cases hchk : checkUpdateConstraints t (t.rows.getD i []) ups with
      | error e =>
        rw [updateLoop_cons_err ups cond i is count t e hm hchk]
        exact ht
      | ok u =>
        cases u
        have hi : i < t.rows.length := hlt i (List.mem_cons_self _ _)
        have hrow : t.rows[i]? = some (t.rows.getD i []) := by
          cases hg : t.rows[i]? with
          | none =>
            rw [List.getElem?_eq_none_iff] at hg
            omega
          | some r => simp [List.getD, hg]
        have hpre : ∀ c newV idx, (c, newV) ∈ ups → alookup t.indexes c = some idx →
            IndexWF idx ∧
            (∀ o, Row.get (t.rows.getD i []) c = some o → o ≠ newV →
              idx.has newV = false) ∧
            (Row.get (t.rows.getD i []) c = none → idx.has newV = false) := by
          intro c newV idx hm' hidx
          have hwf := ht.wfOf hidx
          obtain ⟨col, hcolmem, hcolname, hcolu⟩ := ht.uniqueColOf hidx
          have hgc : t.getColumn c = some col := getColumn_of_mem ht.colsNodup hcolmem hcolname
          have hflag : (col.unique || col.primaryKey) = true := by simp [hcolu]
          refine ⟨hwf, ?_, ?_⟩
          · intro o ho hne
            refine checkUpdateConstraints_ok t _ ups hchk c newV hm' col hgc hflag ?_ idx hidx
            rw [ho]
            intro h
            cases h
            exact hne rfl
          · intro ho
            refine checkUpdateConstraints_ok t _ ups hchk c newV hm' col hgc hflag ?_ idx hidx
            rw [ho]
            intro h
            cases h
        obtain ⟨hok, hkeys, hskip, hupd, hnone⟩ :=
          updateRowIndexes_ok (t.rows.getD i []) i ups t.indexes ht.idxKeysNodup hups hpre
        rw [updateLoop_cons_ok ups cond i is count t hm hchk]
        set t2 : Table := { t with
          rows := t.rows.set i (assignRow (t.rows.getD i []) ups),
          indexes := (updateRowIndexes (t.rows.getD i []) i ups t.indexes).2 } with ht2
        have ht2ok : TableOk t2 := by
          refine ⟨ht.colsNonempty, ht.colsNodup, ht.pkLeOne, ht.typesValid, ht.pkUnique,
            ?_, ?_, ?_, ?_⟩
          · show ((updateRowIndexes (t.rows.getD i []) i ups t.indexes).2.map Prod.fst).Nodup
            rw [hkeys]
            exact ht.idxKeysNodup
          · intro c
            show (alookup (updateRowIndexes (t.rows.getD i []) i ups t.indexes).2 c).isSome
              = true ↔ _
            rw [alookup_isSome, hkeys, ← alookup_isSome]
            exact ht.idxKeys c
          · intro p hp
            obtain ⟨c, idx'⟩ := p
            have hnd2 : ((updateRowIndexes (t.rows.getD i []) i ups t.indexes).2.map
                Prod.fst).Nodup := by
              rw [hkeys]
              exact ht.idxKeysNodup
            have hl := (mem_iff_alookup hnd2 c idx').1 hp
            cases hups' : alookup ups c with
            | none =>
              rw [hskip c ((alookup_eq_none _ _).1 hups')] at hl
              exact ht.wfOf hl
            | some newV =>
              cases horig : alookup t.indexes c with
              | none =>
                rw [hnone c horig] at hl
                cases hl
              | some idx =>
                obtain ⟨idx'', hl'', hupd''⟩ := hupd c newV hups' idx horig
                rw [hl''] at hl
                cases hl
                exact IndexWF_update (ht.wfOf horig) hupd''
          · intro c idx' hl
            show IndexAgrees idx' c (t.rows.set i (assignRow (t.rows.getD i []) ups))
            cases hups' : alookup ups c with
            | none =>
              have hnm := (alookup_eq_none _ _).1 hups'
              rw [hskip c hnm] at hl
              exact (ht.agrees c idx' hl).set_same hrow
                (Row.get_assignRow_not_mem ups _ c hnm)
            | some newV =>
              cases horig : alookup t.indexes c with
              | none =>
                rw [hnone c horig] at hl
                cases hl
              | some idx =>
                obtain ⟨idx'', hl'', hupd''⟩ := hupd c newV hups' idx horig
                rw [hl''] at hl
                cases hl
                have hnewget : Row.get (assignRow (t.rows.getD i []) ups) c = some newV :=
                  Row.get_assignRow_lookup ups _ c newV hups hups'
                have hmemups : (c, newV) ∈ ups := alookup_mem ups c newV hups'
                cases hov : Row.get (t.rows.getD i []) c with
                | none =>
                  have hfree := (hpre c newV idx hmemups horig).2.2 hov
                  rw [hov, Index.update_none (ht.wfOf horig).uniqueFlag hfree] at hupd''
                  cases hupd''
                  exact (ht.agrees c idx horig).set_add hrow hov hnewget hfree
                | some o =>
                  by_cases ho : o = newV
                  · subst ho
                    rw [hov, Index.update_same] at hupd''
                    cases hupd''
                    refine (ht.agrees c idx' horig).set_same hrow ?_
                    rw [hnewget, hov]
                  · have hfree := (hpre c newV idx hmemups horig).2.1 o hov ho
                    rw [hov, Index.update_some_ne (ht.wfOf horig) ho hfree] at hupd''
                    cases hupd''
                    exact (ht.agrees c idx horig).set_change (ht.wfOf horig) hrow hov
                      hnewget hfree
        have hlt2 : ∀ j ∈ is, j < t2.rows.length := by
          intro j hj
          show j < (t.rows.set i (assignRow (t.rows.getD i []) ups)).length
          rw [List.length_set]
          exact hlt j (List.mem_cons_of_mem _ hj)
        have hrec := TableOk_updateLoop ups cond hups is (count + 1) t2 ht2ok hlt2
        rw [hok]
        exact hrec
    · rw [Bool.not_eq_true] at hm
      rw [updateLoop_cons_neg ups cond i is count t hm]
      exact TableOk_updateLoop ups cond hups is count t ht
        (fun j hj => hlt j (List.mem_cons_of_mem _ hj))

/-- Coercion/validation of the updates map keeps its key list. -/
theorem validateUpdates_keys (t : Table) :
    ∀ (ups ups' : List (String × Value)), t.validateUpdates ups = .ok ups' →
      ups'.map Prod.fst = ups.map Prod.fst
  | [], ups', h => by
    simp only [Table.validateUpdates] at h
    cases h
    rfl
  | (c, v) :: rest, ups', h => by
    simp only [Table.validateUpdates] at h
    cases hgc : t.getColumn c with
    | none => simp only [hgc] at h; cases h
    | some col =>
      simp only [hgc] at h
      cases hco : col.coerceType v with
      | error e => simp only [hco] at h; cases h
      | ok v' =>
        simp only [hco] at h
        by_cases hval : col.validateType v' = true
        · simp only [hval, if_true] at h
          cases hrest : t.validateUpdates rest with
          | error e => simp only [hrest] at h; cases h
          | ok rest' =>
            simp only [hrest] at h
            cases h
            simp only [List.map_cons]
            rw [validateUpdates_keys t rest rest' hrest]
        · rw [Bool.not_eq_true] at hval
          simp only [hval] at h
          simp at h

/-- `Table.update` preserves all table invariants whenever the updates map
has duplicate-free keys (always true for maps built from a JS object). -/
theorem TableOk_update (t : Table) (ht : TableOk t) (ups : List (String × Value))
    (cond : Option Cond) (hups : (ups.map Prod.fst).Nodup) :
    TableOk (t.update ups cond).2 := by
  unfold Table.update
  cases hv : t.validateUpdates ups with
  | error e => exact ht
  | ok ups' =>
    have hups' : (ups'.map Prod.fst).Nodup := by
      rw [validateUpdates_keys t ups ups' hv]
      exact hups
    cases hf : (match cond with
                | some w => (t.find (some w)).map (fun _ => ())
                | none => .ok ()) with
    | error e => exact ht
    | ok u =>
      cases u
      exact TableOk_updateLoop ups' cond hups' (List.range t.rows.length) 0 t ht
        (fun j hj => List.mem_range.1 hj)

/-! ## Constructed tables satisfy the invariants -/

theorem createIndexes_keys :
    ∀ cols : List Column,
      (createIndexes cols).map Prod.fst =
        (cols.filter (fun c => c.primaryKey || c.unique)).map Column.name
  | [] => rfl
  | c :: rest => by
    by_cases hpk : c.primaryKey = true
    · simp only [createIndexes, hpk, if_true, List.map_cons, List.filter_cons,
        Bool.true_or]
      rw [createIndexes_keys rest]
    · rw [Bool.not_eq_true] at hpk
      by_cases hun : c.unique = true
      · simp only [createIndexes, hpk, hun, Bool.false_eq_true, if_false, if_true,
          List.map_cons, List.filter_cons, Bool.or_true]
        rw [createIndexes_keys rest]
      · rw [Bool.not_eq_true] at hun
        simp only [createIndexes, hpk, hun, Bool.false_eq_true, if_false,
          List.filter_cons, Bool.or_self]
        exact createIndexes_keys rest

theorem createIndexes_entries :
    ∀ cols : List Column, ∀ p ∈ createIndexes cols,
      p.2.entries = [] ∧ p.2.isUnique = true
  | [], p, hp => absurd hp (List.not_mem_nil p)
  | c :: rest, p, hp => by
    by_cases hpk : c.primaryKey = true
    · rw [createIndexes, if_pos hpk] at hp
      rcases List.mem_cons.1 hp with rfl | htl
      · exact ⟨rfl, rfl⟩
      · exact createIndexes_entries rest p htl
    · rw [createIndexes, if_neg hpk] at hp
      by_cases hun : c.unique = true
      · rw [if_pos hun] at hp
        rcases List.mem_cons.1 hp with rfl | htl
        · exact ⟨rfl, rfl⟩
        · exact createIndexes_entries rest p htl
      · rw [if_neg hun] at hp
        exact createIndexes_entries rest p hp

theorem partialAgrees_zero {idx : Index} (h : idx.entries = []) (c : String)
    (rows : List Row) : PartialAgrees idx c rows 0 := by
  intro k pos
  rw [Index.findK_eq, h]
  simp [alookup]

theorem map_id_of {α : Type} (f : α → α) :
    ∀ l : List α, (∀ a ∈ l, f a = a) → l.map f = l
  | [], _ => rfl
  | a :: t, h => by
    rw [List.map_cons, h a (List.mem_cons_self _ _),
      map_id_of f t (fun b hb => h b (List.mem_cons_of_mem _ hb))]

/-- The guarded `Table` constructor establishes every invariant (column
types are not re-validated by the constructor, so their validity is a
hypothesis). -/
theorem TableOk_make (name : String) (cols : List Column) (t : Table)
    (h : Table.make name cols = .ok t)
    (htypes : ∀ col ∈ cols, col.type = "INT" ∨ col.type = "TEXT" ∨ col.type = "BOOLEAN") :
    TableOk t := by
  unfold Table.make at h
  by_cases h1 : cols = []
  · rw [if_pos h1] at h
    cases h
  · rw [if_neg h1] at h
    by_cases h2 : (cols.map Column.name).Nodup
    · rw [if_neg (not_not_intro h2)] at h
      by_cases h3 : 1 < (cols.filter (fun c => c.primaryKey)).length
      · rw [if_pos h3] at h
        cases h
      · rw [if_neg h3] at h
        simp only at h
        cases h
        set f : Column → Column :=
          fun c => if c.primaryKey then { c with unique := true } else c with hf
        have hname : ∀ c, (f c).name = c.name := by
          intro c
          rw [hf]
          by_cases hc : c.primaryKey = true <;> simp [hc]
        have hpk : ∀ c, (f c).primaryKey = c.primaryKey := by
          intro c
          rw [hf]
          by_cases hc : c.primaryKey = true <;> simp [hc]
        have htype : ∀ c, (f c).type = c.type := by
          intro c
          rw [hf]
          by_cases hc : c.primaryKey = true <;> simp [hc]
        have hnames : (cols.map f).map Column.name = cols.map Column.name := by
          rw [List.map_map]
          exact List.map_congr_left (fun c _ => hname c)
        have hfilter : ∀ l : List Column,
            (l.map f).filter (fun c => c.primaryKey) =
              (l.filter (fun c => c.primaryKey)).map f := by
          intro l
          induction l with
          | nil => rfl
          | cons a tl ih =>
            simp only [List.map_cons, List.filter_cons, hpk a]
            by_cases ha : a.primaryKey = true
            · simp only [ha, if_true, List.map_cons, ih]
            · rw [Bool.not_eq_true] at ha
              simp only [ha, Bool.false_eq_true, if_false, ih]
        refine ⟨?_, ?_, ?_, ?_, ?_, ?_, ?_, ?_, ?_⟩
        · show cols.map f ≠ []
          intro hEq
          exact h1 (List.map_eq_nil_iff.1 hEq)
        · show ((cols.map f).map Column.name).Nodup
          rw [hnames]
          exact h2
        · show ((cols.map f).filter (fun c => c.primaryKey)).length ≤ 1
          rw [hfilter, List.length_map]
          omega
        · intro col hcol
          rcases List.mem_map.1 hcol with ⟨c0, hc0, hEq⟩
          subst hEq
          rw [htype c0]
          exact htypes c0 hc0
        · intro col hcol hcpk
          rcases List.mem_map.1 hcol with ⟨c0, hc0, hEq⟩
          subst hEq
          rw [hf]
          rw [hf] at hcpk
          by_cases hc : c0.primaryKey = true
          · simp [hc]
          · rw [Bool.not_eq_true] at hc
            simp only [hc, Bool.false_eq_true, if_false] at hcpk ⊢
        · show ((createIndexes (cols.map f)).map Prod.fst).Nodup
          rw [createIndexes_keys]
          have hsub : ((cols.map f).filter
              (fun c => c.primaryKey || c.unique)).map Column.name |>.Sublist
              ((cols.map f).map Column.name) :=
            (List.filter_sublist _).map Column.name
          rw [hnames] at hsub
          exact h2.sublist hsub
        · intro c
          rw [alookup_isSome, createIndexes_keys]
          constructor
          · intro hc
            rcases List.mem_map.1 hc with ⟨col, hcol, hEq⟩
            rw [List.mem_filter] at hcol
            exact ⟨col, hcol.1, hEq, hcol.2⟩
          · rintro ⟨col, hcol, hEq, hflag⟩
            refine hEq ▸ List.mem_map_of_mem _ (List.mem_filter.2 ⟨hcol, ?_⟩)
            simpa using hflag
        · intro p hp
          obtain ⟨he, hu⟩ := createIndexes_entries _ p hp
          refine ⟨?_, ?_, ?_⟩
          · exact hu
          · rw [he]; exact List.nodup_nil
          · rw [he]; intro e hmem; exact absurd hmem (List.not_mem_nil e)
        · intro c idx hl
          intro k pos
          have := createIndexes_entries (cols.map f) (c, idx) (alookup_mem _ _ _ hl)
          rw [Index.findK_eq, this.1]
          simp [alookup]
    · rw [if_pos (by exact h2)] at h
      cases h

/-! ## Save/load round trip -/

theorem column_round_trip (col : Column)
    (htype : col.type = "INT" ∨ col.type = "TEXT" ∨ col.type = "BOOLEAN")
    (hpk : col.primaryKey = true → col.unique = true) :
    Column.fromJSON col.toJSON = .ok col := by
  obtain ⟨n, ty, pk, un⟩ := col
  simp only at htype hpk
  have hup : jsToUpperCase ty = ty := by
    rcases htype with h | h | h <;> rw [h] <;> rfl
  simp only [Column.fromJSON, Column.toJSON, Column.make, hup]
  rw [if_pos htype]
  have hun : (un || pk) = un := by
    cases pk with
    | false => exact Bool.or_false un
    | true => rw [hpk rfl]; rfl
  rw [hun]

theorem columnsFromJSON_toJSON :
    ∀ cols : List Column,
      (∀ col ∈ cols, col.type = "INT" ∨ col.type = "TEXT" ∨ col.type = "BOOLEAN") →
      (∀ col ∈ cols, col.primaryKey = true → col.unique = true) →
      columnsFromJSON (cols.map Column.toJSON) = .ok cols
  | [], _, _ => rfl
  | col :: rest, htypes, hpks => by
    simp only [List.map_cons, columnsFromJSON]
    rw [column_round_trip col (htypes col (List.mem_cons_self _ _))
      (hpks col (List.mem_cons_self _ _))]
    rw [columnsFromJSON_toJSON rest
      (fun c hc => htypes c (List.mem_cons_of_mem _ hc))
      (fun c hc => hpks c (List.mem_cons_of_mem _ hc))]

/-- The primary-key normalization in the `Table` constructor is the identity
on columns that already satisfy the invariant. -/
theorem pkfix_id (col : Column) (hpk : col.primaryKey = true → col.unique = true) :
    (if col.primaryKey then { col with unique := true } else col) = col := by
  obtain ⟨n, ty, pk, un⟩ := col
  simp only at hpk
  cases pk with
  | false => rfl
  | true =>
    rw [hpk rfl]
    rfl

theorem Table.make_ok (t : Table) (ht : TableOk t) :
    Table.make t.name t.columns = .ok { t with rows := [], indexes := createIndexes t.columns } := by
  unfold Table.make
  rw [if_neg ht.colsNonempty, if_neg (not_not_intro ht.colsNodup),
    if_neg (by have := ht.pkLeOne; omega)]
  simp only
  have hid : t.columns.map
      (fun c => if c.primaryKey then { c with unique := true } else c) = t.columns :=
    map_id_of _ t.columns (fun col hcol => pkfix_id col (ht.pkUnique col hcol))
  rw [hid]

theorem alookup_createIndexes_isSome (cols : List Column) (c : String) :
    (alookup (createIndexes cols) c).isSome = true ↔
      ∃ col ∈ cols, col.name = c ∧ (col.primaryKey || col.unique) = true := by
  rw [alookup_isSome, createIndexes_keys]
  constructor
  · intro hc
    rcases List.mem_map.1 hc with ⟨col, hcol, hEq⟩
    rw [List.mem_filter] at hcol
    exact ⟨col, hcol.1, hEq, by simpa using hcol.2⟩
  · rintro ⟨col, hcol, hEq, hflag⟩
    refine hEq ▸ List.mem_map_of_mem _ (List.mem_filter.2 ⟨hcol, ?_⟩)
    simpa using hflag

/-- Two well-formed indexes that agree with the same row list have equal
buckets everywhere. -/
theorem findK_eq_of_agrees {idx idx' : Index} {c : String} {rows : List Row}
    (hwf : IndexWF idx) (hwf' : IndexWF idx')
    (hag : IndexAgrees idx c rows) (hag' : IndexAgrees idx' c rows) :
    ∀ k, idx'.findK k = idx.findK k := by
  intro k
  have hmem : ∀ pos, pos ∈ idx'.findK k ↔ pos ∈ idx.findK k := by
    intro pos
    rw [hag k pos, hag' k pos]
  cases hb' : alookup idx'.entries k with
  | none =>
    cases hb : alookup idx.entries k with
    | none => rw [Index.findK_eq, Index.findK_eq, hb, hb']
    | some b =>
      obtain ⟨p, hp⟩ := hwf.singletons _ (alookup_mem _ _ _ hb)
      simp only at hp
      have hpin : p ∈ idx.findK k := by
        rw [Index.findK_eq, hb, hp]
        simp
      have := (hmem p).2 hpin
      rw [Index.findK_eq, hb'] at this
      simp at this
  | some b' =>
    obtain ⟨p', hp'⟩ := hwf'.singletons _ (alookup_mem _ _ _ hb')
    simp only at hp'
    have hpin' : p' ∈ idx'.findK k := by
      rw [Index.findK_eq, hb', hp']
      simp
    have hpin := (hmem p').1 hpin'
    cases hb : alookup idx.entries k with
    | none =>
      rw [Index.findK_eq, hb] at hpin
      simp at hpin
    | some b =>
      obtain ⟨p, hp⟩ := hwf.singletons _ (alookup_mem _ _ _ hb)
      simp only at hp
      have hpq : p' = p := by
        rw [Index.findK_eq, hb, hp] at hpin
        simpa using hpin
      rw [Index.findK_eq, Index.findK_eq, hb, hb', hp, hp', hpq]

/-- `Table.fromJSON ∘ Table.toJSON` restores the table: identical name,
columns and rows, and indexes over the same columns with identical bucket
contents (rebuilt from the rows). -/
theorem table_round_trip (t : Table) (ht : TableOk t) :
    ∃ t', Table.fromJSON t.toJSON = .ok t' ∧
      t'.name = t.name ∧ t'.columns = t.columns ∧ t'.rows = t.rows ∧
      (∀ c, (alookup t'.indexes c).isSome = true ↔ (alookup t.indexes c).isSome = true) ∧
      (∀ c idx idx', alookup t.indexes c = some idx → alookup t'.indexes c = some idx' →
        ∀ k, idx'.findK k = idx.findK k) := by
  have hnd0 : ((createIndexes t.columns).map Prod.fst).Nodup := by
    rw [createIndexes_keys]
    exact ht.colsNodup.sublist ((List.filter_sublist _).map Column.name)
  have hwf0 : ∀ p ∈ createIndexes t.columns, IndexWF p.2 := by
    intro p hp
    obtain ⟨he, hu⟩ := createIndexes_entries _ p hp
    refine ⟨hu, ?_, ?_⟩
    · rw [he]; exact List.nodup_nil
    · rw [he]; intro e hmem; exact absurd hmem (List.not_mem_nil e)
  have hdist0 : ∀ c idx, alookup (createIndexes t.columns) c = some idx →
      RowsDistinctOn t.rows c := by
    intro c idx hl
    have hex := (alookup_createIndexes_isSome t.columns c).1 (by rw [hl]; rfl)
    have hsome := (ht.idxKeys c).2 hex
    cases horig : alookup t.indexes c with
    | none => rw [horig] at hsome; cases hsome
    | some idx0 => exact ht.rowsDistinct horig
  have hpa0 : ∀ c idx, alookup (createIndexes t.columns) c = some idx →
      PartialAgrees idx c t.rows 0 := by
    intro c idx hl
    exact partialAgrees_zero (createIndexes_entries _ (c, idx) (alookup_mem _ _ _ hl)).1 c t.rows
  have hspec := addRowsToIndexes_spec t.rows t.rows 0 (createIndexes t.columns)
    (List.drop_zero _) hnd0 hwf0 hdist0 hpa0
  have hcols := columnsFromJSON_toJSON t.columns ht.typesValid ht.pkUnique
  have hmk := Table.make_ok t ht
  simp only [Table.fromJSON, Table.toJSON] at *
  simp only [hcols]
  simp only [hmk]
  have henum : t.rows.enum = List.enumFrom 0 t.rows := rfl
  simp only [henum]
  cases hres : addRowsToIndexes (List.enumFrom 0 t.rows) (createIndexes t.columns) with
  | mk r1 idxs' =>
    rw [hres] at hspec
    simp only at hspec
    obtain ⟨hok, hkeys, hwf', hpa'⟩ := hspec
    subst hok
    refine ⟨_, rfl, rfl, rfl, rfl, ?_, ?_⟩
    · intro c
      show (alookup idxs' c).isSome = true ↔ _
      rw [alookup_isSome, hkeys, ← alookup_isSome, alookup_createIndexes_isSome]
      exact (ht.idxKeys c).symm
    · intro c idx idx' hidx hidx'
      have hag : IndexAgrees idx c t.rows := ht.agrees c idx hidx
      have hag' : IndexAgrees idx' c t.rows := by
        have := hpa' c idx' hidx'
        rw [Nat.zero_add] at this
        exact IndexAgrees_of_partial this
      exact findK_eq_of_agrees (ht.wfOf hidx) (hwf' (c, idx') (alookup_mem _ _ _ hidx'))
        hag hag'

theorem tablesFromJSON_toJSON :
    ∀ ts : List (String × Table), (∀ p ∈ ts, TableOk p.2) →
      ∃ ts', tablesFromJSON (ts.map (fun p => (p.1, p.2.toJSON))) = .ok ts' ∧
        ts'.map Prod.fst = ts.map Prod.fst ∧
        ∀ n t, alookup ts n = some t → ∃ t', alookup ts' n = some t' ∧
          t'.name = t.name ∧ t'.columns = t.columns ∧ t'.rows = t.rows ∧
          (∀ c, (alookup t'.indexes c).isSome = true ↔
            (alookup t.indexes c).isSome = true) ∧
          (∀ c idx idx', alookup t.indexes c = some idx →
            alookup t'.indexes c = some idx' → ∀ k, idx'.findK k = idx.findK k)
  | [], _ => ⟨[], rfl, rfl, fun n t h => by cases h⟩
  | (n0, t0) :: rest, hok => by
    obtain ⟨t0', h0, hprops⟩ := table_round_trip t0 (hok (n0, t0) (List.mem_cons_self _ _))
    obtain ⟨rest', hrest, hkeys, hlook⟩ :=
      tablesFromJSON_toJSON rest (fun p hp => hok p (List.mem_cons_of_mem _ hp))
    refine ⟨(n0, t0') :: rest', ?_, ?_, ?_⟩
    · simp only [List.map_cons, tablesFromJSON, h0, hrest]
    · simp only [List.map_cons, hkeys]
    · intro n t hl
      by_cases hn : n0 = n
      · subst hn
        simp only [alookup, if_true, eq_self_iff_true, Option.some.injEq] at hl
        subst hl
        exact ⟨t0', by simp [alookup], hprops⟩
      · simp only [alookup, hn, if_false] at hl ⊢
        exact hlook n t hl

/-! ## Operation sequences -/

/-- A mutating table operation as dispatched by the executors. -/
inductive DbOp where
  | ins (row : Row)
  | upd (ups : List (String × Value)) (cond : Option Cond)
  | del (cond : Option Cond)
deriving DecidableEq, Repr

/-- Well-formed operation arguments: an update map comes from a JS object,
so its keys are duplicate-free. -/
def DbOp.WF : DbOp → Prop
  | .ins _ => True
  | .upd ups _ => (ups.map Prod.fst).Nodup
  | .del _ => True

/-- The table state after one operation (whether it completed or raised). -/
def applyOp (t : Table) : DbOp → Table
  | .ins r => (t.insert r).2
  | .upd ups cond => (t.update ups cond).2
  | .del cond => (t.delete cond).2

/-- The table state after a sequence of operations. -/
def runOps : Table → List DbOp → Table
  | t, [] => t
  | t, op :: ops => runOps (applyOp t op) ops

theorem TableOk_runOps :
    ∀ (ops : List DbOp) (t : Table), TableOk t → (∀ op ∈ ops, op.WF) →
      TableOk (runOps t ops)
  | [], t, ht, _ => ht
  | op :: ops, t, ht, hwf => by
    have hstep : TableOk (applyOp t op) := by
      cases op with
      | ins r => exact TableOk_insert t ht r
      | upd ups cond => exact TableOk_update t ht ups cond (hwf _ (List.mem_cons_self _ _))
      | del cond => exact (TableOk_delete t ht cond).1
    exact TableOk_runOps ops (applyOp t op) hstep
      (fun o ho => hwf o (List.mem_cons_of_mem _ ho))

/-- C1: after any sequence of insert/update/delete operations on a table
satisfying the invariants, every index agrees with the rows — but only up to
the `'__NULL__'` sentinel encoding: `Index.find(V)` returns exactly the
positions of rows whose value in the indexed column has the same *map key*
as `V` (`null` and the TEXT value `"__NULL__"` share one key), not the rows
whose value equals `V`. -/
theorem index_row_consistency (t0 : Table) (ht : TableOk t0)
    (ops : List DbOp) (hwf : ∀ op ∈ ops, DbOp.WF op) :
    TableOk (runOps t0 ops) ∧
    ∀ c idx, alookup (runOps t0 ops).indexes c = some idx →
      ∀ v pos, pos ∈ idx.find v ↔
        ∃ r, (runOps t0 ops).rows[pos]? = some r ∧
          ∃ w, Row.get r c = some w ∧ Index.keyOf w = Index.keyOf v := by
  have h := TableOk_runOps ops t0 ht hwf
  exact ⟨h, fun c idx hl v pos => h.agrees c idx hl (Index.keyOf v) pos⟩

def c1Col : Column := ⟨"c", "TEXT", false, true⟩

def c1T0 : Table := ⟨"t", [c1Col], [], createIndexes [c1Col]⟩

def c1T1 : Table := (Table.insert c1T0 [("c", Value.vnull)]).2

/-- C1 counterexample (to the claim as stated): after inserting the single
row `{c: null}` into a table with unique TEXT column `c`, the index lookup
for the TEXT value `"__NULL__"` returns position 0, yet row 0's value in
`c` is `null`, not `"__NULL__"` — the bucket does not hold "exactly the
positions of rows whose current value in C equals V". -/
theorem index_row_value_counterexample :
    (alookup c1T1.indexes "c").map (fun idx => idx.find (Value.vstr "__NULL__"))
      = some [0] ∧
    c1T1.rows = [[("c", Value.vnull)]] := by
  constructor <;> rfl

/-- C1 witness: the amended consistency theorem applied to the concrete
table `c1T0` and the one-insert operation sequence. -/
theorem index_row_consistency_witness :
    TableOk (runOps c1T0 [DbOp.ins [("c", Value.vnull)]]) ∧
    ∀ c idx, alookup (runOps c1T0 [DbOp.ins [("c", Value.vnull)]]).indexes c = some idx →
      ∀ v pos, pos ∈ idx.find v ↔
        ∃ r, (runOps c1T0 [DbOp.ins [("c", Value.vnull)]]).rows[pos]? = some r ∧
          ∃ w, Row.get r c = some w ∧ Index.keyOf w = Index.keyOf v :=
  index_row_consistency c1T0
    (TableOk_make "t" [c1Col] c1T0 (by decide) (by decide))
    [DbOp.ins [("c", Value.vnull)]]
    (by
      intro op hop
      rcases List.mem_singleton.1 hop with rfl
      trivial)

/-- C2: serializing a database and deserializing the document restores an
equivalent database: the same name, the same table names in order, and for
each table the same name, column definitions and row sequence, with indexes
over exactly the same columns whose buckets have identical contents (they
are rebuilt from the rows on load). -/
theorem save_load_round_trip (db : Database) (hdb : ∀ p ∈ db.tables, TableOk p.2) :
    ∃ db', Database.fromJSON (Database.toJSON db) = .ok db' ∧
      db'.name = db.name ∧
      db'.tables.map Prod.fst = db.tables.map Prod.fst ∧
      ∀ n t, alookup db.tables n = some t → ∃ t', alookup db'.tables n = some t' ∧
        t'.name = t.name ∧ t'.columns = t.columns ∧ t'.rows = t.rows ∧
        (∀ c, (alookup t'.indexes c).isSome = true ↔ (alookup t.indexes c).isSome = true) ∧
        (∀ c idx idx', alookup t.indexes c = some idx → alookup t'.indexes c = some idx' →
          ∀ k, idx'.findK k = idx.findK k) := by
  obtain ⟨ts', hts, hkeys, hlook⟩ := tablesFromJSON_toJSON db.tables hdb
  refine ⟨⟨db.name, ts'⟩, ?_, rfl, hkeys, hlook⟩
  simp only [Database.fromJSON, Database.toJSON, hts]

def c2Col : Column := ⟨"id", "INT", true, true⟩

def c2T0 : Table := ⟨"users", [c2Col], [], createIndexes [c2Col]⟩

def c2T1 : Table := (Table.insert c2T0 [("id", Value.vint 1)]).2

def c2Db : Database := ⟨"db", [("users", c2T1)]⟩

/-- C2 witness: the round-trip theorem applied to a concrete one-table,
one-row database. -/
theorem save_load_round_trip_witness :
    ∃ db', Database.fromJSON (Database.toJSON c2Db) = .ok db' ∧
      db'.name = c2Db.name ∧
      db'.tables.map Prod.fst = c2Db.tables.map Prod.fst ∧
      ∀ n t, alookup c2Db.tables n = some t → ∃ t', alookup db'.tables n = some t' ∧
        t'.name = t.name ∧ t'.columns = t.columns ∧ t'.rows = t.rows ∧
        (∀ c, (alookup t'.indexes c).isSome = true ↔ (alookup t.indexes c).isSome = true) ∧
        (∀ c idx idx', alookup t.indexes c = some idx → alookup t'.indexes c = some idx' →
          ∀ k, idx'.findK k = idx.findK k) :=
  save_load_round_trip c2Db
    (by
      intro p hp
      rcases List.mem_singleton.1 hp with rfl
      exact TableOk_insert c2T0
        (TableOk_make "users" [c2Col] c2T0 (by decide) (by decide)) _)

/-- C3: inserting a row (that passes validation) whose primary-key value
already occupies the primary-key index raises the duplicate-primary-key
error, and the returned table is the input table — rows and indexes
unchanged, because every check precedes any mutation. -/
theorem insert_duplicate_pk (t : Table) (rowData row : Row) (pk : Column) (v : Value)
    (idx : Index)
    (hval : t.validateRow rowData = .ok row)
    (hpk : t.getPrimaryKeyColumn = some pk)
    (hv : Row.get row pk.name = some v)
    (hidx : alookup t.indexes pk.name = some idx)
    (hhas : idx.has v = true) :
    t.insert rowData = (.error ("Duplicate PRIMARY KEY value: " ++ jsTemplate v), t) := by
  have hchk : t.checkPkDup row = .error ("Duplicate PRIMARY KEY value: " ++ jsTemplate v) := by
    unfold Table.checkPkDup
    simp only [hpk, hv, hidx, hhas, if_true]
  unfold Table.insert
  simp only [hval, hchk]

def c3Col : Column := ⟨"id", "INT", true, true⟩

def c3T0 : Table := ⟨"t", [c3Col], [], createIndexes [c3Col]⟩

def c3T1 : Table := (Table.insert c3T0 [("id", Value.vint 1)]).2

/-- C3 witness: re-inserting the stored key 1 into a concrete one-column
table fails with the duplicate-primary-key error and returns the table
unchanged. -/
theorem insert_duplicate_pk_witness :
    Table.insert c3T1 [("id", Value.vint 1)]
      = (.error ("Duplicate PRIMARY KEY value: " ++ jsTemplate (Value.vint 1)), c3T1) :=
  insert_duplicate_pk c3T1 [("id", Value.vint 1)] [("id", Value.vint 1)] c3Col
    (Value.vint 1) ⟨"id", true, true, [(Value.vint 1, [0])]⟩
    (by decide) (by decide) (by decide) (by decide) (by decide)

/-- C8: `executeUpdate` and `executeDelete` on an existing table refuse a
missing WHERE clause with the safety error, returning the database
unchanged, whatever the table holds. -/
theorem no_where_safety (db : Database) (n : String) (ups : List (String × Value))
    (h : db.hasTable n = true) :
    executeUpdate ⟨n, ups, none⟩ db
      = (.error "UPDATE without WHERE clause is not allowed for safety", db) ∧
    executeDelete ⟨n, none⟩ db
      = (.error "DELETE without WHERE clause is not allowed for safety", db) := by
  unfold Database.hasTable at h
  cases hl : alookup db.tables n with
  | none => rw [hl] at h; cases h
  | some t =>
    have hget : db.getTable n = .ok t := by
      unfold Database.getTable
      rw [hl]
    constructor
    · unfold executeUpdate
      simp only [hget]
    · unfold executeDelete
      simp only [hget]

/-- C8 witness: the safety errors on a concrete database holding one
table. -/
theorem no_where_safety_witness :
    executeUpdate ⟨"t", [("id", Value.vint 2)], none⟩ ⟨"db", [("t", c3T1)]⟩
      = (.error "UPDATE without WHERE clause is not allowed for safety",
         ⟨"db", [("t", c3T1)]⟩) ∧
    executeDelete ⟨"t", none⟩ ⟨"db", [("t", c3T1)]⟩
      = (.error "DELETE without WHERE clause is not allowed for safety",
         ⟨"db", [("t", c3T1)]⟩) :=
  no_where_safety ⟨"db", [("t", c3T1)]⟩ "t" [("id", Value.vint 2)] (by decide)

/-- An update map holding a value its column cannot coerce/validate makes
the up-front validation fail. -/
theorem validateUpdates_err (t : Table) :
    ∀ ups : List (String × Value), ∀ c v col, (c, v) ∈ ups →
      t.getColumn c = some col →
      ((∃ e, col.coerceType v = .error e) ∨
        (∀ v', col.coerceType v = .ok v' → col.validateType v' = false)) →
      ∃ e, t.validateUpdates ups = .error e
  | [], c, v, col, hmem, _, _ => absurd hmem (List.not_mem_nil _)
  | (c0, v0) :: rest, c, v, col, hmem, hcol, hfail => by
    simp only [Table.validateUpdates]
    rcases List.mem_cons.1 hmem with hhd | htl
    · cases hhd
      simp only [hcol]
      cases hco : col.coerceType v0 with
      | error e =>
        simp only [hco]
        exact ⟨_, rfl⟩
      | ok v' =>
        rcases hfail with ⟨e, he⟩ | hbad
        · rw [hco] at he
          cases he
        · simp only [hco, hbad v' hco, Bool.false_eq_true, if_false]
          exact ⟨_, rfl⟩
    · cases hgc : t.getColumn c0 with
      | none =>
        simp only [hgc]
        exact ⟨_, rfl⟩
      | some col0 =>
        simp only [hgc]
        cases hco : col0.coerceType v0 with
        | error e =>
          simp only [hco]
          exact ⟨_, rfl⟩
        | ok v0' =>
          simp only [hco]
          by_cases hvt : col0.validateType v0' = true
          · simp only [hvt, if_true]
            obtain ⟨e, he⟩ := validateUpdates_err t rest c v col htl hcol hfail
            simp only [he]
            exact ⟨e, rfl⟩
          · rw [Bool.not_eq_true] at hvt
            simp only [hvt, Bool.false_eq_true, if_false]
            exact ⟨_, rfl⟩

/-- C9: an updates map holding at least one value that fails coercion or
validation for its (existing) column makes `Table.update` raise before any
row or index is touched: the returned table is the input table. -/
theorem update_invalid_value_rejected (t : Table) (ups : List (String × Value))
    (cond : Option Cond) (c : String) (v : Value) (col : Column)
    (hmem : (c, v) ∈ ups) (hcol : t.getColumn c = some col)
    (hfail : (∃ e, col.coerceType v = .error e) ∨
      (∀ v', col.coerceType v = .ok v' → col.validateType v' = false)) :
    ∃ e, t.update ups cond = (.error e, t) := by
  obtain ⟨e, he⟩ := validateUpdates_err t ups c v col hmem hcol hfail
  refine ⟨e, ?_⟩
  unfold Table.update
  simp only [he]

/-- C9 witness: updating the INT column `id` with the string `"abc"`
(which `parseInt` cannot convert) fails and leaves the concrete table
untouched. -/
theorem update_invalid_value_rejected_witness :
    ∃ e, Table.update c3T1 [("id", Value.vstr "abc")] none = (.error e, c3T1) :=
  update_invalid_value_rejected c3T1 [("id", Value.vstr "abc")] none "id"
    (Value.vstr "abc") c3Col (by decide) (by decide)
    (Or.inl ⟨_, rfl⟩)

theorem checkPkPresence_ok :
    ∀ (cols : List Column) (row : Row),
      (∀ col ∈ cols, col.primaryKey = true → (Row.get row col.name).isSome = true) →
      checkPkPresence cols row = .ok ()
  | [], _, _ => rfl
  | c :: rest, row, h => by
    rw [checkPkPresence, if_neg]
    · exact checkPkPresence_ok rest row (fun col hc => h col (List.mem_cons_of_mem _ hc))
    · rintro ⟨h1, h2⟩
      have := h c (List.mem_cons_self _ _) h1
      rw [Option.isNone_iff_eq_none] at h2
      rw [h2] at this
      cases this

theorem checkUniqueDups_err (idxs : List (String × Index)) (row : Row) (c : String)
    (v : Value) (idx : Index) (hidx : alookup idxs c = some idx)
    (hval : Row.get row c = some v) (hhas : idx.has v = true) :
    ∀ cols : List Column, (∃ col ∈ cols, col.name = c ∧ col.unique = true) →
      ∃ e, checkUniqueDups idxs cols row = .error e
  | [], hex => absurd hex (by rintro ⟨col, hmem, _⟩; exact List.not_mem_nil col hmem)
  | col0 :: rest, hex => by
    simp only [checkUniqueDups]
    rcases hex with ⟨col, hmem, hname, huniq⟩
    rcases List.mem_cons.1 hmem with rfl | htl
    · simp only [huniq, hname, hval, hidx, hhas, if_true, eq_self_iff_true]
      exact ⟨_, rfl⟩
    · cases hg : (if col0.unique then Row.get row col0.name else none) with
      | none => exact checkUniqueDups_err idxs row c v idx hidx hval hhas rest ⟨col, htl, hname, huniq⟩
      | some v0 =>
        cases hl0 : alookup idxs col0.name with
        | none => exact checkUniqueDups_err idxs row c v idx hidx hval hhas rest ⟨col, htl, hname, huniq⟩
        | some idx0 =>
          by_cases hh0 : idx0.has v0 = true
          · simp only [hh0, if_true, eq_self_iff_true]
            exact ⟨_, rfl⟩
          · rw [Bool.not_eq_true] at hh0
            simp only [hh0, Bool.false_eq_true, if_false]
            exact checkUniqueDups_err idxs row c v idx hidx hval hhas rest ⟨col, htl, hname, huniq⟩

/-- C10: an indexed (unique/primary-key) column stores at most one `null`
across the table — `null` occupies the single `'__NULL__'` sentinel bucket —
and inserting a validated row whose value in such a column is `null` while
that bucket is occupied raises a duplicate-value error leaving the table
unchanged; primary-key validation itself only requires the field to be
present, never non-`null`. -/
theorem unique_null_single (t : Table) (ht : TableOk t) (c : String) (idx : Index)
    (hidx : alookup t.indexes c = some idx) :
    (∀ (i j : Nat) (ri rj : Row), t.rows[i]? = some ri → t.rows[j]? = some rj →
      Row.get ri c = some Value.vnull → Row.get rj c = some Value.vnull → i = j) ∧
    (∀ rowData row, t.validateRow rowData = .ok row →
      Row.get row c = some Value.vnull → idx.has Value.vnull = true →
      ∃ e, t.insert rowData = (.error e, t)) ∧
    (∀ (cols : List Column) (row : Row),
      (∀ col ∈ cols, col.primaryKey = true → (Row.get row col.name).isSome = true) →
      checkPkPresence cols row = .ok ()) := by
  refine ⟨?_, ?_, fun cols row h => checkPkPresence_ok cols row h⟩
  · intro i j ri rj hi hj hvi hvj
    exact ht.rowsDistinct hidx i j ri rj Value.vnull Value.vnull hi hj hvi hvj rfl
  · intro rowData row hval hnull hhas
    unfold Table.insert
    simp only [hval]
    cases hchk : t.checkPkDup row with
    | error e => exact ⟨e, rfl⟩
    | ok u =>
      cases u
      obtain ⟨col, hmem, hname, huniq⟩ := ht.uniqueColOf hidx
      obtain ⟨e, he⟩ := checkUniqueDups_err t.indexes row c Value.vnull idx hidx hnull hhas
        t.columns ⟨col, hmem, hname, huniq⟩
      rw [he]
      exact ⟨e, rfl⟩

def c10Col : Column := ⟨"id", "INT", true, true⟩

def c10T0 : Table := ⟨"t", [c10Col], [], createIndexes [c10Col]⟩

def c10T1 : Table := (Table.insert c10T0 [("id", Value.vnull)]).2

/-- C10 witness: the sentinel-uniqueness theorem applied to a concrete
table that already stores one row with a `null` primary key. -/
theorem unique_null_single_witness :
    (∀ (i j : Nat) (ri rj : Row), c10T1.rows[i]? = some ri → c10T1.rows[j]? = some rj →
      Row.get ri "id" = some Value.vnull → Row.get rj "id" = some Value.vnull → i = j) ∧
    (∀ rowData row, c10T1.validateRow rowData = .ok row →
      Row.get row "id" = some Value.vnull →
      Index.has ⟨"id", true, true, [(Value.vstr "__NULL__", [0])]⟩ Value.vnull = true →
      ∃ e, c10T1.insert rowData = (.error e, c10T1)) ∧
    (∀ (cols : List Column) (row : Row),
      (∀ col ∈ cols, col.primaryKey = true → (Row.get row col.name).isSome = true) →
      checkPkPresence cols row = .ok ()) :=
  unique_null_single c10T1
    (TableOk_insert c10T0 (TableOk_make "t" [c10Col] c10T0 (by decide) (by decide)) _)
    "id" ⟨"id", true, true, [(Value.vstr "__NULL__", [0])]⟩ (by decide)

/-- C4: the parser cannot parse a dotted `table.column` in a SELECT column
list — the dot tokenizes as PUNCTUATION, which `_parseColumnList`'s
FROM-expectation rejects — so the documented qualified-join query fails to
parse instead of returning the merged row. -/
theorem select_dotted_columns_parse_fails :
    parseSQL "SELECT users.name, posts.title FROM users JOIN posts ON users.id=posts.user_id"
      = .error "Expected KEYWORD, got PUNCTUATION at position 2" := by rfl

theorem getD_of_getElem? {α : Type} {l : List α} {i : Nat} {a : α} (d : α)
    (h : l[i]? = some a) : l.getD i d = a := by
  simp [List.getD, h]

theorem filter_eq_singleton_of_unique {α : Type} {p : α → Bool} :
    ∀ {l : List α} {i : Nat} {a : α}, l[i]? = some a → p a = true →
      (∀ (j : Nat) (b : α), l[j]? = some b → p b = true → j = i) → l.filter p = [a]
  | [], i, a, ha, _, _ => by cases ha
  | x :: tl, i, a, ha, hpa, huniq => by
    cases i with
    | zero =>
      simp only [List.getElem?_cons_zero, Option.some.injEq] at ha
      subst ha
      rw [List.filter_cons, if_pos hpa]
      have htl : tl.filter p = [] := by
        rw [List.filter_eq_nil]
        intro b hb hpb
        obtain ⟨j, hj⟩ := List.mem_iff_getElem?.1 hb
        have := huniq (j + 1) b (by simpa using hj) hpb
        omega
      rw [htl]
    | succ i' =>
      simp only [List.getElem?_cons_succ] at ha
      have hpx : p x = false := by
        by_cases hp : p x = true
        · have := huniq 0 x (by simp) hp
          omega
        · simpa using hp
      rw [List.filter_cons, if_neg (by simp [hpx])]
      exact filter_eq_singleton_of_unique ha hpa
        (fun j b hj hpb => by
          have := huniq (j + 1) b (by simpa using hj) hpb
          omega)

/-- The forced linear scan with `=` collects exactly the rows whose value
strictly equals the probe. -/
theorem scanFind_eq (v : Value) (c : String) :
    ∀ rows : List Row,
      scanFind "=" v c rows = .ok (rows.filter (fun r => decide (Row.get r c = some v)))
  | [] => rfl
  | r :: rest => by
    have hsc : scanCompare "=" (Row.get r c) v = .ok (decide (Row.get r c = some v)) := by
      unfold scanCompare
      rw [if_pos (Or.inl rfl)]
      rfl
    simp only [scanFind, hsc, scanFind_eq v c rest, List.filter_cons]

/-- C7: on an indexed column, an `=` lookup served from the index returns
exactly what the forced linear scan returns, for every probe value other
than `null` and the TEXT value `"__NULL__"` (which share one sentinel
bucket and disagree with the scan). -/
theorem find_index_scan_equiv (t : Table) (ht : TableOk t) (c : String) (idx : Index)
    (hidx : alookup t.indexes c = some idx) (v : Value)
    (hv1 : v ≠ Value.vnull) (hv2 : v ≠ Value.vstr "__NULL__") :
    t.find (some ⟨c, "=", v⟩) = scanFind "=" v c t.rows := by
  obtain ⟨col, hmem, hname, hun⟩ := ht.uniqueColOf hidx
  have hgc : t.getColumn c = some col := getColumn_of_mem ht.colsNodup hmem hname
  have hkv : Index.keyOf v = v := by
    unfold Index.keyOf
    rw [if_neg hv1]
  have hmemchar : ∀ pos, pos ∈ idx.find v ↔
      ∃ r, t.rows[pos]? = some r ∧ Row.get r c = some v := by
    intro pos
    show pos ∈ idx.findK (Index.keyOf v) ↔ _
    rw [hkv, ht.agrees c idx hidx v pos]
    constructor
    · rintro ⟨r, hr, w, hw, hkw⟩
      refine ⟨r, hr, ?_⟩
      unfold Index.keyOf at hkw
      by_cases hwn : w = Value.vnull
      · rw [if_pos hwn] at hkw
        exact absurd hkw.symm hv2
      · rw [if_neg hwn] at hkw
        rw [hkw] at hw
        exact hw
    · rintro ⟨r, hr, hw⟩
      exact ⟨r, hr, v, hw, hkv⟩
  unfold Table.find
  simp only
  rw [if_neg (by simp [hgc]), if_pos trivial]
  simp only [hidx]
  rw [scanFind_eq]
  have hwf := ht.wfOf hidx
  have hfind : idx.find v = (alookup idx.entries v).getD [] := by
    show idx.findK (Index.keyOf v) = _
    rw [hkv, Index.findK_eq]
  cases hb : alookup idx.entries v with
  | none =>
    rw [hfind, hb]
    simp only [Option.getD_none, List.map_nil]
    have hnil : t.rows.filter (fun r => decide (Row.get r c = some v)) = [] := by
      rw [List.filter_eq_nil]
      intro r hr hpr
      obtain ⟨pos, hpos⟩ := List.mem_iff_getElem?.1 hr
      have hin : pos ∈ idx.find v := (hmemchar pos).2 ⟨r, hpos, by simpa using hpr⟩
      rw [hfind, hb] at hin
      simp at hin
    rw [hnil]
  | some b =>
    obtain ⟨p, hp⟩ := hwf.singletons _ (alookup_mem _ _ _ hb)
    simp only at hp
    have hfv : idx.find v = [p] := by
      rw [hfind, hb, hp]
      rfl
    have hpin : p ∈ idx.find v := by
      rw [hfv]
      simp
    obtain ⟨r, hr, hrv⟩ := (hmemchar p).1 hpin
    have hfilter : t.rows.filter (fun r => decide (Row.get r c = some v)) = [r] := by
      refine filter_eq_singleton_of_unique hr (by simpa using hrv) ?_
      intro j b' hj hpb
      have hin : j ∈ idx.find v := (hmemchar j).2 ⟨b', hj, by simpa using hpb⟩
      rw [hfv] at hin
      simpa using hin
    rw [hfv, hfilter]
    simp only [List.map_cons, List.map_nil]
    rw [getD_of_getElem? [] hr]

/-- C7 counterexample (to the claim as stated): probing the TEXT value
`"__NULL__"` on a unique column that stores one `null` returns the
null-holding row via the index, while the forced scan returns nothing. -/
theorem find_index_scan_counterexample :
    Table.find c1T1 (some ⟨"c", "=", Value.vstr "__NULL__"⟩)
      = .ok [[("c", Value.vnull)]] ∧
    scanFind "=" (Value.vstr "__NULL__") "c" c1T1.rows = .ok [] := by
  constructor <;> rfl

/-- C7 witness: index/scan agreement on a concrete table at the stored
key 1. -/
theorem find_index_scan_equiv_witness :
    Table.find c2T1 (some ⟨"id", "=", Value.vint 1⟩)
      = scanFind "=" (Value.vint 1) "id" c2T1.rows :=
  find_index_scan_equiv c2T1
    (TableOk_insert c2T0 (TableOk_make "users" [c2Col] c2T0 (by decide) (by decide)) _)
    "id" ⟨"id", true, true, [(Value.vint 1, [0])]⟩ (by decide)
    (Value.vint 1) (by decide) (by decide)

/-! ## Join projection and WHERE resolution -/

theorem projectLoop_preserve (joined : Row) (l r : String) :
    ∀ (cols : List String) (acc row' : Row),
      projectLoop joined l r acc cols = .ok row' →
      ∀ k, k ∉ cols → Row.get row' k = Row.get acc k
  | [], acc, row', h, k, _ => by
    cases h
    rfl
  | col :: rest, acc, row', h, k, hk => by
    simp only [projectLoop] at h
    simp only [List.mem_cons] at hk
    push_neg at hk
    cases hv : (if strContains col '.' = true then Row.get joined col
        else jsOr (Row.get joined (l ++ "." ++ col)) (Row.get joined (r ++ "." ++ col))) with
    | none =>
      rw [hv] at h
      cases h
    | some v =>
      rw [hv] at h
      rw [projectLoop_preserve joined l r rest _ row' h k hk.2]
      exact Row.get_set_ne acc col k v hk.1

theorem projectLoop_unqualified (joined : Row) (l r : String) :
    ∀ (cols : List String) (acc row' : Row),
      projectLoop joined l r acc cols = .ok row' →
      ∀ col ∈ cols, strContains col '.' = false →
        Row.get row' col
          = jsOr (Row.get joined (l ++ "." ++ col)) (Row.get joined (r ++ "." ++ col))
  | [], _, _, _, col, hmem, _ => absurd hmem (List.not_mem_nil col)
  | col0 :: rest, acc, row', h, col, hmem, hnq => by
    simp only [projectLoop] at h
    cases hv : (if strContains col0 '.' = true then Row.get joined col0
        else jsOr (Row.get joined (l ++ "." ++ col0)) (Row.get joined (r ++ "." ++ col0))) with
    | none =>
      rw [hv] at h
      cases h
    | some v =>
      rw [hv] at h
      by_cases hrest : col ∈ rest
      · exact projectLoop_unqualified joined l r rest _ row' h col hrest hnq
      · have hcol0 : col = col0 := by
          rcases List.mem_cons.1 hmem with h' | h'
          · exact h'
          · exact absurd h' hrest
        subst hcol0
        rw [projectLoop_preserve joined l r rest _ row' h col hrest, Row.get_set_self]
        rw [hnq] at hv
        simp only [Bool.false_eq_true, if_false] at hv
        exact hv.symm

/-- C6: in the projection of a join result, an unqualified requested column
resolves through JS `||`: the left table's value is chosen only when it is
*truthy*; a falsy left value (`0`, `""`, `false`, `null`) silently falls
through to the right table's value — not an unconditional left preference. -/
theorem join_project_unqualified_or (joined : Row) (cols : List String) (l r : String)
    (hstar : "*" ∉ cols) (row' : Row)
    (hok : projectColumns joined cols l r = .ok row')
    (col : String) (hcol : col ∈ cols) (hnq : strContains col '.' = false) :
    Row.get row' col
      = jsOr (Row.get joined (l ++ "." ++ col)) (Row.get joined (r ++ "." ++ col)) := by
  unfold projectColumns at hok
  rw [if_neg hstar] at hok
  exact projectLoop_unqualified joined l r cols [] row' hok col hcol hnq

def c6Users : Table :=
  ⟨"users", [⟨"id", "INT", true, true⟩, ⟨"score", "INT", false, false⟩],
    [[("id", Value.vint 1), ("score", Value.vint 0)]], []⟩

def c6Posts : Table :=
  ⟨"posts",
    [⟨"id", "INT", true, true⟩, ⟨"user_id", "INT", false, false⟩,
     ⟨"score", "INT", false, false⟩],
    [[("id", Value.vint 5), ("user_id", Value.vint 1), ("score", Value.vint 7)]], []⟩

def c6Db : Database := ⟨"db", [("users", c6Users), ("posts", c6Posts)]⟩

def c6Ast : SelectNode := ⟨"users", ["score"], none, some ⟨"INNER", "posts", ⟨"id", "user_id"⟩⟩⟩

def c6Joined : Row :=
  createJoinedRow [("id", Value.vint 1), ("score", Value.vint 0)]
    [("id", Value.vint 5), ("user_id", Value.vint 1), ("score", Value.vint 7)]
    "users" "posts"

/-- C6 counterexample (to the claim as stated): joining a left row whose
`score` is the (falsy) 0 against a right row whose `score` is 7 projects
the unqualified `score` to 7 — the right table's value — although the name
exists under both qualifications. -/
theorem join_projection_counterexample :
    executeJoin c6Ast c6Db = .ok [[("score", Value.vint 7)]] ∧
    Row.get [("id", Value.vint 1), ("score", Value.vint 0)] "score"
      = some (Value.vint 0) := by
  constructor <;> rfl

/-- C6 witness: the `||` resolution theorem applied to the concrete merged
row of the counterexample scenario. -/
theorem join_project_unqualified_or_witness :
    Row.get [("score", Value.vint 7)] "score"
      = jsOr (Row.get c6Joined ("users" ++ "." ++ "score"))
          (Row.get c6Joined ("posts" ++ "." ++ "score")) :=
  join_project_unqualified_or c6Joined ["score"] "users" "posts" (by decide)
    [("score", Value.vint 7)] (by rfl) "score" (by decide) (by decide)

theorem ite_append {c : Prop} [Decidable c] {α : Type} (a : α) (L : List α) :
    (if c then [a] else []) ++ L = if c then a :: L else L := by
  by_cases h : c <;> simp [h]

theorem joinEmit_star_none (joined : Row) (cols : List String) (l r : String)
    (hstar : "*" ∈ cols) : joinEmit joined none cols l r = .ok [joined] := by
  simp [joinEmit, projectColumns, hstar]

theorem joinEmit_star_some (joined : Row) (cols : List String) (l r : String)
    (hstar : "*" ∈ cols) (wc : Cond) :
    joinEmit joined (some wc) cols l r
      = .ok (if matchesWhere joined wc then [joined] else []) := by
  by_cases hm : matchesWhere joined wc = true
  · simp [joinEmit, projectColumns, hstar, hm]
  · simp [joinEmit, projectColumns, hstar, hm]

theorem indexJoinInner_where (rightRows : List Row) (leftRow : Row) (w : Cond)
    (cols : List String) (l r : String) (hstar : "*" ∈ cols) :
    ∀ ps : List Nat, ∃ L, indexJoinInner rightRows leftRow none cols l r ps = .ok L ∧
      indexJoinInner rightRows leftRow (some w) cols l r ps
        = .ok (L.filter (fun jr => matchesWhere jr w))
  | [] => ⟨[], rfl, rfl⟩
  | p :: ps => by
    obtain ⟨L, hN, hW⟩ := indexJoinInner_where rightRows leftRow w cols l r hstar ps
    refine ⟨createJoinedRow leftRow (rightRows.getD p []) l r :: L, ?_, ?_⟩
    · simp only [indexJoinInner,
        joinEmit_star_none (createJoinedRow leftRow (rightRows.getD p []) l r) cols l r hstar,
        hN]
      rfl
    · simp only [indexJoinInner,
        joinEmit_star_some (createJoinedRow leftRow (rightRows.getD p []) l r) cols l r hstar w,
        hW, List.filter_cons]
      rw [ite_append]

theorem indexJoinLoop_where (idx : Index) (rightRows : List Row) (lc : String) (w : Cond)
    (cols : List String) (l r : String) (hstar : "*" ∈ cols) :
    ∀ rows : List Row, ∃ L, indexJoinLoop idx rightRows lc none cols l r rows = .ok L ∧
      indexJoinLoop idx rightRows lc (some w) cols l r rows
        = .ok (L.filter (fun jr => matchesWhere jr w))
  | [] => ⟨[], rfl, rfl⟩
  | leftRow :: restL => by
    obtain ⟨Li, hiN, hiW⟩ := indexJoinInner_where rightRows leftRow w cols l r hstar
      (match Row.get leftRow lc with
       | some v => idx.find v
       | none => [])
    obtain ⟨Lr, hrN, hrW⟩ := indexJoinLoop_where idx rightRows lc w cols l r hstar restL
    refine ⟨Li ++ Lr, ?_, ?_⟩
    · simp only [indexJoinLoop, hiN, hrN]
    · simp only [indexJoinLoop, hiW, hrW, List.filter_append]

theorem nestedJoinInner_where (leftRow : Row) (lc rc : String) (w : Cond)
    (cols : List String) (l r : String) (hstar : "*" ∈ cols) :
    ∀ rightRows : List Row,
      ∃ L, nestedJoinInner leftRow lc rc none cols l r rightRows = .ok L ∧
        nestedJoinInner leftRow lc rc (some w) cols l r rightRows
          = .ok (L.filter (fun jr => matchesWhere jr w))
  | [] => ⟨[], rfl, rfl⟩
  | rightRow :: restR => by
    obtain ⟨L, hN, hW⟩ := nestedJoinInner_where leftRow lc rc w cols l r hstar restR
    by_cases hEq : Row.get leftRow lc = Row.get rightRow rc
    · refine ⟨createJoinedRow leftRow rightRow l r :: L, ?_, ?_⟩
      · simp only [nestedJoinInner, if_pos hEq,
          joinEmit_star_none (createJoinedRow leftRow rightRow l r) cols l r hstar, hN]
        rfl
      · simp only [nestedJoinInner, if_pos hEq,
          joinEmit_star_some (createJoinedRow leftRow rightRow l r) cols l r hstar w,
          hW, List.filter_cons]
        rw [ite_append]
    · refine ⟨L, ?_, ?_⟩
      · simp only [nestedJoinInner, if_neg hEq]
        exact hN
      · simp only [nestedJoinInner, if_neg hEq]
        exact hW

theorem nestedJoinLoop_where (rightRows : List Row) (lc rc : String) (w : Cond)
    (cols : List String) (l r : String) (hstar : "*" ∈ cols) :
    ∀ rows : List Row, ∃ L, nestedJoinLoop rightRows lc rc none cols l r rows = .ok L ∧
      nestedJoinLoop rightRows lc rc (some w) cols l r rows
        = .ok (L.filter (fun jr => matchesWhere jr w))
  | [] => ⟨[], rfl, rfl⟩
  | leftRow :: restL => by
    obtain ⟨Li, hiN, hiW⟩ := nestedJoinInner_where leftRow lc rc w cols l r hstar rightRows
    obtain ⟨Lr, hrN, hrW⟩ := nestedJoinLoop_where rightRows lc rc w cols l r hstar restL
    refine ⟨Li ++ Lr, ?_, ?_⟩
    · simp only [nestedJoinLoop, hiN, hrN]
    · simp only [nestedJoinLoop, hiW, hrW, List.filter_append]

/-- C5: the WHERE clause of a join SELECT filters the merged rows by
looking the condition column up *verbatim* in the namespaced merged row —
only `table.column` keys exist there, and the source's "fallback" re-reads
the same key, so an unqualified WHERE column never resolves.  For a `*`
projection, the WHERE'd join equals the unfiltered join filtered by that
verbatim comparison. -/
theorem join_where_filters (ast : SelectNode) (db : Database) (w : Cond)
    (hstar : "*" ∈ ast.columns) (hw : ast.whereCond = some w) :
    executeJoin ast db =
      (executeJoin { ast with whereCond := none } db).map
        (List.filter (fun jr => matchesWhere jr w)) := by
  obtain ⟨tn, cols, wc, jn⟩ := ast
  simp only at hstar hw
  subst hw
  cases jn with
  | none => rfl
  | some join =>
    simp only [executeJoin]
    cases db.getTable tn with
    | error e => rfl
    | ok lt =>
      simp only
      cases db.getTable join.table with
      | error e => rfl
      | ok rt =>
        simp only
        by_cases hl : (lt.getColumn join.onCols.left).isNone = true
        · rw [if_pos hl, if_pos hl]
          rfl
        · rw [if_neg hl, if_neg hl]
          by_cases hr : (rt.getColumn join.onCols.right).isNone = true
          · rw [if_pos hr, if_pos hr]
            rfl
          · rw [if_neg hr, if_neg hr]
            cases alookup rt.indexes join.onCols.right with
            | some idx =>
              simp only
              obtain ⟨L, hN, hW⟩ :=
                indexJoinLoop_where idx rt.rows join.onCols.left w cols tn join.table
                  hstar lt.rows
              rw [hN, hW]
              rfl
            | none =>
              simp only
              obtain ⟨L, hN, hW⟩ :=
                nestedJoinLoop_where rt.rows join.onCols.left join.onCols.right w cols
                  tn join.table hstar lt.rows
              rw [hN, hW]
              rfl

def c5Users : Table :=
  ⟨"users", [⟨"id", "INT", true, true⟩, ⟨"name", "TEXT", false, false⟩],
    [[("id", Value.vint 1), ("name", Value.vstr "Alice")]], []⟩

def c5Posts : Table :=
  ⟨"posts", [⟨"id", "INT", true, true⟩, ⟨"user_id", "INT", false, false⟩],
    [[("id", Value.vint 5), ("user_id", Value.vint 1)]], []⟩

def c5Db : Database := ⟨"db", [("users", c5Users), ("posts", c5Posts)]⟩

def c5Ast : SelectNode :=
  ⟨"users", ["*"], some ⟨"name", "=", Value.vstr "Alice"⟩,
    some ⟨"INNER", "posts", ⟨"id", "user_id"⟩⟩⟩

/-- C5 counterexample (to the claim as stated): the unfiltered join yields
one merged row whose qualified `users.name` is `'Alice'`, yet the same join
with `WHERE name = 'Alice'` (unqualified, which the promised fallback would
resolve) returns no rows. -/
theorem join_where_counterexample :
    executeJoin c5Ast c5Db = .ok [] ∧
    executeJoin { c5Ast with whereCond := none } c5Db
      = .ok [[("users.id", Value.vint 1), ("users.name", Value.vstr "Alice"),
              ("posts.id", Value.vint 5), ("posts.user_id", Value.vint 1)]] ∧
    Row.get [("users.id", Value.vint 1), ("users.name", Value.vstr "Alice"),
             ("posts.id", Value.vint 5), ("posts.user_id", Value.vint 1)] "users.name"
      = some (Value.vstr "Alice") := by
  refine ⟨?_, ?_, ?_⟩ <;> rfl

/-- C5 witness: the verbatim-WHERE filtering theorem applied to the
concrete counterexample query. -/
theorem join_where_filters_witness :
    executeJoin c5Ast c5Db =
      (executeJoin { c5Ast with whereCond := none } c5Db).map
        (List.filter (fun jr => matchesWhere jr ⟨"name", "=", Value.vstr "Alice"⟩)) :=
  join_where_filters c5Ast c5Db ⟨"name", "=", Value.vstr "Alice"⟩ (by decide) rfl

end RDB
